import Mathlib

/-!
A shallow embedding of the per-thread-bin `malloc` library (`malloc.c`, `malloc.h`)

The allocator is modelled as state-passing functions over an explicit machine
state: a flat byte-addressed memory, the allocator's global and thread-local
variables, and the part of the operating system the code talks to (`sbrk`,
`mmap`, `sysconf(_SC_PAGESIZE)`).

Platform conventions (LP64, little endian): pointers, `size_t` and
`unsigned long` are 64-bit, `int` is 32-bit two's complement, and
`struct block_info` is 16 bytes: `size` at offset 0, four bytes of padding,
`next` at offset 8.

Every memory access of the code is checked against the mapped address space;
an access outside it ends the run with `Res.fault`.  The two list-walking
loops of the code take a fuel argument; running out of it is `Res.timeout`.
-/

namespace Malloc

/-! ## Machine integers -/

/-- Modulus of pointers, `size_t` and `unsigned long`. -/
def WORD : Nat := 2 ^ 64

/-- The constant `INT_MAX` of `limits.h`. -/
def INT_MAX : Int := 2 ^ 31 - 1

/-- The value of `sizeof(block_info)`. -/
def HDR : Nat := 16

/-- The pointer `(void *) -1`, returned by a failing `sbrk` or `mmap`. -/
def MAP_FAILED : Nat := 2 ^ 64 - 1

/-- Conversion of an integer value to `int` (32-bit two's complement wrap). -/
def int_of (z : Int) : Int := (z + 2 ^ 31) % 2 ^ 32 - 2 ^ 31

/-- Conversion of a (possibly negative) integer value to `size_t`. -/
def size_t_of (z : Int) : Nat := (z % 2 ^ 64).toNat

/-- Pointer or `size_t` addition. -/
def padd (a b : Nat) : Nat := (a + b) % WORD

/-- Pointer or `size_t` subtraction; a pointer difference converted to `size_t`. -/
def psub (a b : Nat) : Nat := (a + (WORD - b % WORD)) % WORD

/-! ## Memory -/

/-- Byte-addressed memory. -/
abbrev Mem := Nat → Nat

/-- Little-endian load of `n` bytes at `a`. -/
def loadLE (m : Mem) (a : Nat) : Nat → Nat
  | 0 => 0
  | n + 1 => m a % 256 + 256 * loadLE m (a + 1) n

/-- Little-endian store of the low `n` bytes of `v` at `a`. -/
def storeLE (m : Mem) (a n v : Nat) : Mem :=
  fun x => if a ≤ x ∧ x < a + n then v / 256 ^ (x - a) % 256 else m x

/-- The libc `memset`. -/
def memset (m : Mem) (p c n : Nat) : Mem :=
  fun x => if p ≤ x ∧ x < p + n then c % 256 else m x

/-- The libc `memcpy`; all source bytes are read before any is written. -/
def memcpy (m : Mem) (dst src n : Nat) : Mem :=
  fun x => if dst ≤ x ∧ x < dst + n then m (src + (x - dst)) else m x

/-- Read of the field `size` of the `block_info` at `b`. -/
def load_size (m : Mem) (b : Nat) : Int := int_of (loadLE m b 4)

/-- Read of the field `next` of the `block_info` at `b`. -/
def load_next (m : Mem) (b : Nat) : Nat := loadLE m (b + 8) 8

/-- Write of the field `next` of the `block_info` at `b`. -/
def store_next (m : Mem) (b v : Nat) : Mem := storeLE m (b + 8) 8 v

/-- The `memcpy(dst, &b, sizeof(block_info))` of a local `block_info b` with the
given fields; the four padding bytes are stored as zero. -/
def store_block_info (m : Mem) (dst : Nat) (size : Int) (next : Nat) : Mem :=
  storeLE (storeLE (storeLE m dst 4 (size_t_of size)) (dst + 4) 4 0) (dst + 8) 8 next

/-! ## State -/

/-- Allocator variables of `malloc.h` (one thread) together with the operating
system state the code observes. -/
structure State where
  /-- process memory -/
  mem : Mem
  /-- thread-local free list of 8-byte blocks -/
  bin_8 : Nat
  /-- thread-local free list of 64-byte blocks -/
  bin_64 : Nat
  /-- thread-local free list of 512-byte blocks -/
  bin_512 : Nat
  /-- thread-local free list of blocks larger than 512 bytes -/
  bin_large : Nat
  /-- end of the heap memory handed out to threads -/
  heap_used_memory_end : Nat
  /-- start of the unused part of the thread's slice -/
  thread_unused_heap_start : Nat
  /-- end of the thread's slice -/
  thread_heap_end : Nat
  /-- statistics counter -/
  total_arena_size_allocated : Nat
  /-- statistics counter -/
  total_mmap_size_allocated : Nat
  /-- statistics counter -/
  total_number_of_blocks : Nat
  /-- statistics counter -/
  total_allocation_request : Nat
  /-- statistics counter -/
  total_free_request : Nat
  /-- statistics counter -/
  total_free_blocks : Nat
  /-- value of `sysconf(_SC_PAGESIZE)` -/
  pagesize : Nat
  /-- initial program break: lowest address of the `sbrk` heap -/
  heap_base : Nat
  /-- current program break -/
  brk : Nat
  /-- highest program break the system grants -/
  brk_limit : Nat
  /-- lowest address of the area the kernel places mappings in -/
  mmap_base : Nat
  /-- end of the last mapping; the next mapping is placed here -/
  mmap_next : Nat
  /-- end of the area the kernel places mappings in -/
  mmap_limit : Nat

/-- Result of a computation that may fault or exhaust its loop fuel. -/
inductive Res (α : Type) where
  | ok : α → Res α
  | fault : Res α
  | timeout : Res α

/-- Result of a call: returned value and state after the call. -/
abbrev Outcome (α : Type) := Res (α × State)

/-- The four thread-local list roots `get_bin` can point to. -/
inductive Bin where
  | b8 : Bin
  | b64 : Bin
  | b512 : Bin
  | large : Bin
  deriving DecidableEq, Repr

/-- Dereference of a bin pointer. -/
def State.bin (st : State) : Bin → Nat
  | Bin.b8 => st.bin_8
  | Bin.b64 => st.bin_64
  | Bin.b512 => st.bin_512
  | Bin.large => st.bin_large

/-- Assignment through a bin pointer. -/
def State.setBin (st : State) (b : Bin) (v : Nat) : State :=
  match b with
  | Bin.b8 => { st with bin_8 := v }
  | Bin.b64 => { st with bin_64 := v }
  | Bin.b512 => { st with bin_512 := v }
  | Bin.large => { st with bin_large := v }

/-- The bytes `[a, a + n)` lie in the `sbrk` heap or in the mapped area. -/
def accessible (st : State) (a n : Nat) : Prop :=
  n = 0 ∨ (st.heap_base ≤ a ∧ a + n ≤ st.brk) ∨ (st.mmap_base ≤ a ∧ a + n ≤ st.mmap_next)

instance (st : State) (a n : Nat) : Decidable (accessible st a n) := by
  unfold accessible; infer_instance

/-! ## Operating system -/

/-- The system call `sbrk`: returns the old break, or `(void *) -1` when the
break would pass the limit. -/
def sbrk (st : State) (increment : Nat) : Nat × State :=
  if st.brk + increment ≤ st.brk_limit then
    (st.brk, { st with brk := st.brk + increment })
  else (MAP_FAILED, st)

/-- Length rounded up to whole pages. -/
def page_round (pagesize len : Nat) : Nat := (len + pagesize - 1) / pagesize * pagesize

/-- The system call `mmap(NULL, length, PROT_READ | PROT_WRITE,
MAP_ANONYMOUS | MAP_PRIVATE, -1, 0)`: the kernel places the mapping after the
previous one, or fails with `MAP_FAILED`. -/
def mmap (st : State) (length : Nat) : Nat × State :=
  if length = 0 ∨ st.mmap_limit < st.mmap_next + page_round st.pagesize length then
    (MAP_FAILED, st)
  else (st.mmap_next, { st with mmap_next := st.mmap_next + page_round st.pagesize length })

/-! ## The allocator (`malloc.c`) -/

/-- C function `align8`. -/
def align8 (x : Nat) : Nat := (psub x 1 / 8 * 8 + 8) % WORD

/-- C function `get_bin`. -/
def get_bin (size : Nat) : Bin :=
  if size = 8 then Bin.b8
  else if size = 64 then Bin.b64
  else if size = 512 then Bin.b512
  else Bin.large

/-- C function `block_from_unused_heap`, second half: write the header at the
thread cursor, advance the cursor, update the statistics. -/
def carve (st : State) (size : Nat) : Outcome Nat :=
  if ¬ accessible st st.thread_unused_heap_start HDR then Res.fault
  else
    let st1 := { st with
      mem := store_block_info st.mem st.thread_unused_heap_start (int_of size) 0 }
    let st2 := { st1 with
      thread_unused_heap_start := padd st1.thread_unused_heap_start (padd HDR size) }
    let st3 := { st2 with
      total_number_of_blocks := padd st2.total_number_of_blocks 1
      total_arena_size_allocated := padd st2.total_arena_size_allocated size }
    Res.ok (psub st3.thread_unused_heap_start size, st3)

/-- C function `block_from_unused_heap`. -/
def block_from_unused_heap (st : State) (size : Nat) : Outcome Nat :=
  if st.thread_unused_heap_start = 0 ∨
      psub st.thread_heap_end st.thread_unused_heap_start < padd size HDR then
    -- heap of the process not initialised, or too little room before the break
    let st1 :=
      if st.heap_used_memory_end = 0 ∨
          psub st.brk st.heap_used_memory_end < padd size HDR then
        if st.heap_used_memory_end = 0 then
          { st with heap_used_memory_end := st.brk }  -- sbrk(0)
        else st
        -- align8(heap_used_memory_end): the result is not assigned
      else st
    if st.heap_used_memory_end = 0 ∧ st1.heap_used_memory_end = MAP_FAILED then
      Res.ok (0, st1)
    else
      -- extend heap, return NULL on failure
      let r := sbrk st1 (st1.pagesize * 100)
      if r.1 = MAP_FAILED then Res.ok (0, r.2)
      else
        let st2 := r.2
        let st3 := { st2 with thread_unused_heap_start := st2.heap_used_memory_end }
        let st4 := { st3 with
          thread_heap_end := padd st3.heap_used_memory_end st3.pagesize }
        let st5 := { st4 with heap_used_memory_end := st4.thread_heap_end }
        carve st5 size
  else carve st size

/-- C function `heap_allocate`. -/
def heap_allocate (st : State) (size : Nat) : Outcome Nat :=
  let bin := get_bin size
  if st.bin bin ≠ 0 then
    let p := st.bin bin
    if ¬ accessible st (p + 8) 8 then Res.fault
    else
      let st1 := st.setBin bin (load_next st.mem p)
      let st2 := { st1 with mem := store_next st1.mem p 0 }
      let st3 := { st2 with total_free_blocks := psub st2.total_free_blocks 1 }
      Res.ok (padd p HDR, st3)
  else block_from_unused_heap st size

/-- First loop of `find_best_fit_from_bin_large`: walk the list from `b`,
tracking `best_fit` and `min_fit_size`; returns the final `best_fit`. -/
def best_fit_loop (st : State) (size : Nat) : Nat → Nat → Nat → Int → Res Nat
  | 0, _, _, _ => Res.timeout
  | fuel + 1, b, best_fit, min_fit_size =>
    if b = 0 then Res.ok best_fit
    else if ¬ (accessible st b 4 ∧ accessible st (b + 8) 8) then Res.fault
    else if size ≤ size_t_of (load_size st.mem b) ∧ load_size st.mem b < min_fit_size then
      best_fit_loop st size fuel (load_next st.mem b) b (load_size st.mem b)
    else best_fit_loop st size fuel (load_next st.mem b) best_fit min_fit_size

/-- Second loop of `find_best_fit_from_bin_large`: walk from `b` to the block
whose `next` is `best_fit` (or to NULL). -/
def find_prev_loop (st : State) (best_fit : Nat) : Nat → Nat → Res Nat
  | 0, _ => Res.timeout
  | fuel + 1, b =>
    if b = 0 then Res.ok b
    else if ¬ accessible st (b + 8) 8 then Res.fault
    else if load_next st.mem b ≠ best_fit then
      find_prev_loop st best_fit fuel (load_next st.mem b)
    else Res.ok b

/-- C function `find_best_fit_from_bin_large`. -/
def find_best_fit_from_bin_large (fuel : Nat) (st : State) (size : Nat) : Outcome Nat :=
  match best_fit_loop st size fuel st.bin_large 0 INT_MAX with
  | Res.fault => Res.fault
  | Res.timeout => Res.timeout
  | Res.ok best_fit =>
    if best_fit ≠ 0 then
      if best_fit = st.bin_large then
        if ¬ accessible st (best_fit + 8) 8 then Res.fault
        else
          let st1 := { st with bin_large := load_next st.mem st.bin_large }
          let st2 := { st1 with mem := store_next st1.mem best_fit 0 }
          Res.ok (padd best_fit HDR, st2)
      else
        match find_prev_loop st best_fit fuel st.bin_large with
        | Res.fault => Res.fault
        | Res.timeout => Res.timeout
        | Res.ok b =>
          if ¬ accessible st (best_fit + 8) 8 then Res.fault
          else
            let st1 :=
              if b ≠ 0 then { st with mem := store_next st.mem b (load_next st.mem best_fit) }
              else st
            let st2 := { st1 with mem := store_next st1.mem best_fit 0 }
            Res.ok (padd best_fit HDR, st2)
    else Res.ok (0, st)

/-- C function `mmap_new_memory`. -/
def mmap_new_memory (st : State) (size : Nat) : Outcome Nat :=
  let num_pages : Int := int_of ((padd (psub (padd size HDR) 1 / st.pagesize) 1 : Nat) : Int)
  let required_page_size : Int := int_of ((st.pagesize : Int) * num_pages)
  let r := mmap st (size_t_of required_page_size)
  let ret := r.1
  let st1 := r.2
  let b_size : Int := int_of ((psub (size_t_of required_page_size) HDR : Nat) : Int)
  if ¬ accessible st1 ret HDR then Res.fault
  else
    let st2 := { st1 with mem := store_block_info st1.mem ret b_size 0 }
    let st3 := { st2 with
      total_mmap_size_allocated := padd st2.total_mmap_size_allocated size }
    Res.ok (padd ret HDR, st3)

/-- C function `alloc_large`. -/
def alloc_large (fuel : Nat) (st : State) (size : Nat) : Outcome Nat :=
  let r : Outcome Nat :=
    if st.bin_large ≠ 0 then find_best_fit_from_bin_large fuel st size
    else Res.ok (0, st)
  match r with
  | Res.ok (ret, st1) => if ret = 0 then mmap_new_memory st1 size else Res.ok (ret, st1)
  | Res.fault => Res.fault
  | Res.timeout => Res.timeout

/-- C function `malloc`.  The test `size < 0` of the source is never true for
a `size_t` and has no counterpart here. -/
def malloc (fuel : Nat) (st : State) (size : Nat) : Outcome Nat :=
  let st1 := { st with total_allocation_request := padd st.total_allocation_request 1 }
  if 512 < size then alloc_large fuel st1 size
  else heap_allocate st1 (if size ≤ 8 then 8 else if size ≤ 64 then 64 else 512)

/-- Loop of `free`: is `block` on the list starting at `check_bin`? -/
def already_freed_loop (st : State) (block : Nat) : Nat → Nat → Res Bool
  | 0, _ => Res.timeout
  | fuel + 1, check_bin =>
    if check_bin = 0 then Res.ok false
    else if check_bin = block then Res.ok true
    else if ¬ accessible st (check_bin + 8) 8 then Res.fault
    else already_freed_loop st block fuel (load_next st.mem check_bin)

/-- C function `free`. -/
def free (fuel : Nat) (st : State) (p : Nat) : Outcome Unit :=
  let st1 := { st with
    total_free_request := padd st.total_free_request 1
    total_free_blocks := padd st.total_free_blocks 1 }
  if p ≠ 0 then
    let block := psub p HDR
    if ¬ accessible st1 block 4 then Res.fault
    else if ¬ accessible st1 p (size_t_of (load_size st1.mem block)) then Res.fault
    else
      let st2 := { st1 with mem := memset st1.mem p 0 (size_t_of (load_size st1.mem block)) }
      let bin := get_bin (size_t_of (load_size st2.mem block))
      match already_freed_loop st2 block fuel (st2.bin bin) with
      | Res.fault => Res.fault
      | Res.timeout => Res.timeout
      | Res.ok true => Res.ok ((), st2)
      | Res.ok false =>
        if ¬ accessible st2 (block + 8) 8 then Res.fault
        else
          let st3 := { st2 with mem := store_next st2.mem block (st2.bin bin) }
          Res.ok ((), st3.setBin bin block)
  else Res.ok ((), st1)

/-- C function `calloc`. -/
def calloc (fuel : Nat) (st : State) (nmemb size : Nat) : Outcome Nat :=
  match malloc fuel st (nmemb * size % WORD) with
  | Res.fault => Res.fault
  | Res.timeout => Res.timeout
  | Res.ok (p, st1) =>
    let b := psub p HDR
    if ¬ accessible st1 b 4 then Res.fault
    else if ¬ accessible st1 p (size_t_of (load_size st1.mem b)) then Res.fault
    else
      Res.ok (p, { st1 with mem := memset st1.mem p 0 (size_t_of (load_size st1.mem b)) })

/-- C function `realloc`. -/
def realloc (fuel : Nat) (st : State) (ptr size : Nat) : Outcome Nat :=
  if ptr = 0 then malloc fuel st size
  else
    match malloc fuel st size with
    | Res.fault => Res.fault
    | Res.timeout => Res.timeout
    | Res.ok (newptr, st1) =>
      if newptr = 0 then Res.ok (0, st1)
      else
        let old_block := psub ptr HDR
        if ¬ accessible st1 old_block 4 then Res.fault
        else
          let n := size_t_of (load_size st1.mem old_block)
          if ¬ (accessible st1 ptr n ∧ accessible st1 newptr n) then Res.fault
          else
            let st2 := { st1 with mem := memcpy st1.mem newptr ptr n }
            match free fuel st2 ptr with
            | Res.fault => Res.fault
            | Res.timeout => Res.timeout
            | Res.ok (_, st3) => Res.ok (newptr, st3)

/-- C function `memalign`. -/
def memalign (st : State) (_alignment _s : Nat) : Outcome Nat :=
  Res.ok (st.heap_used_memory_end, st)

/-- State at program start: no bins, no arena, all counters zero. -/
def init (pagesize brk0 brk_limit mmap_base mmap_limit : Nat) (mem : Mem) : State :=
  { mem := mem
    bin_8 := 0, bin_64 := 0, bin_512 := 0, bin_large := 0
    heap_used_memory_end := 0
    thread_unused_heap_start := 0
    thread_heap_end := 0
    total_arena_size_allocated := 0
    total_mmap_size_allocated := 0
    total_number_of_blocks := 0
    total_allocation_request := 0
    total_free_request := 0
    total_free_blocks := 0
    pagesize := pagesize
    heap_base := brk0
    brk := brk0
    brk_limit := brk_limit
    mmap_base := mmap_base
    mmap_next := mmap_base
    mmap_limit := mmap_limit }

/-! ## Heap invariant -/

/-- The free list rooted at `head` is the null-terminated chain of the block
headers `l`, in list order. -/
def IsList (m : Mem) : Nat → List Nat → Prop
  | head, [] => head = 0
  | head, a :: l => head = a ∧ a ≠ 0 ∧ IsList m (load_next m a) l

instance (m : Mem) : (head : Nat) → (l : List Nat) → Decidable (IsList m head l)
  | head, [] => by unfold IsList; infer_instance
  | head, a :: l => by
    unfold IsList
    exact @instDecidableAnd _ _ _ (@instDecidableAnd _ _ _ (instDecidableIsList m _ l))

/-- Bookkeeping that is not program state: every block carved so far, as
(header address, recorded size), and the contents of the four bins. -/
structure Ghost where
  /-- every block carved so far -/
  blocks : List (Nat × Nat)
  /-- header addresses on each bin, head first -/
  fl : Bin → List Nat

/-- The extents (header and payload) of two blocks do not overlap. -/
def Apart (a b : Nat × Nat) : Prop :=
  a.1 + HDR + a.2 ≤ b.1 ∨ b.1 + HDR + b.2 ≤ a.1

/-- Assumptions on the operating system: the page size is a power of two above
528, the `sbrk` heap lies below the mapping area, and both lie in the lower
half of the address space, above address zero. -/
def OSok (st : State) : Prop :=
  528 < st.pagesize ∧ st.pagesize ∣ 2 ^ 31 ∧ 0 < st.heap_base ∧
  st.heap_base ≤ st.brk ∧ st.brk ≤ st.brk_limit ∧ st.brk_limit ≤ st.mmap_base ∧
  st.mmap_base ≤ st.mmap_next ∧ st.mmap_next ≤ st.mmap_limit ∧ st.mmap_limit < 2 ^ 63

/-- The arena cursors are ordered and lie in the `sbrk` heap, and the unused part
of the thread's slice is at most one page. -/
def ArenaOk (st : State) : Prop :=
  st.thread_unused_heap_start ≤ st.thread_heap_end ∧
  st.thread_heap_end ≤ st.heap_used_memory_end ∧
  st.heap_used_memory_end ≤ st.brk ∧
  (st.thread_unused_heap_start ≠ 0 → st.heap_base ≤ st.thread_unused_heap_start) ∧
  (st.heap_used_memory_end ≠ 0 → st.heap_base ≤ st.heap_used_memory_end) ∧
  st.thread_heap_end ≤ st.thread_unused_heap_start + st.pagesize

/-- The block `b` has an intact header and lies either in the used part of the
arena (fixed sizes) or in the mapped area (sizes above 512). -/
def BlockOk (st : State) (b : Nat × Nat) : Prop :=
  load_size st.mem b.1 = (b.2 : Int) ∧
  (((b.2 = 8 ∨ b.2 = 64 ∨ b.2 = 512) ∧ st.heap_base ≤ b.1 ∧
      b.1 + HDR + b.2 ≤ st.thread_unused_heap_start) ∨
   (512 < b.2 ∧ b.2 < 2 ^ 31 - 1 ∧ st.mmap_base ≤ b.1 ∧ b.1 + HDR + b.2 ≤ st.mmap_next))

/-- The bin `bin` is a well-formed list of distinct blocks of its class. -/
def BinOk (g : Ghost) (st : State) (bin : Bin) : Prop :=
  IsList st.mem (st.bin bin) (g.fl bin) ∧ (g.fl bin).Nodup ∧
  ∀ h ∈ g.fl bin, ∃ k, (h, k) ∈ g.blocks ∧ get_bin k = bin

/-- The heap invariant. -/
def Inv (g : Ghost) (st : State) : Prop :=
  OSok st ∧ ArenaOk st ∧ (∀ b ∈ g.blocks, BlockOk st b) ∧
  g.blocks.Pairwise Apart ∧ ∀ bin, BinOk g st bin

/-- Bookkeeping at program start. -/
def Ghost.empty : Ghost := { blocks := [], fl := fun _ => [] }

/-- Bookkeeping after a carve of the block `b`. -/
def Ghost.carve (g : Ghost) (b : Nat × Nat) : Ghost :=
  { g with blocks := b :: g.blocks }

/-- Bookkeeping after the bin `bin` received the contents `l`. -/
def Ghost.setFl (g : Ghost) (bin : Bin) (l : List Nat) : Ghost :=
  { g with fl := fun b => if b = bin then l else g.fl b }

/-- The memories agree on the `size` field of every block. -/
def SameSizes (bl : List (Nat × Nat)) (m m' : Mem) : Prop :=
  ∀ b ∈ bl, load_size m' b.1 = load_size m b.1

/-- The two states have the same operating-system state and arena cursors. -/
def SameEnv (st st' : State) : Prop :=
  st'.pagesize = st.pagesize ∧ st'.heap_base = st.heap_base ∧ st'.brk = st.brk ∧
  st'.brk_limit = st.brk_limit ∧ st'.mmap_base = st.mmap_base ∧
  st'.mmap_next = st.mmap_next ∧ st'.mmap_limit = st.mmap_limit ∧
  st'.thread_unused_heap_start = st.thread_unused_heap_start ∧
  st'.thread_heap_end = st.thread_heap_end ∧
  st'.heap_used_memory_end = st.heap_used_memory_end

/-- The state `heap_allocate` leaves when it pops the head `a` of `bin`. -/
def pop_state (st : State) (bin : Bin) (a : Nat) : State :=
  { (st.setBin bin (load_next st.mem a)) with
    mem := store_next st.mem a 0
    total_free_blocks := psub st.total_free_blocks 1 }

/-- The state `free` leaves when the block at `h` of size `k` is found on its
bin: counters bumped, payload zeroed. -/
def free_dup_state (st : State) (h k : Nat) : State :=
  { st with
    total_free_request := padd st.total_free_request 1
    total_free_blocks := padd st.total_free_blocks 1
    mem := memset st.mem (h + HDR) 0 k }

/-- The state `free` leaves when it pushes the block at `h` of size `k`. -/
def free_push_state (st : State) (h k : Nat) : State :=
  State.setBin
    { st with
      total_free_request := padd st.total_free_request 1
      total_free_blocks := padd st.total_free_blocks 1
      mem := store_next (memset st.mem (h + HDR) 0 k) h (st.bin (get_bin k)) }
    (get_bin k) h

/-- Bookkeeping after `free` of the block at `h` of size `k`. -/
def Ghost.free (g : Ghost) (h k : Nat) : Ghost :=
  if h ∈ g.fl (get_bin k) then g else g.setFl (get_bin k) (h :: g.fl (get_bin k))

/-- Pure counterpart of the first loop of `find_best_fit_from_bin_large` over
the blocks `l`: the final `best_fit`. -/
def best_fit_scan (m : Mem) (size : Nat) : List Nat → Nat → Int → Nat
  | [], best_fit, _ => best_fit
  | b :: t, best_fit, min_fit_size =>
    if size ≤ size_t_of (load_size m b) ∧ load_size m b < min_fit_size then
      best_fit_scan m size t b (load_size m b)
    else best_fit_scan m size t best_fit min_fit_size

/-- Best fit in the words of the specification: `b` sits in `l` between `l1`
and `l2`, its size is at least the request, every fitting block before it is
strictly larger and no fitting block after it is smaller. -/
def IsBestFit (sz : Nat → Int) (size : Int) (l l1 : List Nat) (b : Nat) (l2 : List Nat) : Prop :=
  l = l1 ++ b :: l2 ∧ size ≤ sz b ∧
  (∀ a ∈ l1, size ≤ sz a → sz b < sz a) ∧ (∀ a ∈ l2, size ≤ sz a → sz b ≤ sz a)

/-- A large free list the code can walk: null-terminated, every header
readable, every recorded size a non-negative `int` below `INT_MAX`. -/
def LargeListOk (st : State) (l : List Nat) : Prop :=
  IsList st.mem st.bin_large l ∧
  ∀ a ∈ l, accessible st a 4 ∧ accessible st (a + 8) 8 ∧ a + HDR < 2 ^ 64 ∧
    0 ≤ load_size st.mem a ∧ load_size st.mem a < INT_MAX

/-- The state `find_best_fit_from_bin_large` leaves when the chosen block `r`
is the head of `bin_large`. -/
def unlink_head_state (st : State) (r : Nat) : State :=
  { st with bin_large := load_next st.mem r, mem := store_next st.mem r 0 }

/-- The state `find_best_fit_from_bin_large` leaves when the chosen block `r`
follows the block `p`. -/
def unlink_mid_state (st : State) (p r : Nat) : State :=
  { st with mem := store_next (store_next st.mem p (load_next st.mem r)) r 0 }

/-- The memories agree outside the headers of the blocks of `g`. -/
def HdrFrame (g : Ghost) (m m' : Mem) : Prop :=
  ∀ x, (∀ b ∈ g.blocks, x < b.1 ∨ b.1 + HDR ≤ x) → m' x = m x

/-- Relation between the bookkeeping before and after a `malloc(size)` that
returned `p`: either nothing was allocated (`p` is NULL), or the block at
`p - HDR` of recorded size `k` left its bin or was freshly carved, and `k` is
the size of the class of the request. -/
def Served (g g' : Ghost) (size p : Nat) : Prop :=
  (p = 0 ∧ g' = g) ∨
  ∃ h k, p = h + HDR ∧ (h, k) ∈ g'.blocks ∧
    (∀ b, g'.fl b = (g.fl b).erase h) ∧ (∀ b, h ∉ g'.fl b) ∧
    ((g'.blocks = g.blocks ∧ h ∈ g.fl (get_bin k) ∧ size ≤ k) ∨
      (g'.blocks = (h, k) :: g.blocks ∧ (∀ b ∈ g.blocks, Apart b (h, k)) ∧
        (size ≤ k ∨ ∀ b ∈ g.blocks, b.1 + HDR + b.2 ≤ h) ∧
        (size + HDR ≤ 2 ^ 31 - 1 → size ≤ k))) ∧
    (size ≤ 8 → k = 8) ∧ (8 < size → size ≤ 64 → k = 64) ∧
    (64 < size → size ≤ 512 → k = 512) ∧ (512 < size → 512 < k)

/-- The length `mmap_new_memory` passes to `mmap` for a request of `size` bytes:
the `int` byte count `required_page_size` converted to `size_t`. -/
def mmap_length (pagesize size : Nat) : Nat :=
  size_t_of (int_of ((pagesize : Int) *
    int_of ((padd (psub (padd size HDR) 1 / pagesize) 1 : Nat) : Int)))

/-- The state after `malloc` counted the request. -/
def req_state (st : State) : State :=
  { st with total_allocation_request := padd st.total_allocation_request 1 }

/-- The rounding of a request of at most 512 bytes done by `malloc`. -/
def size_class (size : Nat) : Nat := if size ≤ 8 then 8 else if size ≤ 64 then 64 else 512

/-! ## Call traces -/

/-- A call of the public interface.  `free i` releases the pointer that the
`i`-th allocation call of the trace returned (counted from 0). -/
inductive Call where
  | malloc (size : Nat) : Call
  | calloc (nmemb size : Nat) : Call
  | free (i : Nat) : Call

/-- The arguments of the call fit `size_t`. -/
def Call.fits : Call → Prop
  | Call.malloc size => size < 2 ^ 64
  | Call.calloc nmemb size => nmemb < 2 ^ 64 ∧ size < 2 ^ 64
  | Call.free _ => True

instance (c : Call) : Decidable c.fits := by
  cases c <;> unfold Call.fits <;> infer_instance

/-- What the client holds: the pointers returned so far, oldest first, those
of them that are live (non-null, returned and not freed since), and the number
of `free` calls made. -/
structure Trace where
  /-- every pointer returned so far -/
  rets : List Nat
  /-- the live pointers -/
  live : List Nat
  /-- number of calls of `free` so far -/
  nfree : Nat

/-- The trace of a client that has not called yet. -/
def Trace.start : Trace := { rets := [], live := [], nfree := 0 }

/-- The client receives the pointer `p`. -/
def Trace.ret (tr : Trace) (p : Nat) : Trace :=
  { tr with rets := tr.rets ++ [p], live := if p = 0 then tr.live else p :: tr.live }

/-- The client frees the pointer `p`. -/
def Trace.release (tr : Trace) (p : Nat) : Trace :=
  { tr with live := tr.live.filter (fun q => q ≠ p), nfree := tr.nfree + 1 }

/-- Run of a sequence of calls in one thread. -/
def exec (fuel : Nat) : List Call → State → Trace → Res (Trace × State)
  | [], st, tr => Res.ok (tr, st)
  | Call.malloc size :: cs, st, tr =>
    match malloc fuel st size with
    | Res.ok (p, st1) => exec fuel cs st1 (tr.ret p)
    | Res.fault => Res.fault
    | Res.timeout => Res.timeout
  | Call.calloc nmemb size :: cs, st, tr =>
    match calloc fuel st nmemb size with
    | Res.ok (p, st1) => exec fuel cs st1 (tr.ret p)
    | Res.fault => Res.fault
    | Res.timeout => Res.timeout
  | Call.free i :: cs, st, tr =>
    match free fuel st (tr.rets.getD i 0) with
    | Res.ok (_, st1) => exec fuel cs st1 (tr.release (tr.rets.getD i 0))
    | Res.fault => Res.fault
    | Res.timeout => Res.timeout

/-- The recorded size of the block whose payload is at `p`, as `free` reads it. -/
def rec_size (st : State) (p : Nat) : Nat := size_t_of (load_size st.mem (psub p HDR))

/-- Every non-null pointer the client received is the payload of a block of the
bookkeeping, the live pointers are among them and their blocks are on no bin,
and no bin is longer than the number of `free` calls. -/
def TraceOk (g : Ghost) (tr : Trace) : Prop :=
  (∀ r ∈ tr.rets, r ≠ 0 → ∃ h k, r = h + HDR ∧ (h, k) ∈ g.blocks) ∧
  (∀ p ∈ tr.live, p ∈ tr.rets ∧ p ≠ 0 ∧ ∀ h, p = h + HDR → ∀ b, h ∉ g.fl b) ∧
  (∀ b, (g.fl b).length ≤ tr.nfree)

/-- The state `st` with client trace `tr` is reached from program start by a
sequence of `malloc`, `calloc` and `free` calls, `free` being applied to
pointers the allocator returned; the list walks had fuel for the whole run. -/
def Reachable (st : State) (tr : Trace) : Prop :=
  ∃ (fuel : Nat) (cs : List Call) (pagesize brk0 brk_limit mmap_base mmap_limit : Nat)
    (mem : Mem),
    OSok (init pagesize brk0 brk_limit mmap_base mmap_limit mem) ∧ (∀ c ∈ cs, c.fits) ∧
    cs.length < fuel ∧
    exec fuel cs (init pagesize brk0 brk_limit mmap_base mmap_limit mem) Trace.start
      = Res.ok (tr, st)

/-! ## Concrete runs -/

/-- A program start: 4 KiB pages, the break at 16 MiB with room for 16 MiB
more, a mapping area high in the address space, and memory whose bytes are not
all equal. -/
def start_state : State :=
  init 4096 16777216 33554432 139637976727552 140733193388032 (fun a => a % 251)

/-- The value a call or run returned, if it returned. -/
def Res.val {α : Type} : Res (α × State) → Option α
  | Res.ok (a, _) => some a
  | Res.fault => none
  | Res.timeout => none

/-- The state after a call or run; the default `d` if it did not return. -/
def Res.state {α : Type} (d : State) : Res (α × State) → State
  | Res.ok (_, st) => st
  | Res.fault => d
  | Res.timeout => d

/-- The state after the calls `cs` from `start_state`. -/
def state_after (fuel : Nat) (cs : List Call) : State :=
  Res.state start_state (exec fuel cs start_state Trace.start)

/-- The trace after the calls `cs` from `start_state`. -/
def trace_after (fuel : Nat) (cs : List Call) : Trace :=
  match exec fuel cs start_state Trace.start with
  | Res.ok (tr, _) => tr
  | Res.fault => Trace.start
  | Res.timeout => Trace.start

/-- The call or run returned. -/
def Res.isOk {α : Type} : Res α → Bool
  | Res.ok _ => true
  | Res.fault => false
  | Res.timeout => false

/-- The call or run ended in an access outside the mapped address space. -/
def Res.isFault {α : Type} : Res α → Bool
  | Res.ok _ => false
  | Res.fault => true
  | Res.timeout => false

/-- A state whose `bin_large` holds three free blocks that record 2000, 5000
and 3000 bytes, in this order, laid out one after the other from the start of
the heap. -/
def three_block_state : State :=
  { start_state with
    brk := 16777216 + 409600
    bin_large := 16777216
    mem := store_block_info
      (store_block_info (store_block_info start_state.mem 16777216 2000 16779232)
        16779232 5000 16784248)
      16784248 3000 0 }

/-- A program start at which the system grants no move of the break. -/
def no_heap_state : State :=
  init 4096 16777216 16777216 139637976727552 140733193388032 (fun a => a % 251)

/-- A program start at which the system grants no mapping. -/
def no_map_state : State :=
  init 4096 16777216 33554432 139637976727552 139637976727552 (fun a => a % 251)

/-- A program start with a break that is not a multiple of 8. -/
def odd_break_state : State :=
  init 4096 16777219 33554432 139637976727552 140733193388032 (fun a => a % 251)

/-! ## Memory lemmas -/

theorem storeLE_outside (m : Mem) (a n v x : Nat) (h : x < a ∨ a + n ≤ x) :
    storeLE m a n v x = m x := by
  unfold storeLE
  rw [if_neg]
  omega

theorem memset_outside (m : Mem) (p c n x : Nat) (h : x < p ∨ p + n ≤ x) :
    memset m p c n x = m x := by
  unfold memset
  rw [if_neg]
  omega

theorem memset_inside (m : Mem) (p n x : Nat) (h1 : p ≤ x) (h2 : x < p + n) :
    memset m p 0 n x = 0 := by
  unfold memset
  rw [if_pos ⟨h1, h2⟩]

theorem memcpy_outside (m : Mem) (d s n x : Nat) (h : x < d ∨ d + n ≤ x) :
    memcpy m d s n x = m x := by
  unfold memcpy
  rw [if_neg]
  omega

theorem memcpy_inside (m : Mem) (d s n i : Nat) (h : i < n) :
    memcpy m d s n (d + i) = m (s + i) := by
  unfold memcpy
  rw [if_pos ⟨by omega, by omega⟩]
  congr 1
  omega

theorem loadLE_congr (m m' : Mem) (n : Nat) :
    ∀ a : Nat, (∀ x, a ≤ x → x < a + n → m' x = m x) → loadLE m' a n = loadLE m a n := by
  induction n with
  | zero => intro a _; rfl
  | succ n ih =>
    intro a h
    simp only [loadLE]
    rw [h a (le_refl a) (by omega), ih (a + 1) (fun x h1 h2 => h x (by omega) (by omega))]

theorem loadLE_lt (m : Mem) (n : Nat) : ∀ a : Nat, loadLE m a n < 256 ^ n := by
  induction n with
  | zero => intro a; simp [loadLE]
  | succ n ih =>
    intro a
    simp only [loadLE]
    have h1 := ih (a + 1)
    have h2 : m a % 256 < 256 := Nat.mod_lt _ (by norm_num)
    rw [pow_succ]
    omega

theorem loadLE_storeLE (m : Mem) (n : Nat) :
    ∀ a v : Nat, loadLE (storeLE m a n v) a n = v % 256 ^ n := by
  induction n with
  | zero => intro a v; simp [loadLE, Nat.mod_one]
  | succ n ih =>
    intro a v
    simp only [loadLE]
    have h1 : storeLE m a (n + 1) v a = v % 256 := by
      unfold storeLE
      rw [if_pos ⟨le_refl a, by omega⟩]
      simp
    have h2 : loadLE (storeLE m a (n + 1) v) (a + 1) n
        = loadLE (storeLE m (a + 1) n (v / 256)) (a + 1) n := by
      apply loadLE_congr
      intro x hx1 hx2
      unfold storeLE
      rw [if_pos ⟨by omega, by omega⟩, if_pos ⟨hx1, hx2⟩]
      have : x - a = (x - (a + 1)) + 1 := by omega
      rw [this, pow_succ, mul_comm, Nat.div_div_eq_div_mul]
    rw [h1, h2, ih]
    rw [Nat.mod_mod, pow_succ, mul_comm (256 ^ n) 256, Nat.mod_mul]

/-! ## Integer conversions -/

theorem int_of_small (k : Nat) (h : k < 2 ^ 31) : int_of (k : Int) = (k : Int) := by
  unfold int_of
  omega

theorem size_t_of_small (k : Nat) (h : k < 2 ^ 64) : size_t_of (k : Int) = k := by
  unfold size_t_of
  omega

theorem int_of_range (z : Int) : -2 ^ 31 ≤ int_of z ∧ int_of z < 2 ^ 31 := by
  unfold int_of
  omega

theorem int_of_size_t_of (z : Int) :
    int_of (((size_t_of z % 256 ^ 4 : Nat)) : Int) = int_of z := by
  unfold int_of size_t_of
  omega

theorem padd_small (a b : Nat) (h : a + b < 2 ^ 64) : padd a b = a + b := by
  unfold padd WORD
  omega

theorem psub_small (a b : Nat) (h : b ≤ a) (h2 : a < 2 ^ 64) : psub a b = a - b := by
  unfold psub WORD
  omega

/-! ## Header fields -/

theorem load_size_congr (m m' : Mem) (b : Nat)
    (h : ∀ x, b ≤ x → x < b + 4 → m' x = m x) : load_size m' b = load_size m b := by
  unfold load_size
  rw [loadLE_congr m m' 4 b h]

theorem load_next_congr (m m' : Mem) (b : Nat)
    (h : ∀ x, b + 8 ≤ x → x < b + 16 → m' x = m x) : load_next m' b = load_next m b := by
  unfold load_next
  rw [loadLE_congr m m' 8 (b + 8) (fun x h1 h2 => h x h1 (by omega))]

theorem store_block_info_outside (m : Mem) (d : Nat) (sz : Int) (nx x : Nat)
    (h : x < d ∨ d + HDR ≤ x) : store_block_info m d sz nx x = m x := by
  unfold store_block_info
  unfold HDR at h
  rw [storeLE_outside _ _ _ _ _ (by omega), storeLE_outside _ _ _ _ _ (by omega),
    storeLE_outside _ _ _ _ _ (by omega)]

theorem store_next_outside (m : Mem) (b v x : Nat)
    (h : x < b + 8 ∨ b + 16 ≤ x) : store_next m b v x = m x := by
  unfold store_next
  rw [storeLE_outside _ _ _ _ _ (by omega)]

theorem load_size_store_block_info (m : Mem) (d : Nat) (sz : Int) (nx : Nat) :
    load_size (store_block_info m d sz nx) d = int_of sz := by
  unfold load_size
  have h : loadLE (store_block_info m d sz nx) d 4
      = loadLE (storeLE m d 4 (size_t_of sz)) d 4 := by
    apply loadLE_congr
    intro x h1 h2
    unfold store_block_info
    rw [storeLE_outside _ _ _ _ _ (by omega), storeLE_outside _ _ _ _ _ (by omega)]
  rw [h, loadLE_storeLE, int_of_size_t_of]

theorem load_next_store_block_info (m : Mem) (d : Nat) (sz : Int) (nx : Nat) :
    load_next (store_block_info m d sz nx) d = nx % 2 ^ 64 := by
  unfold load_next store_block_info
  rw [loadLE_storeLE]
  norm_num

theorem load_next_store_next (m : Mem) (b v : Nat) :
    load_next (store_next m b v) b = v % 2 ^ 64 := by
  unfold load_next store_next
  rw [loadLE_storeLE]
  norm_num

theorem load_size_store_next (m : Mem) (b v c : Nat) (h : c + 4 ≤ b + 8 ∨ b + 16 ≤ c) :
    load_size (store_next m b v) c = load_size m c := by
  apply load_size_congr
  intro x h1 h2
  exact store_next_outside _ _ _ _ (by omega)

theorem load_next_store_next_other (m : Mem) (b v c : Nat) (h : c + 16 ≤ b + 8 ∨ b + 16 ≤ c + 8) :
    load_next (store_next m b v) c = load_next m c := by
  apply load_next_congr
  intro x h1 h2
  exact store_next_outside _ _ _ _ (by omega)

theorem load_next_lt (m : Mem) (b : Nat) : load_next m b < 2 ^ 64 := by
  unfold load_next
  have := loadLE_lt m 8 (b + 8)
  norm_num at this
  exact this

/-! ## Lists in memory -/

theorem IsList_congr (m m' : Mem) (l : List Nat) :
    ∀ head, (∀ a ∈ l, load_next m' a = load_next m a) → IsList m head l → IsList m' head l := by
  induction l with
  | nil => intro head _ h; exact h
  | cons a l ih =>
    intro head hn h
    obtain ⟨h1, h2, h3⟩ := h
    refine ⟨h1, h2, ?_⟩
    rw [hn a (List.mem_cons_self a l)]
    exact ih _ (fun x hx => hn x (List.mem_cons_of_mem a hx)) h3

theorem IsList_ne_zero (m : Mem) (l : List Nat) :
    ∀ head, IsList m head l → ∀ a ∈ l, a ≠ 0 := by
  induction l with
  | nil => intro head _ a ha; cases ha
  | cons b l ih =>
    intro head h a ha
    obtain ⟨_, h2, h3⟩ := h
    rcases List.mem_cons.mp ha with rfl | ha
    · exact h2
    · exact ih _ h3 a ha

theorem IsList_head_zero (m : Mem) (l : List Nat) (h : IsList m 0 l) : l = [] := by
  cases l with
  | nil => rfl
  | cons a l => obtain ⟨h1, h2, _⟩ := h; exact absurd h1.symm h2

theorem IsList_head_ne_zero (m : Mem) (head : Nat) (l : List Nat) (h : IsList m head l)
    (hne : head ≠ 0) : ∃ t, l = head :: t ∧ IsList m (load_next m head) t := by
  cases l with
  | nil => exact absurd h hne
  | cons a l => obtain ⟨h1, _, h3⟩ := h; subst h1; exact ⟨l, rfl, h3⟩

/-! ## Consequences of the invariant -/

theorem Apart_symm (a b : Nat × Nat) (h : Apart a b) : Apart b a := by
  unfold Apart at *
  omega

theorem Inv_apart (g : Ghost) (st : State) (hinv : Inv g st) (a b : Nat × Nat)
    (ha : a ∈ g.blocks) (hb : b ∈ g.blocks) (hne : a ≠ b) : Apart a b :=
  List.Pairwise.forall (fun x y h => Apart_symm x y h) hinv.2.2.2.1 ha hb hne

theorem Inv_block_unique (g : Ghost) (st : State) (hinv : Inv g st) (h k k' : Nat)
    (ha : (h, k) ∈ g.blocks) (hb : (h, k') ∈ g.blocks) : k = k' := by
  have h1 := (hinv.2.2.1 _ ha).1
  have h2 := (hinv.2.2.1 _ hb).1
  simp only at h1 h2
  rw [h1] at h2
  exact_mod_cast h2

theorem Inv_block_bounds (g : Ghost) (st : State) (hinv : Inv g st) (b : Nat × Nat)
    (hb : b ∈ g.blocks) :
    0 < b.1 ∧ 0 < b.2 ∧ b.2 < 2 ^ 31 - 1 ∧ b.1 + HDR + b.2 < 2 ^ 63 ∧
      accessible st b.1 (HDR + b.2) := by
  obtain ⟨hos, har, hbl, _, _⟩ := hinv
  obtain ⟨_, hk⟩ := hbl b hb
  unfold OSok at hos
  unfold ArenaOk at har
  unfold accessible HDR
  unfold HDR at hk
  rcases hk with ⟨hk, h1, h2⟩ | ⟨h1, h2, h3, h4⟩
  · refine ⟨by omega, by omega, by omega, by omega, Or.inr (Or.inl ⟨h1, by omega⟩)⟩
  · refine ⟨by omega, by omega, by omega, by omega, Or.inr (Or.inr ⟨h3, by omega⟩)⟩

theorem accessible_sub (st : State) (a n a' n' : Nat) (h : accessible st a n)
    (h1 : a ≤ a') (h2 : a' + n' ≤ a + n) : accessible st a' n' := by
  unfold accessible at *
  omega

theorem Inv_bin_block (g : Ghost) (st : State) (hinv : Inv g st) (bin : Bin) (h : Nat)
    (hh : h ∈ g.fl bin) : ∃ k, (h, k) ∈ g.blocks ∧ get_bin k = bin :=
  (hinv.2.2.2.2 bin).2.2 h hh

/-- Two blocks of the bookkeeping with different header addresses are apart. -/
theorem Inv_apart_of_ne (g : Ghost) (st : State) (hinv : Inv g st) (a b : Nat × Nat)
    (ha : a ∈ g.blocks) (hb : b ∈ g.blocks) (hne : a.1 ≠ b.1) : Apart a b :=
  Inv_apart g st hinv a b ha hb (fun h => hne (by rw [h]))

/-! ## Frame lemmas -/

theorem BlockOk_frame (st st' : State) (b : Nat × Nat) (hb : BlockOk st b)
    (hs : load_size st'.mem b.1 = load_size st.mem b.1)
    (h1 : st'.heap_base = st.heap_base)
    (h2 : st.thread_unused_heap_start ≤ st'.thread_unused_heap_start)
    (h3 : st'.mmap_base = st.mmap_base) (h4 : st.mmap_next ≤ st'.mmap_next) :
    BlockOk st' b := by
  unfold BlockOk at *
  rw [hs, h1, h3]
  refine ⟨hb.1, ?_⟩
  rcases hb.2 with ⟨hk, a1, a2⟩ | ⟨a1, a2, a3, a4⟩
  · exact Or.inl ⟨hk, a1, by omega⟩
  · exact Or.inr ⟨a1, a2, a3, by omega⟩

theorem BinOk_frame (g : Ghost) (st st' : State) (bin : Bin) (hb : BinOk g st bin)
    (h1 : st'.bin bin = st.bin bin)
    (h2 : ∀ a ∈ g.fl bin, load_next st'.mem a = load_next st.mem a) : BinOk g st' bin := by
  obtain ⟨a1, a2, a3⟩ := hb
  refine ⟨?_, a2, a3⟩
  rw [h1]
  exact IsList_congr _ _ _ _ h2 a1

/-- A write outside every block header keeps the `size` and `next` fields. -/
theorem hdr_frame (g : Ghost) (m m' : Mem)
    (hf : ∀ b ∈ g.blocks, ∀ x, b.1 ≤ x → x < b.1 + HDR → m' x = m x) :
    SameSizes g.blocks m m' ∧ ∀ b ∈ g.blocks, load_next m' b.1 = load_next m b.1 := by
  unfold HDR at hf
  constructor
  · intro b hb
    exact load_size_congr _ _ _ (fun x h1 h2 => hf b hb x h1 (by omega))
  · intro b hb
    exact load_next_congr _ _ _ (fun x h1 h2 => hf b hb x (by omega) h2)

/-- Transfer of the invariant to a state with the same bookkeeping whose
memory agrees on all `size` fields and on the `next` fields of the blocks on
the bins, and whose cursors only moved forward. -/
theorem Inv_frame (g : Ghost) (st st' : State) (hinv : Inv g st)
    (hos : OSok st') (har : ArenaOk st')
    (hs : SameSizes g.blocks st.mem st'.mem)
    (hn : ∀ bin, ∀ a ∈ g.fl bin, load_next st'.mem a = load_next st.mem a)
    (hbin : ∀ bin, st'.bin bin = st.bin bin)
    (h1 : st'.heap_base = st.heap_base)
    (h2 : st.thread_unused_heap_start ≤ st'.thread_unused_heap_start)
    (h3 : st'.mmap_base = st.mmap_base) (h4 : st.mmap_next ≤ st'.mmap_next) :
    Inv g st' := by
  obtain ⟨_, _, hbl, hpw, hbins⟩ := hinv
  refine ⟨hos, har, ?_, hpw, ?_⟩
  · intro b hb
    exact BlockOk_frame st st' b (hbl b hb) (hs b hb) h1 h2 h3 h4
  · intro bin
    exact BinOk_frame g st st' bin (hbins bin) (hbin bin) (hn bin)

/-! ## Carving a fresh block -/

/-- Adding a freshly written block to the bookkeeping. -/
theorem Inv_carve (g : Ghost) (st st' : State) (h k : Nat) (hinv : Inv g st)
    (hos : OSok st') (har : ArenaOk st')
    (hmem : st'.mem = store_block_info st.mem h (k : Int) 0)
    (hbin : ∀ bin, st'.bin bin = st.bin bin)
    (h1 : st'.heap_base = st.heap_base)
    (h2 : st.thread_unused_heap_start ≤ st'.thread_unused_heap_start)
    (h3 : st'.mmap_base = st.mmap_base) (h4 : st.mmap_next ≤ st'.mmap_next)
    (hfresh : ∀ b ∈ g.blocks, Apart b (h, k))
    (hk : k < 2 ^ 31)
    (hpos : ((k = 8 ∨ k = 64 ∨ k = 512) ∧ st'.heap_base ≤ h ∧
        h + HDR + k ≤ st'.thread_unused_heap_start) ∨
      (512 < k ∧ k < 2 ^ 31 - 1 ∧ st'.mmap_base ≤ h ∧ h + HDR + k ≤ st'.mmap_next)) :
    Inv (g.carve (h, k)) st' := by
  have hfr : ∀ b ∈ g.blocks, ∀ x, b.1 ≤ x → x < b.1 + HDR → st'.mem x = st.mem x := by
    intro b hb x hx1 hx2
    rw [hmem]
    apply store_block_info_outside
    have := hfresh b hb
    unfold Apart at this
    simp only at this
    unfold HDR at *
    omega
  obtain ⟨hsz, hnx⟩ := hdr_frame g st.mem st'.mem hfr
  have hinv' : Inv g st' := by
    refine Inv_frame g st st' hinv hos har hsz ?_ hbin h1 h2 h3 h4
    intro bin a ha
    obtain ⟨k', hk', _⟩ := Inv_bin_block g st hinv bin a ha
    exact hnx (a, k') hk'
  obtain ⟨_, _, hbl, hpw, hbins⟩ := hinv'
  refine ⟨hos, har, ?_, ?_, ?_⟩
  · intro b hb
    rcases List.mem_cons.mp hb with rfl | hb
    · refine ⟨?_, hpos⟩
      simp only
      rw [hmem, load_size_store_block_info, int_of_small k hk]
    · exact hbl b hb
  · exact List.pairwise_cons.mpr
      ⟨fun b hb => Apart_symm _ _ (hfresh b hb), hpw⟩
  · intro bin
    obtain ⟨a1, a2, a3⟩ := hbins bin
    refine ⟨a1, a2, ?_⟩
    intro a ha
    obtain ⟨k', hk', hg⟩ := a3 a ha
    exact ⟨k', List.mem_cons_of_mem _ hk', hg⟩

theorem carve_eq (st : State) (size : Nat)
    (hacc : accessible st st.thread_unused_heap_start HDR)
    (h1 : st.thread_unused_heap_start + HDR + size < 2 ^ 64) (h2 : size < 2 ^ 31) :
    carve st size = Res.ok (st.thread_unused_heap_start + HDR,
      { st with
        mem := store_block_info st.mem st.thread_unused_heap_start (size : Int) 0
        thread_unused_heap_start := st.thread_unused_heap_start + HDR + size
        total_number_of_blocks := padd st.total_number_of_blocks 1
        total_arena_size_allocated := padd st.total_arena_size_allocated size }) := by
  have hio : int_of (size : Int) = (size : Int) := int_of_small size h2
  have e1 : padd HDR size = HDR + size := padd_small _ _ (by unfold HDR at *; omega)
  have e2 : padd st.thread_unused_heap_start (HDR + size)
      = st.thread_unused_heap_start + HDR + size := by
    rw [padd_small _ _ (by unfold HDR at *; omega)]
    omega
  have e3 : psub (st.thread_unused_heap_start + HDR + size) size
      = st.thread_unused_heap_start + HDR := by
    rw [psub_small _ _ (by omega) (by unfold HDR at *; omega)]
    omega
  unfold carve
  rw [if_neg (not_not.mpr hacc)]
  simp only [e1, e2, e3, hio]

theorem carve_spec (g : Ghost) (st : State) (size : Nat) (hinv : Inv g st)
    (hs : size = 8 ∨ size = 64 ∨ size = 512)
    (hne : st.thread_unused_heap_start ≠ 0)
    (hroom : st.thread_unused_heap_start + HDR + size ≤ st.thread_heap_end) :
    ∃ st', carve st size = Res.ok (st.thread_unused_heap_start + HDR, st') ∧
      Inv (g.carve (st.thread_unused_heap_start, size)) st' ∧
      st'.mem = store_block_info st.mem st.thread_unused_heap_start (size : Int) 0 ∧
      (∀ bin, st'.bin bin = st.bin bin) ∧
      (∀ b ∈ g.blocks, Apart b (st.thread_unused_heap_start, size)) ∧
      st'.thread_unused_heap_start = st.thread_unused_heap_start + HDR + size ∧
      st'.thread_heap_end = st.thread_heap_end ∧ st'.pagesize = st.pagesize := by
  have hinv0 := hinv
  obtain ⟨hos, har, hbl, hpw, hbins⟩ := hinv
  have hos' := hos
  have har' := har
  unfold OSok at hos
  unfold ArenaOk at har
  have hacc : accessible st st.thread_unused_heap_start HDR := by
    unfold accessible
    right; left
    exact ⟨har.2.2.2.1 hne, by omega⟩
  have hfresh : ∀ b ∈ g.blocks, Apart b (st.thread_unused_heap_start, size) := by
    intro b hb
    have := (hbl b hb).2
    unfold Apart
    simp only
    omega
  refine ⟨_, carve_eq st size hacc (by omega) (by omega), ?_, rfl, ?_, hfresh, rfl, rfl, rfl⟩
  · refine Inv_carve g st _ _ _ hinv0 hos' ?_ rfl (fun bin => ?_) rfl ?_ rfl (le_refl _)
      hfresh (by omega) ?_
    · unfold ArenaOk
      simp only
      refine ⟨by omega, har.2.1, har.2.2.1, fun _ => by omega, har.2.2.2.2.1, by omega⟩
    · cases bin <;> rfl
    · simp only
      omega
    · left
      refine ⟨hs, har.2.2.2.1 hne, ?_⟩
      simp only
      omega
  · intro bin
    cases bin <;> rfl

theorem bfuh_spec (g : Ghost) (st : State) (size : Nat) (hinv : Inv g st)
    (hs : size = 8 ∨ size = 64 ∨ size = 512) :
    ∃ p st', block_from_unused_heap st size = Res.ok (p, st') ∧
      ((p = 0 ∧ Inv g st' ∧ st'.mem = st.mem ∧ (∀ bin, st'.bin bin = st.bin bin) ∧
          (st.thread_unused_heap_start = 0 ∨
            st.thread_heap_end - st.thread_unused_heap_start < size + 16) ∧
          ¬ (st.brk + st.pagesize * 100 ≤ st.brk_limit) ∧
          st'.thread_unused_heap_start = st.thread_unused_heap_start ∧
          st'.thread_heap_end = st.thread_heap_end ∧ st'.brk = st.brk ∧
          st'.pagesize = st.pagesize ∧ st'.brk_limit = st.brk_limit) ∨
       (∃ h, p = h + HDR ∧ Inv (g.carve (h, size)) st' ∧
          st'.mem = store_block_info st.mem h (size : Int) 0 ∧
          (∀ bin, st'.bin bin = st.bin bin) ∧
          (∀ b ∈ g.blocks, Apart b (h, size)) ∧
          st'.thread_unused_heap_start = h + HDR + size ∧
          st'.thread_heap_end ≤ h + st'.pagesize ∧
          (st.thread_unused_heap_start ≠ 0 ∧
              st.thread_unused_heap_start + HDR + size ≤ st.thread_heap_end →
            h = st.thread_unused_heap_start ∧ st'.brk = st.brk))) := by
  have hinv0 := hinv
  obtain ⟨hos, har, hbl, hpw, hbins⟩ := hinv
  have hos' := hos
  have har' := har
  unfold OSok at hos
  unfold ArenaOk at har
  have ep : padd size HDR = size + 16 := by
    rw [padd_small _ _ (by unfold HDR; omega)]; rfl
  have es : psub st.thread_heap_end st.thread_unused_heap_start
      = st.thread_heap_end - st.thread_unused_heap_start :=
    psub_small _ _ har.1 (by omega)
  unfold block_from_unused_heap
  rw [ep, es]
  by_cases hc : st.thread_unused_heap_start = 0 ∨
      st.thread_heap_end - st.thread_unused_heap_start < size + 16
  · rw [if_pos hc]
    -- the state after the initialisation of heap_used_memory_end
    have e1 : (if st.heap_used_memory_end = 0 ∨
          psub st.brk st.heap_used_memory_end < size + 16 then
          (if st.heap_used_memory_end = 0 then { st with heap_used_memory_end := st.brk }
            else st) else st)
        = (if st.heap_used_memory_end = 0 then { st with heap_used_memory_end := st.brk }
            else st) := by
      by_cases h0 : st.heap_used_memory_end = 0
      · rw [if_pos (Or.inl h0)]
      · rw [if_neg h0]; split <;> rfl
    simp only [e1]
    generalize hst1 : (if st.heap_used_memory_end = 0 then
      { st with heap_used_memory_end := st.brk } else st) = st1
    have f_mem : st1.mem = st.mem := by subst hst1; split <;> rfl
    have f_bin : ∀ bin, st1.bin bin = st.bin bin := by
      subst hst1; intro bin; split <;> cases bin <;> rfl
    have f_tu : st1.thread_unused_heap_start = st.thread_unused_heap_start := by
      subst hst1; split <;> rfl
    have f_te : st1.thread_heap_end = st.thread_heap_end := by subst hst1; split <;> rfl
    have f_ps : st1.pagesize = st.pagesize := by subst hst1; split <;> rfl
    have f_hb : st1.heap_base = st.heap_base := by subst hst1; split <;> rfl
    have f_brk : st1.brk = st.brk := by subst hst1; split <;> rfl
    have f_bl : st1.brk_limit = st.brk_limit := by subst hst1; split <;> rfl
    have f_mb : st1.mmap_base = st.mmap_base := by subst hst1; split <;> rfl
    have f_mn : st1.mmap_next = st.mmap_next := by subst hst1; split <;> rfl
    have f_ml : st1.mmap_limit = st.mmap_limit := by subst hst1; split <;> rfl
    have f_hu : st.heap_base ≤ st1.heap_used_memory_end ∧ st1.heap_used_memory_end ≤ st.brk ∧
        st.thread_heap_end ≤ st1.heap_used_memory_end := by
      subst hst1
      by_cases h0 : st.heap_used_memory_end = 0
      · rw [if_pos h0]; simp only; omega
      · rw [if_neg h0]; have := har.2.2.2.2.1 h0; omega
    have hnf : ¬ (st.heap_used_memory_end = 0 ∧ st1.heap_used_memory_end = MAP_FAILED) := by
      unfold MAP_FAILED; omega
    rw [if_neg hnf]
    have hos1 : OSok st1 := by
      unfold OSok; rw [f_ps, f_hb, f_brk, f_bl, f_mb, f_mn, f_ml]; exact hos'
    have hinv1 : Inv g st1 := by
      refine Inv_frame g st st1 hinv0 hos1 ?_ ?_ ?_ f_bin f_hb (by omega) f_mb (by omega)
      · unfold ArenaOk
        rw [f_tu, f_te, f_brk, f_hb, f_ps]
        exact ⟨har.1, f_hu.2.2, f_hu.2.1, har.2.2.2.1, fun _ => f_hu.1, har.2.2.2.2.2⟩
      · intro b _; rw [f_mem]
      · intro bin a _; rw [f_mem]
    unfold sbrk
    by_cases hsb : st1.brk + st1.pagesize * 100 ≤ st1.brk_limit
    · rw [if_pos hsb]
      simp only
      have hnf2 : ¬ (st1.brk = MAP_FAILED) := by unfold MAP_FAILED; omega
      rw [if_neg hnf2]
      have epg : padd st1.heap_used_memory_end st1.pagesize
          = st1.heap_used_memory_end + st1.pagesize := padd_small _ _ (by omega)
      rw [epg]
      generalize hst5 : ({ st1 with
          brk := st1.brk + st1.pagesize * 100
          thread_unused_heap_start := st1.heap_used_memory_end
          thread_heap_end := st1.heap_used_memory_end + st1.pagesize
          heap_used_memory_end := st1.heap_used_memory_end + st1.pagesize } : State) = st5
      have hinv5 : Inv g st5 := by
        subst hst5
        refine Inv_frame g st1 _ hinv1 ?_ ?_ (fun b _ => rfl) (fun bin a _ => rfl) ?_ rfl ?_
          rfl (le_refl _)
        · unfold OSok; simp only
          rw [f_ps, f_hb, f_brk, f_bl, f_mb, f_mn, f_ml]
          rw [f_ps, f_brk, f_bl] at hsb
          omega
        · unfold ArenaOk; simp only
          rw [f_hb, f_brk, f_ps]
          omega
        · intro bin; cases bin <;> rfl
        · simp only; rw [f_tu]; omega
      have ht5 : st5.thread_unused_heap_start = st1.heap_used_memory_end := by
        subst hst5; rfl
      have he5 : st5.thread_heap_end = st1.heap_used_memory_end + st1.pagesize := by
        subst hst5; rfl
      have hm5 : st5.mem = st.mem := by subst hst5; exact f_mem
      have hb5 : ∀ bin, st5.bin bin = st.bin bin := by
        subst hst5; intro bin; rw [← f_bin bin]; cases bin <;> rfl
      have hp5 : st5.pagesize = st.pagesize := by subst hst5; exact f_ps
      obtain ⟨st', c1, c2, c3, c4, c5, c6, c7, c8⟩ := carve_spec g st5 size hinv5 hs
        (by rw [ht5]; omega) (by rw [ht5, he5, f_ps]; unfold HDR; omega)
      refine ⟨_, st', c1, Or.inr ⟨st5.thread_unused_heap_start, rfl, c2, ?_, ?_, c5, c6, ?_, ?_⟩⟩
      · rw [c3, hm5]
      · intro bin; rw [c4, hb5]
      · rw [c7, c8, he5, ht5, hp5, f_ps]
      · intro hroom
        exfalso
        unfold HDR at hroom
        omega
    · rw [if_neg hsb]
      simp only
      rw [f_brk, f_ps, f_bl] at hsb
      exact ⟨0, st1, rfl, Or.inl ⟨rfl, hinv1, f_mem, f_bin, hc, hsb, f_tu, f_te, f_brk, f_ps,
        f_bl⟩⟩
  · rw [if_neg hc]
    obtain ⟨st', c1, c2, c3, c4, c5, c6, c7, c8⟩ := carve_spec g st size hinv0 hs (by omega)
      (by unfold HDR; omega)
    have c9 : st'.brk = st.brk := by
      have e := carve_eq st size (by
        unfold accessible
        right; left
        exact ⟨har.2.2.2.1 (by omega), by unfold HDR; omega⟩) (by unfold HDR; omega) (by omega)
      rw [e] at c1
      rw [← (Prod.mk.inj (Res.ok.inj c1)).2]
    exact ⟨_, st', c1, Or.inr ⟨st.thread_unused_heap_start, rfl, c2, c3, c4, c5, c6,
      by rw [c7, c8]; exact har.2.2.2.2.2, fun _ => ⟨rfl, c9⟩⟩⟩

theorem store_next_frame (g : Ghost) (st : State) (hinv : Inv g st) (b0 : Nat × Nat)
    (hb0 : b0 ∈ g.blocks) (v : Nat) :
    SameSizes g.blocks st.mem (store_next st.mem b0.1 v) ∧
    ∀ b ∈ g.blocks, b.1 ≠ b0.1 →
      load_next (store_next st.mem b0.1 v) b.1 = load_next st.mem b.1 := by
  constructor
  · intro b hb
    apply load_size_store_next
    by_cases he : b.1 = b0.1
    · omega
    · have := Inv_apart_of_ne g st hinv b b0 hb hb0 he
      unfold Apart HDR at this
      omega
  · intro b hb hne
    apply load_next_store_next_other
    have := Inv_apart_of_ne g st hinv b b0 hb hb0 hne
    unfold Apart HDR at this
    omega

theorem Inv_bin_of_mem (g : Ghost) (st : State) (hinv : Inv g st) (bin : Bin) (a k : Nat)
    (ha : a ∈ g.fl bin) (hk : (a, k) ∈ g.blocks) : get_bin k = bin := by
  obtain ⟨k', hk', hg⟩ := Inv_bin_block g st hinv bin a ha
  rw [Inv_block_unique g st hinv a k k' hk hk']
  exact hg

/-- The invariant after a write to the `next` field of the block `(a, k)`: only
the bin of the class of `k` has to be re-established. -/
theorem Inv_relink (g g' : Ghost) (st st' : State) (a k v : Nat) (hinv : Inv g st)
    (ha : (a, k) ∈ g.blocks)
    (hmem : st'.mem = store_next st.mem a v)
    (hos : OSok st') (har : ArenaOk st')
    (h1 : st'.heap_base = st.heap_base)
    (h2 : st.thread_unused_heap_start ≤ st'.thread_unused_heap_start)
    (h3 : st'.mmap_base = st.mmap_base) (h4 : st.mmap_next ≤ st'.mmap_next)
    (hg : g'.blocks = g.blocks)
    (hother : ∀ bin, bin ≠ get_bin k → st'.bin bin = st.bin bin ∧ g'.fl bin = g.fl bin)
    (hthis : BinOk g' st' (get_bin k)) : Inv g' st' := by
  obtain ⟨hsz, hnx⟩ := store_next_frame g st hinv (a, k) ha v
  have hinv0 := hinv
  obtain ⟨_, _, hbl, hpw, hbins⟩ := hinv
  refine ⟨hos, har, ?_, ?_, ?_⟩
  · intro b hb
    rw [hg] at hb
    exact BlockOk_frame st st' b (hbl b hb) (by rw [hmem]; exact hsz b hb) h1 h2 h3 h4
  · rw [hg]; exact hpw
  · intro bin
    by_cases hb : bin = get_bin k
    · rw [hb]; exact hthis
    · obtain ⟨e1, e2⟩ := hother bin hb
      obtain ⟨a1, a2, a3⟩ := hbins bin
      refine ⟨?_, ?_, ?_⟩
      · rw [e1, e2]
        refine IsList_congr _ _ _ _ ?_ a1
        intro x hx
        obtain ⟨kx, hkx, hgx⟩ := a3 x hx
        rw [hmem]
        apply hnx (x, kx) hkx
        intro hxa
        simp only at hxa
        subst hxa
        exact hb (Inv_bin_of_mem g st hinv0 bin x k hx ha).symm
      · rw [e2]; exact a2
      · rw [e2, hg]; exact a3

/-- A list in memory survives a write to the `next` field of a block that is
not on it. -/
theorem IsList_store_next (g : Ghost) (st : State) (hinv : Inv g st) (a k v : Nat)
    (ha : (a, k) ∈ g.blocks) (head : Nat) (l : List Nat)
    (hl : IsList st.mem head l) (hsub : ∀ x ∈ l, ∃ kx, (x, kx) ∈ g.blocks)
    (hnot : a ∉ l) : IsList (store_next st.mem a v) head l := by
  obtain ⟨_, hnx⟩ := store_next_frame g st hinv (a, k) ha v
  refine IsList_congr _ _ _ _ ?_ hl
  intro x hx
  obtain ⟨kx, hkx⟩ := hsub x hx
  apply hnx (x, kx) hkx
  intro hxa
  simp only at hxa
  subst hxa
  exact hnot hx

/-! ## Reuse from a fixed-class bin -/

theorem setFl_same (g : Ghost) (bin : Bin) (l : List Nat) : (g.setFl bin l).fl bin = l := by
  unfold Ghost.setFl
  simp

theorem setFl_other (g : Ghost) (bin b : Bin) (l : List Nat) (h : b ≠ bin) :
    (g.setFl bin l).fl b = g.fl b := by
  unfold Ghost.setFl
  simp [h]

theorem setBin_same (st : State) (bin : Bin) (v : Nat) : (st.setBin bin v).bin bin = v := by
  cases bin <;> rfl

theorem setBin_other (st : State) (bin b : Bin) (v : Nat) (h : b ≠ bin) :
    (st.setBin bin v).bin b = st.bin b := by
  cases bin <;> cases b <;> first | rfl | exact absurd rfl h

theorem setBin_mem (st : State) (bin : Bin) (v : Nat) : (st.setBin bin v).mem = st.mem := by
  cases bin <;> rfl

theorem setBin_total_free_blocks (st : State) (bin : Bin) (v : Nat) :
    (st.setBin bin v).total_free_blocks = st.total_free_blocks := by
  cases bin <;> rfl

theorem setBin_env (st : State) (bin : Bin) (v : Nat) : SameEnv st (st.setBin bin v) := by
  cases bin <;> exact ⟨rfl, rfl, rfl, rfl, rfl, rfl, rfl, rfl, rfl, rfl⟩

theorem SameEnv_OSok (st st' : State) (h : SameEnv st st') (hos : OSok st) : OSok st' := by
  obtain ⟨e1, e2, e3, e4, e5, e6, e7, _, _, _⟩ := h
  unfold OSok
  rw [e1, e2, e3, e4, e5, e6, e7]
  exact hos

theorem SameEnv_ArenaOk (st st' : State) (h : SameEnv st st') (har : ArenaOk st) :
    ArenaOk st' := by
  obtain ⟨e1, e2, e3, _, _, _, _, e8, e9, e10⟩ := h
  unfold ArenaOk
  rw [e1, e2, e3, e8, e9, e10]
  exact har

theorem SameEnv_accessible (st st' : State) (h : SameEnv st st') (a n : Nat) :
    accessible st' a n ↔ accessible st a n := by
  obtain ⟨_, e2, e3, _, e5, e6, _, _, _, _⟩ := h
  unfold accessible
  rw [e2, e3, e5, e6]

theorem get_bin_fixed (k size : Nat) (hs : size = 8 ∨ size = 64 ∨ size = 512)
    (h : get_bin k = get_bin size) : k = size := by
  unfold get_bin at h
  rcases hs with rfl | rfl | rfl <;> simp only [if_true, if_false, Nat.reduceEqDiff] at h <;>
    split_ifs at h <;> omega

theorem get_bin_large (k : Nat) (h : 512 < k) : get_bin k = Bin.large := by
  unfold get_bin
  rw [if_neg (by omega), if_neg (by omega), if_neg (by omega)]

theorem get_bin_large_inv (g : Ghost) (st : State) (hinv : Inv g st) (b : Nat × Nat)
    (hb : b ∈ g.blocks) (h : get_bin b.2 = Bin.large) : 512 < b.2 := by
  have := (hinv.2.2.1 b hb).2
  rcases this with ⟨hk, _⟩ | ⟨hk, _⟩
  · unfold get_bin at h
    rcases hk with hk | hk | hk <;> rw [hk] at h <;> simp at h
  · exact hk

theorem pop_state_mem (st : State) (bin : Bin) (a : Nat) :
    (pop_state st bin a).mem = store_next st.mem a 0 := rfl

theorem pop_state_env (st : State) (bin : Bin) (a : Nat) : SameEnv st (pop_state st bin a) := by
  cases bin <;> simp only [SameEnv, pop_state, State.setBin, and_self]

theorem pop_state_bin (st : State) (bin : Bin) (a : Nat) :
    (pop_state st bin a).bin bin = load_next st.mem a := by
  cases bin <;> simp only [pop_state, State.bin, State.setBin]

theorem pop_state_bin_other (st : State) (bin b : Bin) (a : Nat) (h : b ≠ bin) :
    (pop_state st bin a).bin b = st.bin b := by
  cases bin <;> cases b <;>
    first | exact absurd rfl h | simp only [pop_state, State.bin, State.setBin]

theorem heap_allocate_pop_eq (st : State) (size a : Nat) (hbin : st.bin (get_bin size) = a)
    (ha : a ≠ 0) (hacc : accessible st (a + 8) 8) (hlt : a + HDR < 2 ^ 64) :
    heap_allocate st size = Res.ok (a + HDR, pop_state st (get_bin size) a) := by
  unfold heap_allocate
  simp only [hbin]
  rw [if_pos ha, if_neg (not_not.mpr hacc), padd_small _ _ hlt]
  unfold pop_state
  simp only [setBin_mem, setBin_total_free_blocks]

theorem heap_allocate_empty_eq (st : State) (size : Nat) (hbin : st.bin (get_bin size) = 0) :
    heap_allocate st size = block_from_unused_heap st size := by
  unfold heap_allocate
  simp only [hbin]
  rw [if_neg (by simp)]

theorem Inv_pop (g : Ghost) (st : State) (bin : Bin) (a : Nat) (t : List Nat)
    (hinv : Inv g st) (hfl : g.fl bin = a :: t) :
    Inv (g.setFl bin t) (pop_state st bin a) := by
  have hinv0 := hinv
  obtain ⟨hos, har, hbl, hpw, hbins⟩ := hinv
  obtain ⟨b1, b2, b3⟩ := hbins bin
  rw [hfl] at b1 b2 b3
  obtain ⟨k, hk, hgk⟩ := b3 a (List.mem_cons_self a t)
  obtain ⟨c1, c2, c3⟩ := b1
  have hnot : a ∉ t := (List.nodup_cons.mp b2).1
  have henv := pop_state_env st bin a
  refine Inv_relink g (g.setFl bin t) st (pop_state st bin a) a k 0 hinv0 hk
    (pop_state_mem st bin a) (SameEnv_OSok _ _ henv hos) (SameEnv_ArenaOk _ _ henv har)
    henv.2.1 (le_of_eq henv.2.2.2.2.2.2.2.1.symm) henv.2.2.2.2.1
    (le_of_eq henv.2.2.2.2.2.1.symm) rfl ?_ ?_
  · intro b hb
    rw [hgk] at hb
    exact ⟨pop_state_bin_other st bin b a hb, setFl_other g bin b t hb⟩
  · rw [hgk]
    refine ⟨?_, ?_, ?_⟩
    · rw [setFl_same, pop_state_bin, pop_state_mem]
      refine IsList_store_next g st hinv0 a k 0 hk _ t c3 ?_ hnot
      intro x hx
      obtain ⟨kx, hkx, _⟩ := b3 x (List.mem_cons_of_mem a hx)
      exact ⟨kx, hkx⟩
    · rw [setFl_same]; exact (List.nodup_cons.mp b2).2
    · rw [setFl_same]
      intro x hx
      exact b3 x (List.mem_cons_of_mem a hx)

theorem heap_allocate_pop (g : Ghost) (st : State) (size a : Nat) (t : List Nat)
    (hinv : Inv g st) (hfl : g.fl (get_bin size) = a :: t) :
    heap_allocate st size = Res.ok (a + HDR, pop_state st (get_bin size) a) ∧
    Inv (g.setFl (get_bin size) t) (pop_state st (get_bin size) a) ∧
    ∃ k, (a, k) ∈ g.blocks ∧ get_bin k = get_bin size := by
  have hb := hinv.2.2.2.2 (get_bin size)
  obtain ⟨b1, b2, b3⟩ := hb
  rw [hfl] at b1 b3
  obtain ⟨k, hk, hgk⟩ := b3 a (List.mem_cons_self a t)
  obtain ⟨c1, c2, c3⟩ := b1
  obtain ⟨d1, d2, d3, d4, d5⟩ := Inv_block_bounds g st hinv (a, k) hk
  simp only at d1 d2 d3 d4 d5
  refine ⟨heap_allocate_pop_eq st size a c1 c2 ?_ ?_, Inv_pop g st _ a t hinv hfl, k, hk, hgk⟩
  · exact accessible_sub st _ _ _ _ d5 (by omega) (by unfold HDR; omega)
  · omega

/-! ## The function `free` -/

theorem already_freed_loop_spec (st : State) (block : Nat) (l : List Nat) :
    ∀ fuel head, IsList st.mem head l → (∀ x ∈ l, accessible st (x + 8) 8) →
      l.length < fuel → already_freed_loop st block fuel head = Res.ok (decide (block ∈ l)) := by
  induction l with
  | nil =>
    intro fuel head hl _ hf
    obtain ⟨f, rfl⟩ : ∃ f, fuel = f + 1 := ⟨fuel - 1, by simp at hf; omega⟩
    have h0 : head = 0 := hl
    subst h0
    simp [already_freed_loop]
  | cons a t ih =>
    intro fuel head hl hacc hf
    obtain ⟨f, rfl⟩ : ∃ f, fuel = f + 1 := ⟨fuel - 1, by simp at hf; omega⟩
    obtain ⟨h1, h2, h3⟩ := hl
    subst h1
    unfold already_freed_loop
    rw [if_neg h2]
    by_cases hb : head = block
    · rw [if_pos hb]
      simp [hb]
    · rw [if_neg hb, if_neg (not_not.mpr (hacc head (List.mem_cons_self _ _)))]
      rw [ih f _ h3 (fun x hx => hacc x (List.mem_cons_of_mem _ hx))
        (by simp at hf; omega)]
      have : block ≠ head := fun h => hb h.symm
      simp [this]

theorem free_null (fuel : Nat) (st : State) :
    free fuel st 0 = Res.ok ((), { st with
      total_free_request := padd st.total_free_request 1
      total_free_blocks := padd st.total_free_blocks 1 }) := by
  unfold free
  simp

theorem free_dup_env (st : State) (h k : Nat) : SameEnv st (free_dup_state st h k) := by
  simp only [SameEnv, free_dup_state, and_self]

theorem free_push_env (st : State) (h k : Nat) : SameEnv st (free_push_state st h k) := by
  unfold free_push_state
  cases get_bin k <;> simp only [SameEnv, State.setBin, and_self]

theorem free_push_mem (st : State) (h k : Nat) :
    (free_push_state st h k).mem
      = store_next (memset st.mem (h + HDR) 0 k) h (st.bin (get_bin k)) := by
  unfold free_push_state
  rw [setBin_mem]

theorem free_push_bin (st : State) (h k : Nat) :
    (free_push_state st h k).bin (get_bin k) = h := by
  unfold free_push_state
  rw [setBin_same]

theorem free_push_bin_other (st : State) (h k : Nat) (b : Bin) (hb : b ≠ get_bin k) :
    (free_push_state st h k).bin b = st.bin b := by
  unfold free_push_state
  rw [setBin_other _ _ _ _ hb]
  cases b <;> simp only [State.bin]

/-- Zeroing the payload of a block keeps the invariant. -/
theorem Inv_memset (g : Ghost) (st st' : State) (h k : Nat) (hinv : Inv g st)
    (hb : (h, k) ∈ g.blocks) (henv : SameEnv st st')
    (hbin : ∀ bin, st'.bin bin = st.bin bin)
    (hmem : st'.mem = memset st.mem (h + HDR) 0 k) : Inv g st' := by
  have hfr : ∀ b ∈ g.blocks, ∀ x, b.1 ≤ x → x < b.1 + HDR → st'.mem x = st.mem x := by
    intro b hb' x hx1 hx2
    rw [hmem]
    apply memset_outside
    by_cases he : b.1 = h
    · omega
    · have := Inv_apart_of_ne g st hinv b (h, k) hb' hb he
      unfold Apart at this
      simp only at this
      omega
  obtain ⟨hsz, hnx⟩ := hdr_frame g st.mem st'.mem hfr
  refine Inv_frame g st st' hinv (SameEnv_OSok _ _ henv hinv.1)
    (SameEnv_ArenaOk _ _ henv hinv.2.1) hsz ?_ hbin henv.2.1
    (le_of_eq henv.2.2.2.2.2.2.2.1.symm) henv.2.2.2.2.1 (le_of_eq henv.2.2.2.2.2.1.symm)
  intro bin a ha
  obtain ⟨k', hk', _⟩ := Inv_bin_block g st hinv bin a ha
  exact hnx (a, k') hk'

theorem Inv_free_dup (g : Ghost) (st : State) (h k : Nat) (hinv : Inv g st)
    (hb : (h, k) ∈ g.blocks) : Inv g (free_dup_state st h k) := by
  refine Inv_memset g st _ h k hinv hb (free_dup_env st h k) ?_ rfl
  intro bin
  cases bin <;> simp only [free_dup_state, State.bin]

theorem bin_head_lt (g : Ghost) (st : State) (hinv : Inv g st) (bin : Bin) :
    st.bin bin < 2 ^ 64 := by
  obtain ⟨b1, _, b3⟩ := hinv.2.2.2.2 bin
  by_cases h0 : st.bin bin = 0
  · rw [h0]; norm_num
  · obtain ⟨t, ht, _⟩ := IsList_head_ne_zero _ _ _ b1 h0
    obtain ⟨k, hk, _⟩ := b3 (st.bin bin) (by rw [ht]; exact List.mem_cons_self _ _)
    have := Inv_block_bounds g st hinv _ hk
    simp only at this
    omega

theorem Inv_free_push (g : Ghost) (st : State) (h k : Nat) (hinv : Inv g st)
    (hb : (h, k) ∈ g.blocks) (hnot : h ∉ g.fl (get_bin k)) :
    Inv (g.setFl (get_bin k) (h :: g.fl (get_bin k))) (free_push_state st h k) := by
  have hinv1 := Inv_free_dup g st h k hinv hb
  have henv := free_push_env st h k
  have hbnd := Inv_block_bounds g st hinv (h, k) hb
  simp only at hbnd
  obtain ⟨c1, c2, c3⟩ := hinv1.2.2.2.2 (get_bin k)
  have hbin1 : (free_dup_state st h k).bin (get_bin k) = st.bin (get_bin k) := by
    cases get_bin k <;> simp only [free_dup_state, State.bin]
  refine Inv_relink g _ (free_dup_state st h k) (free_push_state st h k) h k
    (st.bin (get_bin k)) hinv1 hb ?_ (SameEnv_OSok _ _ henv hinv.1)
    (SameEnv_ArenaOk _ _ henv hinv.2.1) henv.2.1 (le_of_eq henv.2.2.2.2.2.2.2.1.symm)
    henv.2.2.2.2.1 (le_of_eq henv.2.2.2.2.2.1.symm) rfl ?_ ?_
  · rw [free_push_mem]; rfl
  · intro b hb'
    refine ⟨?_, setFl_other g _ b _ hb'⟩
    rw [free_push_bin_other st h k b hb']
    cases b <;> simp only [free_dup_state, State.bin]
  · refine ⟨?_, ?_, ?_⟩
    · rw [setFl_same, free_push_bin, free_push_mem]
      refine ⟨rfl, by omega, ?_⟩
      rw [load_next_store_next, Nat.mod_eq_of_lt (bin_head_lt g st hinv _)]
      rw [hbin1] at c1
      have e : memset st.mem (h + HDR) 0 k = (free_dup_state st h k).mem := rfl
      rw [e]
      refine IsList_store_next g _ hinv1 h k _ hb _ _ c1 ?_ hnot
      intro x hx
      obtain ⟨kx, hkx, _⟩ := c3 x hx
      exact ⟨kx, hkx⟩
    · rw [setFl_same]
      exact List.nodup_cons.mpr ⟨hnot, c2⟩
    · rw [setFl_same]
      intro x hx
      rcases List.mem_cons.mp hx with rfl | hx
      · exact ⟨k, hb, rfl⟩
      · exact c3 x hx

theorem free_block_eq (g : Ghost) (st : State) (h k fuel : Nat) (hinv : Inv g st)
    (hb : (h, k) ∈ g.blocks) (hfuel : (g.fl (get_bin k)).length < fuel) :
    free fuel st (h + HDR) = Res.ok ((),
      if h ∈ g.fl (get_bin k) then free_dup_state st h k else free_push_state st h k) := by
  obtain ⟨d1, d2, d3, d4, d5⟩ := Inv_block_bounds g st hinv (h, k) hb
  simp only at d1 d2 d3 d4 d5
  have hsz : load_size st.mem h = (k : Int) := (hinv.2.2.1 _ hb).1
  have hinv1 := Inv_free_dup g st h k hinv hb
  have hsz1 : load_size (memset st.mem (h + HDR) 0 k) h = (k : Int) :=
    (hinv1.2.2.1 _ hb).1
  have ek : size_t_of (k : Int) = k := size_t_of_small k (by omega)
  have ep : psub (h + HDR) HDR = h := by
    rw [psub_small _ _ (by omega) (by omega)]; omega
  have a1 : accessible st h 4 := accessible_sub st _ _ _ _ d5 (le_refl _) (by unfold HDR; omega)
  have a2 : accessible st (h + HDR) k := accessible_sub st _ _ _ _ d5 (by omega) (by omega)
  have a3 : accessible st (h + 8) 8 :=
    accessible_sub st _ _ _ _ d5 (by omega) (by unfold HDR; omega)
  obtain ⟨c1, c2, c3⟩ := hinv1.2.2.2.2 (get_bin k)
  have hloop := already_freed_loop_spec (free_dup_state st h k) h (g.fl (get_bin k)) fuel _ c1
    (by
      intro x hx
      obtain ⟨kx, hkx, _⟩ := c3 x hx
      have := (Inv_block_bounds g _ hinv1 (x, kx) hkx).2.2.2.2
      exact accessible_sub _ _ _ _ _ this (by simp only; omega) (by unfold HDR; simp only; omega))
    hfuel
  unfold free
  simp only [ep]
  rw [if_pos (by omega)]
  have e1 (a n : Nat) : accessible ({ st with
      total_free_request := padd st.total_free_request 1
      total_free_blocks := padd st.total_free_blocks 1 } : State) a n = accessible st a n := rfl
  have e2 (m : Mem) (a n : Nat) : accessible ({ st with
      total_free_request := padd st.total_free_request 1
      total_free_blocks := padd st.total_free_blocks 1
      mem := m } : State) a n = accessible st a n := rfl
  have e3 : ({ st with
      total_free_request := padd st.total_free_request 1
      total_free_blocks := padd st.total_free_blocks 1
      mem := memset st.mem (h + HDR) 0 k } : State) = free_dup_state st h k := rfl
  simp only [e1, hsz, ek, hsz1, e3]
  rw [if_neg (not_not.mpr a1), if_neg (not_not.mpr a2), hloop]
  by_cases hm : h ∈ g.fl (get_bin k)
  · simp only [hm, decide_True, if_true]
  · simp only [hm, decide_False, if_false]
    have a3' : accessible (free_dup_state st h k) (h + 8) 8 := a3
    rw [if_neg (not_not.mpr a3')]
    have hbin1 : (free_dup_state st h k).bin (get_bin k) = st.bin (get_bin k) := by
      cases get_bin k <;> simp only [free_dup_state, State.bin]
    rw [hbin1]
    rfl

theorem Inv_free (g : Ghost) (st : State) (h k : Nat) (hinv : Inv g st)
    (hb : (h, k) ∈ g.blocks) :
    Inv (g.free h k)
      (if h ∈ g.fl (get_bin k) then free_dup_state st h k else free_push_state st h k) := by
  unfold Ghost.free
  by_cases hm : h ∈ g.fl (get_bin k)
  · rw [if_pos hm, if_pos hm]; exact Inv_free_dup g st h k hinv hb
  · rw [if_neg hm, if_neg hm]; exact Inv_free_push g st h k hinv hb hm

/-! ## Best fit -/

theorem size_t_of_le (size : Nat) (z : Int) (h0 : 0 ≤ z) (h1 : z < 2 ^ 31) :
    size ≤ size_t_of z ↔ (size : Int) ≤ z := by
  unfold size_t_of
  omega

theorem best_fit_scan_spec (m : Mem) (size : Nat) (l : List Nat) :
    (∀ a ∈ l, 0 ≤ load_size m a ∧ load_size m a < INT_MAX) →
    ∀ (best : Nat) (M : Int),
      ((∀ a ∈ l, (size : Int) ≤ load_size m a → M ≤ load_size m a) →
        best_fit_scan m size l best M = best) ∧
      ((∃ a ∈ l, (size : Int) ≤ load_size m a ∧ load_size m a < M) →
        ∃ l1 l2, IsBestFit (load_size m) size l l1 (best_fit_scan m size l best M) l2 ∧
          load_size m (best_fit_scan m size l best M) < M) := by
  induction l with
  | nil =>
    intro _ best M
    refine ⟨fun _ => rfl, ?_⟩
    rintro ⟨a, ha, _⟩
    cases ha
  | cons b t ih =>
    intro hsz best M
    have hb := hsz b (List.mem_cons_self b t)
    have ht : ∀ a ∈ t, 0 ≤ load_size m a ∧ load_size m a < INT_MAX :=
      fun a ha => hsz a (List.mem_cons_of_mem b ha)
    have hle := size_t_of_le size (load_size m b) hb.1 (by have := hb.2; unfold INT_MAX at this; omega)
    by_cases hc : (size : Int) ≤ load_size m b ∧ load_size m b < M
    · have hc' : size ≤ size_t_of (load_size m b) ∧ load_size m b < M := ⟨hle.mpr hc.1, hc.2⟩
      have e : best_fit_scan m size (b :: t) best M
          = best_fit_scan m size t b (load_size m b) := by
        simp only [best_fit_scan]
        rw [if_pos hc']
      rw [e]
      obtain ⟨ih1, ih2⟩ := ih ht b (load_size m b)
      constructor
      · intro hall
        have := hall b (List.mem_cons_self b t) hc.1
        omega
      · intro _
        by_cases hex : ∃ a ∈ t, (size : Int) ≤ load_size m a ∧ load_size m a < load_size m b
        · obtain ⟨l1, l2, ⟨f1, f2, f3, f4⟩, f5⟩ := ih2 hex
          refine ⟨b :: l1, l2, ⟨?_, f2, ?_, f4⟩, by omega⟩
          · exact congrArg (List.cons b) f1
          · intro a ha hfit
            rcases List.mem_cons.mp ha with rfl | ha
            · exact f5
            · exact f3 a ha hfit
        · have hall : ∀ a ∈ t, (size : Int) ≤ load_size m a → load_size m b ≤ load_size m a := by
            intro a ha hfit
            by_contra hlt
            exact hex ⟨a, ha, hfit, by omega⟩
          rw [ih1 hall]
          refine ⟨[], t, ⟨rfl, hc.1, ?_, hall⟩, hc.2⟩
          intro a ha
          cases ha
    · have hc' : ¬ (size ≤ size_t_of (load_size m b) ∧ load_size m b < M) :=
        fun h => hc ⟨hle.mp h.1, h.2⟩
      have e : best_fit_scan m size (b :: t) best M = best_fit_scan m size t best M := by
        simp only [best_fit_scan]
        rw [if_neg hc']
      rw [e]
      obtain ⟨ih1, ih2⟩ := ih ht best M
      constructor
      · intro hall
        exact ih1 (fun a ha => hall a (List.mem_cons_of_mem b ha))
      · rintro ⟨a, ha, hfit, hlt⟩
        have hat : a ∈ t := by
          rcases List.mem_cons.mp ha with rfl | ha
          · exact absurd ⟨hfit, hlt⟩ hc
          · exact ha
        obtain ⟨l1, l2, ⟨f1, f2, f3, f4⟩, f5⟩ := ih2 ⟨a, hat, hfit, hlt⟩
        refine ⟨b :: l1, l2, ⟨?_, f2, ?_, f4⟩, f5⟩
        · exact congrArg (List.cons b) f1
        · intro x hx hfx
          rcases List.mem_cons.mp hx with rfl | hx
          · have : ¬ (load_size m x < M) := fun h => hc ⟨hfx, h⟩
            omega
          · exact f3 x hx hfx

theorem best_fit_loop_spec (st : State) (size : Nat) (l : List Nat) :
    ∀ fuel b best M, IsList st.mem b l →
      (∀ x ∈ l, accessible st x 4 ∧ accessible st (x + 8) 8) → l.length < fuel →
      best_fit_loop st size fuel b best M = Res.ok (best_fit_scan st.mem size l best M) := by
  induction l with
  | nil =>
    intro fuel b best M hl _ hf
    obtain ⟨f, rfl⟩ : ∃ f, fuel = f + 1 := ⟨fuel - 1, by simp at hf; omega⟩
    have h0 : b = 0 := hl
    subst h0
    simp [best_fit_loop, best_fit_scan]
  | cons a t ih =>
    intro fuel b best M hl hacc hf
    obtain ⟨f, rfl⟩ : ∃ f, fuel = f + 1 := ⟨fuel - 1, by simp at hf; omega⟩
    obtain ⟨h1, h2, h3⟩ := hl
    subst h1
    have hf' : t.length < f := by simp at hf; omega
    have hacc' : ∀ x ∈ t, accessible st x 4 ∧ accessible st (x + 8) 8 :=
      fun x hx => hacc x (List.mem_cons_of_mem _ hx)
    unfold best_fit_loop
    rw [if_neg h2, if_neg (not_not.mpr (hacc b (List.mem_cons_self _ _)))]
    simp only [best_fit_scan]
    split
    · exact ih f _ _ _ h3 hacc' hf'
    · exact ih f _ _ _ h3 hacc' hf'

theorem IsList_cons (m : Mem) (head a : Nat) (l : List Nat) :
    IsList m head (a :: l) ↔ head = a ∧ a ≠ 0 ∧ IsList m (load_next m a) l := Iff.rfl

theorem find_prev_loop_spec (st : State) (r : Nat) (l2 : List Nat) (l1 : List Nat) :
    ∀ fuel head p, IsList st.mem head (l1 ++ p :: r :: l2) → r ∉ l1 → p ≠ r →
      (∀ x ∈ l1 ++ [p], accessible st (x + 8) 8) → l1.length < fuel →
      find_prev_loop st r fuel head = Res.ok p := by
  induction l1 with
  | nil =>
    intro fuel head p hl _ _ hacc hf
    obtain ⟨f, rfl⟩ : ∃ f, fuel = f + 1 := ⟨fuel - 1, by simp at hf; omega⟩
    rw [List.nil_append, IsList_cons, IsList_cons] at hl
    obtain ⟨h1, h2, h4, _, _⟩ := hl
    subst h1
    unfold find_prev_loop
    rw [if_neg h2, if_neg (not_not.mpr (hacc head (by simp))), if_neg (not_not.mpr h4)]
  | cons a t ih =>
    intro fuel head p hl hr hp hacc hf
    obtain ⟨f, rfl⟩ : ∃ f, fuel = f + 1 := ⟨fuel - 1, by simp at hf; omega⟩
    rw [List.cons_append, IsList_cons] at hl
    obtain ⟨h1, h2, h3⟩ := hl
    subst h1
    have hne : load_next st.mem head ≠ r := by
      intro he
      cases t with
      | nil =>
        rw [List.nil_append, IsList_cons] at h3
        have h4 := h3.1
        rw [he] at h4
        exact hp h4.symm
      | cons c t' =>
        rw [List.cons_append, IsList_cons] at h3
        have h4 := h3.1
        rw [he] at h4
        exact hr (by rw [h4]; simp)
    unfold find_prev_loop
    rw [if_neg h2, if_neg (not_not.mpr (hacc head (by simp))), if_pos hne]
    exact ih f _ p h3 (fun h => hr (List.mem_cons_of_mem _ h)) hp
      (fun x hx => hacc x (List.mem_cons_of_mem _ hx)) (by simp at hf; omega)

theorem best_fit_scan_cases (m : Mem) (size : Nat) (l : List Nat)
    (hsz : ∀ a ∈ l, 0 ≤ load_size m a ∧ load_size m a < INT_MAX)
    (hnz : ∀ a ∈ l, a ≠ 0) :
    ((∀ a ∈ l, load_size m a < (size : Int)) ∧ best_fit_scan m size l 0 INT_MAX = 0) ∨
    (∃ l1 l2, IsBestFit (load_size m) size l l1 (best_fit_scan m size l 0 INT_MAX) l2 ∧
      best_fit_scan m size l 0 INT_MAX ≠ 0) := by
  obtain ⟨h1, h2⟩ := best_fit_scan_spec m size l hsz 0 INT_MAX
  by_cases hex : ∃ a ∈ l, (size : Int) ≤ load_size m a
  · right
    obtain ⟨a, ha, hfit⟩ := hex
    obtain ⟨l1, l2, hbf, _⟩ := h2 ⟨a, ha, hfit, (hsz a ha).2⟩
    refine ⟨l1, l2, hbf, ?_⟩
    apply hnz
    have e := hbf.1
    generalize best_fit_scan m size l 0 INT_MAX = r at e
    rw [e]
    simp
  · left
    have hall : ∀ a ∈ l, load_size m a < (size : Int) := by
      intro a ha
      by_contra hlt
      exact hex ⟨a, ha, by omega⟩
    refine ⟨hall, h1 ?_⟩
    intro a ha hfit
    have := hall a ha
    omega

theorem IsBestFit_not_mem (sz : Nat → Int) (size : Int) (l l1 : List Nat) (b : Nat)
    (l2 : List Nat) (h : IsBestFit sz size l l1 b l2) : b ∉ l1 := by
  intro hb
  have := h.2.2.1 b hb h.2.1
  omega

theorem find_best_fit_none (fuel : Nat) (st : State) (size : Nat) (l : List Nat)
    (hl : LargeListOk st l) (hf : l.length < fuel)
    (hr : best_fit_scan st.mem size l 0 INT_MAX = 0) :
    find_best_fit_from_bin_large fuel st size = Res.ok (0, st) := by
  unfold find_best_fit_from_bin_large
  rw [best_fit_loop_spec st size l fuel _ 0 INT_MAX hl.1
    (fun x hx => ⟨(hl.2 x hx).1, (hl.2 x hx).2.1⟩) hf, hr]
  simp

theorem find_best_fit_head (fuel : Nat) (st : State) (size : Nat) (r : Nat) (l2 : List Nat)
    (hl : LargeListOk st (r :: l2)) (hf : (r :: l2).length < fuel)
    (hr : best_fit_scan st.mem size (r :: l2) 0 INT_MAX = r) :
    find_best_fit_from_bin_large fuel st size = Res.ok (r + HDR, unlink_head_state st r) := by
  have hh : st.bin_large = r := hl.1.1
  have hnz : r ≠ 0 := hl.1.2.1
  obtain ⟨_, a2, a3, _, _⟩ := hl.2 r (List.mem_cons_self _ _)
  unfold find_best_fit_from_bin_large
  rw [best_fit_loop_spec st size (r :: l2) fuel _ 0 INT_MAX hl.1
    (fun x hx => ⟨(hl.2 x hx).1, (hl.2 x hx).2.1⟩) hf, hr]
  simp only
  rw [if_pos hnz, if_pos hh.symm, if_neg (not_not.mpr a2), padd_small _ _ a3, hh]
  rfl

theorem find_best_fit_mid (fuel : Nat) (st : State) (size : Nat) (l1 : List Nat) (p r : Nat)
    (l2 : List Nat)
    (hl : LargeListOk st (l1 ++ p :: r :: l2)) (hf : (l1 ++ p :: r :: l2).length < fuel)
    (hnot : r ∉ l1) (hpr : p ≠ r)
    (hr : best_fit_scan st.mem size (l1 ++ p :: r :: l2) 0 INT_MAX = r) :
    find_best_fit_from_bin_large fuel st size = Res.ok (r + HDR, unlink_mid_state st p r) := by
  have hnz := IsList_ne_zero _ _ _ hl.1
  have hrz : r ≠ 0 := hnz r (by simp)
  have hpz : p ≠ 0 := hnz p (by simp)
  obtain ⟨_, a2, a3, _, _⟩ := hl.2 r (by simp)
  have hhead : st.bin_large ≠ r := by
    intro he
    cases l1 with
    | nil =>
      have := hl.1
      rw [List.nil_append, IsList_cons] at this
      exact hpr (this.1.symm.trans he)
    | cons c t =>
      have := hl.1
      rw [List.cons_append, IsList_cons] at this
      exact hnot (by rw [← he, this.1]; simp)
  have hacc' : ∀ x ∈ l1 ++ [p], accessible st (x + 8) 8 := by
    intro x hx
    have hm : x ∈ l1 ++ p :: r :: l2 := by
      rcases List.mem_append.mp hx with h | h
      · exact List.mem_append_left _ h
      · rw [List.mem_singleton] at h
        subst h
        simp
    exact (hl.2 x hm).2.1
  have hprev := find_prev_loop_spec st r l2 l1 fuel _ p hl.1 hnot hpr hacc'
    (by simp at hf; omega)
  unfold find_best_fit_from_bin_large
  rw [best_fit_loop_spec st size _ fuel _ 0 INT_MAX hl.1
    (fun x hx => ⟨(hl.2 x hx).1, (hl.2 x hx).2.1⟩) hf, hr]
  simp only
  rw [if_pos hrz, if_neg (fun h => hhead h.symm), hprev]
  simp only
  rw [if_neg (not_not.mpr a2), if_pos hpz, padd_small _ _ a3]
  rfl

/-! ## Unlinking from `bin_large` -/

theorem IsList_unlink (m m' : Mem) (p r : Nat) (l2 : List Nat) (l1 : List Nat) :
    ∀ head, IsList m head (l1 ++ p :: r :: l2) → (l1 ++ p :: r :: l2).Nodup →
      load_next m' p = load_next m r →
      (∀ x ∈ l1 ++ p :: r :: l2, x ≠ p → load_next m' x = load_next m x) →
      IsList m' head (l1 ++ p :: l2) := by
  induction l1 with
  | nil =>
    intro head hl hnd hp hfr
    rw [List.nil_append] at hl hnd ⊢
    rw [IsList_cons, IsList_cons] at hl
    obtain ⟨h1, h2, _, _, h5⟩ := hl
    rw [IsList_cons]
    refine ⟨h1, h2, ?_⟩
    rw [hp]
    refine IsList_congr _ _ _ _ ?_ h5
    intro x hx
    apply hfr x (by simp [hx])
    intro hxp
    subst hxp
    have := (List.nodup_cons.mp hnd).1
    exact this (List.mem_cons_of_mem _ hx)
  | cons a t ih =>
    intro head hl hnd hp hfr
    rw [List.cons_append] at hl hnd ⊢
    rw [IsList_cons] at hl
    obtain ⟨h1, h2, h3⟩ := hl
    rw [IsList_cons]
    refine ⟨h1, h2, ?_⟩
    have hap : a ≠ p := by
      intro he
      subst he
      exact (List.nodup_cons.mp hnd).1 (by simp)
    rw [hfr a (List.mem_cons_self _ _) hap]
    exact ih _ h3 (List.nodup_cons.mp hnd).2 hp
      (fun x hx hxp => hfr x (List.mem_cons_of_mem _ hx) hxp)

/-- The invariant after the head `a` of `bin` was unlinked and its `next`
cleared, whatever else the step did outside memory and bins. -/
theorem Inv_pop_gen (g : Ghost) (st st' : State) (bin : Bin) (a : Nat) (t : List Nat)
    (hinv : Inv g st) (hfl : g.fl bin = a :: t)
    (henv : SameEnv st st') (hmem : st'.mem = store_next st.mem a 0)
    (hbin : st'.bin bin = load_next st.mem a)
    (hother : ∀ b, b ≠ bin → st'.bin b = st.bin b) :
    Inv (g.setFl bin t) st' := by
  have hinv0 := hinv
  obtain ⟨hos, har, hbl, hpw, hbins⟩ := hinv
  obtain ⟨b1, b2, b3⟩ := hbins bin
  rw [hfl] at b1 b2 b3
  obtain ⟨k, hk, hgk⟩ := b3 a (List.mem_cons_self a t)
  obtain ⟨c1, c2, c3⟩ := b1
  have hnot : a ∉ t := (List.nodup_cons.mp b2).1
  refine Inv_relink g (g.setFl bin t) st st' a k 0 hinv0 hk
    hmem (SameEnv_OSok _ _ henv hos) (SameEnv_ArenaOk _ _ henv har)
    henv.2.1 (le_of_eq henv.2.2.2.2.2.2.2.1.symm) henv.2.2.2.2.1
    (le_of_eq henv.2.2.2.2.2.1.symm) rfl ?_ ?_
  · intro b hb
    rw [hgk] at hb
    exact ⟨hother b hb, setFl_other g bin b t hb⟩
  · rw [hgk]
    refine ⟨?_, ?_, ?_⟩
    · rw [setFl_same, hbin, hmem]
      refine IsList_store_next g st hinv0 a k 0 hk _ t c3 ?_ hnot
      intro x hx
      obtain ⟨kx, hkx, _⟩ := b3 x (List.mem_cons_of_mem a hx)
      exact ⟨kx, hkx⟩
    · rw [setFl_same]; exact (List.nodup_cons.mp b2).2
    · rw [setFl_same]
      intro x hx
      exact b3 x (List.mem_cons_of_mem a hx)

theorem Inv_unlink_head (g : Ghost) (st : State) (r : Nat) (l2 : List Nat)
    (hinv : Inv g st) (hfl : g.fl Bin.large = r :: l2) :
    Inv (g.setFl Bin.large l2) (unlink_head_state st r) := by
  refine Inv_pop_gen g st _ Bin.large r l2 hinv hfl ?_ rfl rfl ?_
  · simp only [SameEnv, unlink_head_state, and_self]
  · intro b hb
    cases b <;> first | exact absurd rfl hb | simp only [unlink_head_state, State.bin]

theorem Inv_unlink_mid (g : Ghost) (st : State) (l1 : List Nat) (p r : Nat) (l2 : List Nat)
    (hinv : Inv g st) (hfl : g.fl Bin.large = l1 ++ p :: r :: l2) :
    Inv (g.setFl Bin.large (l1 ++ p :: l2)) (unlink_mid_state st p r) := by
  have hinv0 := hinv
  obtain ⟨hos, har, hbl, hpw, hbins⟩ := hinv
  obtain ⟨b1, b2, b3⟩ := hbins Bin.large
  rw [hfl] at b1 b2 b3
  obtain ⟨kp, hkp, hgp⟩ := b3 p (by simp)
  obtain ⟨kr, hkr, hgr⟩ := b3 r (by simp)
  -- first write: the predecessor skips the chosen block
  let st1 : State := { st with mem := store_next st.mem p (load_next st.mem r) }
  have henv1 : SameEnv st st1 := by simp only [SameEnv, st1, and_self]
  have hbin1 : ∀ b, st1.bin b = st.bin b := by
    intro b; cases b <;> simp only [st1, State.bin]
  obtain ⟨_, hnx⟩ := store_next_frame g st hinv0 (p, kp) hkp (load_next st.mem r)
  have hinv1 : Inv (g.setFl Bin.large (l1 ++ p :: l2)) st1 := by
    refine Inv_relink g _ st st1 p kp (load_next st.mem r) hinv0 hkp rfl
      (SameEnv_OSok _ _ henv1 hos) (SameEnv_ArenaOk _ _ henv1 har)
      henv1.2.1 (le_of_eq henv1.2.2.2.2.2.2.2.1.symm) henv1.2.2.2.2.1
      (le_of_eq henv1.2.2.2.2.2.1.symm) rfl ?_ ?_
    · intro b hb
      rw [hgp] at hb
      exact ⟨hbin1 b, setFl_other g _ b _ hb⟩
    · rw [hgp]
      refine ⟨?_, ?_, ?_⟩
      · rw [setFl_same, hbin1]
        refine IsList_unlink st.mem _ p r l2 l1 _ b1 b2 ?_ ?_
        · show load_next (store_next st.mem p (load_next st.mem r)) p = load_next st.mem r
          rw [load_next_store_next, Nat.mod_eq_of_lt (load_next_lt _ _)]
        · intro x hx hxp
          obtain ⟨kx, hkx, _⟩ := b3 x hx
          exact hnx (x, kx) hkx hxp
      · rw [setFl_same]
        have : (l1 ++ p :: l2).Sublist (l1 ++ p :: r :: l2) :=
          List.Sublist.append_left (List.Sublist.cons₂ p (List.sublist_cons_self r l2)) l1
        exact List.Nodup.sublist this b2
      · rw [setFl_same]
        intro x hx
        apply b3 x
        simp only [List.mem_append, List.mem_cons] at hx ⊢
        tauto
  -- second write: the chosen block's link is cleared
  have henv2 : SameEnv st1 (unlink_mid_state st p r) := by
    simp only [SameEnv, st1, unlink_mid_state, and_self]
  have hrnot : r ∉ l1 ++ p :: l2 := by
    intro hr
    have hnd := b2
    rw [List.nodup_append] at hnd
    obtain ⟨_, n2, n3⟩ := hnd
    rcases List.mem_append.mp hr with h | h
    · exact n3 h (by simp)
    · rcases List.mem_cons.mp h with h | h
      · subst h
        exact (List.nodup_cons.mp n2).1 (by simp)
      · exact (List.nodup_cons.mp (List.nodup_cons.mp n2).2).1 h
  have hkr1 : (r, kr) ∈ (g.setFl Bin.large (l1 ++ p :: l2)).blocks := hkr
  obtain ⟨c1, c2, c3⟩ := hinv1.2.2.2.2 Bin.large
  refine Inv_relink _ _ st1 (unlink_mid_state st p r) r kr 0 hinv1 hkr1 rfl
      (SameEnv_OSok _ _ henv2 hinv1.1) (SameEnv_ArenaOk _ _ henv2 hinv1.2.1)
      henv2.2.1 (le_of_eq henv2.2.2.2.2.2.2.2.1.symm) henv2.2.2.2.2.1
      (le_of_eq henv2.2.2.2.2.2.1.symm) rfl ?_ ?_
  · intro b _
    refine ⟨?_, rfl⟩
    cases b <;> simp only [st1, unlink_mid_state, State.bin]
  · rw [hgr]
    refine ⟨?_, c2, c3⟩
    have e : (unlink_mid_state st p r).bin Bin.large = st1.bin Bin.large := rfl
    rw [e]
    refine IsList_store_next _ st1 hinv1 r kr 0 hkr1 _ _ c1 ?_ ?_
    · intro x hx
      obtain ⟨kx, hkx, _⟩ := c3 x hx
      exact ⟨kx, hkx⟩
    · rw [setFl_same]; exact hrnot

/-! ## Fresh mappings -/

theorem page_round_ge (P len : Nat) (hP : 0 < P) : len ≤ page_round P len := by
  unfold page_round
  have h1 := Nat.div_add_mod (len + P - 1) P
  have h2 := Nat.mod_lt (len + P - 1) hP
  have h3 : P * ((len + P - 1) / P) = (len + P - 1) / P * P := Nat.mul_comm _ _
  omega

theorem page_round_mul (P c : Nat) (hP : 0 < P) : page_round P (P * c) = P * c := by
  unfold page_round
  have h1 : (P * c + P - 1) / P = c := by
    have : P * c + P - 1 = (P - 1) + P * c := by omega
    rw [this, Nat.add_mul_div_left _ _ hP, Nat.div_eq_of_lt (by omega)]
    omega
  rw [h1, Nat.mul_comm]

theorem int_of_dvd (P : Nat) (z : Int) (hP : P ∣ 2 ^ 31) (hz : (P : Int) ∣ z) :
    (P : Int) ∣ int_of z := by
  have e : int_of z = z - 2 ^ 32 * ((z + 2 ^ 31) / 2 ^ 32) := by
    unfold int_of
    omega
  rw [e]
  have h32 : (P : Int) ∣ 2 ^ 32 := by
    have : (P : Int) ∣ ((2 ^ 31 : Nat) : Int) := Int.natCast_dvd_natCast.mpr hP
    have e2 : (2 ^ 32 : Int) = ((2 ^ 31 : Nat) : Int) * 2 := by norm_num
    rw [e2]
    exact Dvd.dvd.mul_right this 2
  exact Dvd.dvd.sub hz (Dvd.dvd.mul_right h32 _)

/-- Arithmetic of `mmap_new_memory`: the `int` byte count is either not
positive, or a positive multiple of the page size below `2 ^ 31` that covers
header and request whenever these fit an `int`. -/
theorem mmap_arith (P size : Nat) (rps : Int) (hP : 528 < P) (hd : P ∣ 2 ^ 31)
    (hsize : size < 2 ^ 64)
    (hrps : rps =
      int_of ((P : Int) * int_of ((padd (psub (padd size HDR) 1 / P) 1 : Nat) : Int))) :
    rps ≤ 0 ∨ (∃ c : Nat, rps = ((P * c : Nat) : Int) ∧ 0 < c ∧ P * c < 2 ^ 31 ∧
      (size + HDR ≤ 2 ^ 31 - 1 → size + HDR ≤ P * c ∧ c = (size + 15) / P + 1)) := by
  by_cases hpos : rps ≤ 0
  · exact Or.inl hpos
  · right
    have hrange := int_of_range
      ((P : Int) * int_of ((padd (psub (padd size HDR) 1 / P) 1 : Nat) : Int))
    have hdvd := int_of_dvd P
      ((P : Int) * int_of ((padd (psub (padd size HDR) 1 / P) 1 : Nat) : Int)) hd
      (Dvd.intro _ rfl)
    rw [← hrps] at hrange hdvd
    have hn : rps = ((rps.toNat : Nat) : Int) := by omega
    rw [hn] at hdvd
    obtain ⟨c, hc⟩ := Int.natCast_dvd_natCast.mp hdvd
    refine ⟨c, by rw [hn, hc], ?_, ?_, ?_⟩
    · rcases Nat.eq_zero_or_pos c with h0 | h0
      · rw [h0] at hc; omega
      · exact h0
    · rw [← hc]; omega
    · intro hsmall
      -- no wrap-around anywhere: the page count is small
      have e1 : padd size HDR = size + 16 := by
        rw [padd_small _ _ (by unfold HDR; omega)]; rfl
      have e2 : psub (size + 16) 1 = size + 15 := by
        rw [psub_small _ _ (by omega) (by omega)]; rfl
      have hPle : P ≤ 2 ^ 31 := Nat.le_of_dvd (by norm_num) hd
      have hq : (size + 15) / P < 2 ^ 22 := by
        apply Nat.div_lt_of_lt_mul
        unfold HDR at hsmall
        have : 2 ^ 31 ≤ P * 2 ^ 22 := by
          have : 2 ^ 31 = 2 ^ 9 * 2 ^ 22 := by norm_num
          nlinarith
        omega
      have e3 : padd ((size + 15) / P) 1 = (size + 15) / P + 1 := padd_small _ _ (by omega)
      have e4 : int_of (((size + 15) / P + 1 : Nat) : Int) = (((size + 15) / P + 1 : Nat) : Int) :=
        int_of_small _ (by omega)
      have hz : rps = int_of (((P * ((size + 15) / P + 1) : Nat)) : Int) := by
        rw [hrps, e1, e2, e3, e4]
        push_cast
        rfl
      have h1 := Nat.div_add_mod (size + 15) P
      have h2 := Nat.mod_lt (size + 15) (show 0 < P by omega)
      have hmul : P * ((size + 15) / P + 1) = P * ((size + 15) / P) + P := by ring
      have hlo : size + 16 ≤ P * ((size + 15) / P + 1) := by omega
      have hhi : P * ((size + 15) / P + 1) ≤ size + 15 + P := by omega
      have hlt32 : P * ((size + 15) / P + 1) < 2 ^ 32 := by unfold HDR at hsmall; omega
      have hr : rps = ((P * ((size + 15) / P + 1) : Nat) : Int) := by
        rw [hz]
        rw [hz] at hpos
        unfold int_of
        unfold int_of at hpos
        omega
      have : P * c = P * ((size + 15) / P + 1) := by
        have := hn.symm.trans hr
        rw [hc] at this
        exact_mod_cast this
      refine ⟨?_, Nat.eq_of_mul_eq_mul_left (show 0 < P by omega) this⟩
      rw [this]
      unfold HDR
      omega

theorem mmap_new_memory_unfold (st : State) (size : Nat) (rps : Int)
    (hrps : rps = int_of ((st.pagesize : Int) *
      int_of ((padd (psub (padd size HDR) 1 / st.pagesize) 1 : Nat) : Int))) :
    mmap_new_memory st size =
      (let r := mmap st (size_t_of rps)
       let ret := r.1
       let st1 := r.2
       let b_size : Int := int_of ((psub (size_t_of rps) HDR : Nat) : Int)
       if ¬ accessible st1 ret HDR then (Res.fault : Outcome Nat)
       else
         let st2 := { st1 with mem := store_block_info st1.mem ret b_size 0 }
         let st3 := { st2 with
           total_mmap_size_allocated := padd st2.total_mmap_size_allocated size }
         Res.ok (padd ret HDR, st3)) := by
  rw [hrps]
  unfold mmap_new_memory
  rfl

theorem mmap_new_memory_flat (st : State) (L : Nat) (z : Int) (size : Nat) :
    (let r := mmap st L
     let ret := r.1
     let st1 := r.2
     let b_size : Int := z
     if ¬ accessible st1 ret HDR then (Res.fault : Outcome Nat)
     else
       let st2 := { st1 with mem := store_block_info st1.mem ret b_size 0 }
       let st3 := { st2 with
         total_mmap_size_allocated := padd st2.total_mmap_size_allocated size }
       Res.ok (padd ret HDR, st3))
    = if ¬ accessible (mmap st L).2 (mmap st L).1 HDR then Res.fault
      else Res.ok (padd (mmap st L).1 HDR, { (mmap st L).2 with
        mem := store_block_info (mmap st L).2.mem (mmap st L).1 z 0
        total_mmap_size_allocated := padd (mmap st L).2.total_mmap_size_allocated size }) := by
  rfl

theorem mmap_new_memory_eq (st : State) (size : Nat) (rps : Int) (ret : Nat) (st1 : State)
    (hrps : rps = int_of ((st.pagesize : Int) *
      int_of ((padd (psub (padd size HDR) 1 / st.pagesize) 1 : Nat) : Int)))
    (hm : mmap st (size_t_of rps) = (ret, st1)) :
    mmap_new_memory st size =
      if ¬ accessible st1 ret HDR then Res.fault
      else Res.ok (padd ret HDR, { st1 with
        mem := store_block_info st1.mem ret (int_of ((psub (size_t_of rps) HDR : Nat) : Int)) 0
        total_mmap_size_allocated := padd st1.total_mmap_size_allocated size }) := by
  rw [mmap_new_memory_unfold st size rps hrps, mmap_new_memory_flat, hm]

theorem mmap_fail (st : State) (len : Nat)
    (h : len = 0 ∨ st.mmap_limit < st.mmap_next + page_round st.pagesize len) :
    mmap st len = (MAP_FAILED, st) := by
  unfold mmap
  rw [if_pos h]

theorem mmap_ok (st : State) (len : Nat)
    (h : ¬ (len = 0 ∨ st.mmap_limit < st.mmap_next + page_round st.pagesize len)) :
    mmap st len = (st.mmap_next,
      { st with mmap_next := st.mmap_next + page_round st.pagesize len }) := by
  unfold mmap
  rw [if_neg h]

theorem not_accessible_high (st : State) (hos : OSok st) (a n : Nat) (ha : 2 ^ 63 ≤ a + n)
    (hn : n ≠ 0) : ¬ accessible st a n := by
  unfold OSok at hos
  unfold accessible
  omega

theorem mmap_new_memory_spec (g : Ghost) (st : State) (size : Nat) (hinv : Inv g st)
    (hsize : size < 2 ^ 64) :
    mmap_new_memory st size = Res.fault ∨
    ∃ k st', mmap_new_memory st size = Res.ok (st.mmap_next + HDR, st') ∧
      Inv (g.carve (st.mmap_next, k)) st' ∧
      st'.mem = store_block_info st.mem st.mmap_next (k : Int) 0 ∧
      (∀ bin, st'.bin bin = st.bin bin) ∧
      (∀ b ∈ g.blocks, Apart b (st.mmap_next, k)) ∧
      512 < k ∧ (size + HDR ≤ 2 ^ 31 - 1 → size ≤ k) ∧
      (∀ b ∈ g.blocks, b.1 + HDR + b.2 ≤ st.mmap_next) := by
  have hinv0 := hinv
  obtain ⟨hos, har, hbl, hpw, hbins⟩ := hinv
  have hos' := hos
  have har' := har
  unfold OSok at hos
  unfold ArenaOk at har
  obtain ⟨rps, hrps⟩ : ∃ rps, rps = int_of ((st.pagesize : Int) *
    int_of ((padd (psub (padd size HDR) 1 / st.pagesize) 1 : Nat) : Int)) := ⟨_, rfl⟩
  have harith := mmap_arith st.pagesize size rps hos.1 hos.2.1 hsize hrps
  have hna : ¬ accessible st MAP_FAILED HDR :=
    not_accessible_high st hos' MAP_FAILED HDR (by unfold MAP_FAILED HDR; omega)
      (by unfold HDR; omega)
  rcases harith with hneg | ⟨c, hc, hc0, hclt, hcov⟩
  · left
    have hlen : size_t_of rps = 0 ∨ 2 ^ 63 ≤ size_t_of rps := by
      have hr := int_of_range ((st.pagesize : Int) *
        int_of ((padd (psub (padd size HDR) 1 / st.pagesize) 1 : Nat) : Int))
      rw [← hrps] at hr
      clear hrps
      unfold size_t_of
      omega
    have hfail : mmap st (size_t_of rps) = (MAP_FAILED, st) := by
      apply mmap_fail
      rcases hlen with h | h
      · exact Or.inl h
      · right
        have := page_round_ge st.pagesize (size_t_of rps) (by omega)
        omega
    rw [mmap_new_memory_eq st size rps _ _ hrps hfail]
    exact if_pos hna
  · have hlen : size_t_of rps = st.pagesize * c := by
      rw [hc]
      exact size_t_of_small _ (by omega)
    by_cases hfit : st.mmap_limit < st.mmap_next + st.pagesize * c
    · left
      have hfail : mmap st (size_t_of rps) = (MAP_FAILED, st) := by
        apply mmap_fail
        right
        rw [hlen, page_round_mul _ _ (by omega)]
        exact hfit
      rw [mmap_new_memory_eq st size rps _ _ hrps hfail]
      exact if_pos hna
    · right
      have hge : 528 < st.pagesize * c := by nlinarith
      have hok := mmap_ok st (size_t_of rps) (by
        rw [hlen, page_round_mul _ _ (by omega)]
        omega)
      rw [hlen, page_round_mul _ _ (by omega), ← hlen] at hok
      rw [mmap_new_memory_eq st size rps _ _ hrps hok, hlen]
      have ek : int_of ((psub (st.pagesize * c) HDR : Nat) : Int)
          = ((st.pagesize * c - 16 : Nat) : Int) := by
        rw [psub_small _ _ (by unfold HDR; omega) (by omega)]
        exact int_of_small _ (by unfold HDR; omega)
      have hacc : accessible ({ st with mmap_next := st.mmap_next + st.pagesize * c } : State)
          st.mmap_next HDR := by
        unfold accessible HDR
        simp only
        omega
      rw [if_neg (not_not.mpr hacc), ek, padd_small _ _ (by unfold HDR; omega)]
      have hfresh : ∀ b ∈ g.blocks, Apart b (st.mmap_next, st.pagesize * c - 16) := by
        intro b hb
        have := (hbl b hb).2
        unfold Apart
        simp only
        omega
      have habove : ∀ b ∈ g.blocks, b.1 + HDR + b.2 ≤ st.mmap_next := by
        intro b hb
        have := (hbl b hb).2
        omega
      refine ⟨st.pagesize * c - 16, _, rfl, ?_, rfl, ?_, hfresh, by omega, ?_, habove⟩
      · refine Inv_carve g st _ _ _ hinv0 ?_ ?_ rfl ?_ rfl (le_refl _) rfl ?_ hfresh
          (by omega) ?_
        · unfold OSok
          simp only
          omega
        · unfold ArenaOk
          simp only
          exact har
        · intro bin; cases bin <;> simp only [State.bin]
        · simp only; omega
        · right
          simp only
          unfold HDR
          omega
      · intro bin; cases bin <;> simp only [State.bin]
      · intro hs
        have := (hcov hs).1
        unfold HDR at this hs
        omega

/-! ## The oversized path -/

theorem Inv_large_ok (g : Ghost) (st : State) (hinv : Inv g st) :
    LargeListOk st (g.fl Bin.large) := by
  obtain ⟨b1, _, b3⟩ := hinv.2.2.2.2 Bin.large
  refine ⟨b1, ?_⟩
  intro a ha
  obtain ⟨k, hk, _⟩ := b3 a ha
  obtain ⟨d1, d2, d3, d4, d5⟩ := Inv_block_bounds g st hinv (a, k) hk
  have hsz : load_size st.mem a = (k : Int) := (hinv.2.2.1 _ hk).1
  simp only at d1 d2 d3 d4 d5
  refine ⟨accessible_sub st _ _ _ _ d5 (le_refl _) (by unfold HDR; omega),
    accessible_sub st _ _ _ _ d5 (by omega) (by unfold HDR; omega), by omega, ?_, ?_⟩
  · rw [hsz]; omega
  · rw [hsz]; unfold INT_MAX; omega

theorem erase_not_mem (l : List Nat) (h : Nat) (hn : h ∉ l) : l.erase h = l :=
  List.erase_of_not_mem hn

theorem erase_mid (l1 l2 : List Nat) (r : Nat) (hn : r ∉ l1) :
    (l1 ++ r :: l2).erase r = l1 ++ l2 := by
  rw [List.erase_append_right _ hn, List.erase_cons_head]

theorem not_mem_erase_nodup (l : List Nat) (h : Nat) (hnd : l.Nodup) : h ∉ l.erase h :=
  fun hm => ((List.Nodup.mem_erase_iff hnd).mp hm).1 rfl

/-- A block that is apart from every block of the bookkeeping is on no bin. -/
theorem fresh_not_in_bins (g : Ghost) (st : State) (hinv : Inv g st) (h k : Nat)
    (hfresh : ∀ b ∈ g.blocks, Apart b (h, k)) (bin : Bin) : h ∉ g.fl bin := by
  intro hm
  obtain ⟨k', hk', _⟩ := Inv_bin_block g st hinv bin h hm
  have := hfresh (h, k') hk'
  unfold Apart HDR at this
  simp only at this
  omega

/-- The block unlinked from one bin is on no other bin. -/
theorem not_in_other_bin (g : Ghost) (st : State) (hinv : Inv g st) (bin b : Bin) (h : Nat)
    (hm : h ∈ g.fl bin) (hb : b ≠ bin) : h ∉ g.fl b := by
  intro hm'
  obtain ⟨k, hk, hg⟩ := Inv_bin_block g st hinv bin h hm
  exact hb ((Inv_bin_of_mem g st hinv b h k hm' hk).symm.trans hg)

theorem alloc_large_empty (fuel : Nat) (st : State) (size : Nat) (h : st.bin_large = 0) :
    alloc_large fuel st size = mmap_new_memory st size := by
  unfold alloc_large
  simp [h]

theorem alloc_large_found (fuel : Nat) (st : State) (size ret : Nat) (st1 : State)
    (h : st.bin_large ≠ 0)
    (hf : find_best_fit_from_bin_large fuel st size = Res.ok (ret, st1)) (hr : ret ≠ 0) :
    alloc_large fuel st size = Res.ok (ret, st1) := by
  unfold alloc_large
  simp [h, hf, hr]

theorem alloc_large_notfound (fuel : Nat) (st : State) (size : Nat) (st1 : State)
    (h : st.bin_large ≠ 0)
    (hf : find_best_fit_from_bin_large fuel st size = Res.ok (0, st1)) :
    alloc_large fuel st size = mmap_new_memory st1 size := by
  unfold alloc_large
  simp [h, hf]

theorem HdrFrame_store_next (g : Ghost) (m : Mem) (a k v : Nat) (ha : (a, k) ∈ g.blocks) :
    HdrFrame g m (store_next m a v) := by
  intro x hx
  apply store_next_outside
  have := hx (a, k) ha
  unfold HDR at this
  simp only at this
  omega

theorem HdrFrame_trans (g : Ghost) (m1 m2 m3 : Mem) (h12 : HdrFrame g m1 m2)
    (h23 : HdrFrame g m2 m3) : HdrFrame g m1 m3 := by
  intro x hx
  rw [h23 x hx, h12 x hx]

theorem HdrFrame_refl (g : Ghost) (m : Mem) : HdrFrame g m m := fun _ _ => rfl

/-- Fresh mapping, in the terms of `Served`. -/
theorem mmap_served (g : Ghost) (st : State) (size : Nat) (hinv : Inv g st)
    (hsize : size < 2 ^ 64) (h512 : 512 < size) :
    mmap_new_memory st size = Res.fault ∨
    ∃ p st' g', mmap_new_memory st size = Res.ok (p, st') ∧ Inv g' st' ∧
      HdrFrame g' st.mem st'.mem ∧ Served g g' size p ∧ p ≠ 0 := by
  rcases mmap_new_memory_spec g st size hinv hsize with
    hf | ⟨k, st', h1, h2, h3, h4, h5, h6, h7, h8⟩
  · exact Or.inl hf
  · right
    refine ⟨_, st', g.carve (st.mmap_next, k), h1, h2, ?_, ?_, by unfold HDR; omega⟩
    · intro x hx
      rw [h3]
      apply store_block_info_outside
      have := hx (st.mmap_next, k) (List.mem_cons_self _ _)
      simp only at this
      omega
    · right
      refine ⟨st.mmap_next, k, rfl, List.mem_cons_self _ _, ?_, ?_,
        Or.inr ⟨rfl, h5, Or.inr h8, h7⟩, by omega, by omega, by omega, fun _ => h6⟩
      · intro b
        exact (erase_not_mem _ _ (fresh_not_in_bins g st hinv _ k h5 b)).symm
      · intro b
        exact fresh_not_in_bins g st hinv _ k h5 b

/-- Reuse of the best-fitting block `r` of `bin_large`. -/
theorem reuse_served (g : Ghost) (st : State) (size fuel : Nat) (l1 : List Nat) (r : Nat)
    (l2 : List Nat) (hinv : Inv g st) (h512 : 512 < size)
    (hfuel : (g.fl Bin.large).length < fuel)
    (hbf : IsBestFit (load_size st.mem) size (g.fl Bin.large) l1 r l2)
    (hr : best_fit_scan st.mem size (g.fl Bin.large) 0 INT_MAX = r) :
    ∃ st', find_best_fit_from_bin_large fuel st size = Res.ok (r + HDR, st') ∧
      Inv (g.setFl Bin.large (l1 ++ l2)) st' ∧ HdrFrame g st.mem st'.mem ∧
      Served g (g.setFl Bin.large (l1 ++ l2)) size (r + HDR) ∧ SameEnv st st' ∧
      (l1 = [] → st' = unlink_head_state st r) := by
  have hl := Inv_large_ok g st hinv
  have hfl := hbf.1
  have hnot : r ∉ l1 := IsBestFit_not_mem _ _ _ _ _ _ hbf
  obtain ⟨b1, b2, b3⟩ := hinv.2.2.2.2 Bin.large
  have hrm : r ∈ g.fl Bin.large := by rw [hfl]; simp
  obtain ⟨kr, hkr, hgr⟩ := b3 r hrm
  have hkr512 : 512 < kr := get_bin_large_inv g st hinv (r, kr) hkr hgr
  have hszr : load_size st.mem r = (kr : Int) := (hinv.2.2.1 _ hkr).1
  have hserved : Served g (g.setFl Bin.large (l1 ++ l2)) size (r + HDR) := by
    right
    refine ⟨r, kr, rfl, hkr, ?_, ?_, Or.inl ⟨rfl, by rw [hgr]; exact hrm, ?_⟩,
      by omega, by omega, by omega, fun _ => hkr512⟩
    · intro b
      by_cases hb : b = Bin.large
      · subst hb
        rw [setFl_same, hfl, erase_mid _ _ _ hnot]
      · rw [setFl_other _ _ _ _ hb]
        exact (erase_not_mem _ _ (not_in_other_bin g st hinv Bin.large b r hrm hb)).symm
    · intro b
      by_cases hb : b = Bin.large
      · subst hb
        rw [setFl_same]
        have := not_mem_erase_nodup _ r b2
        rw [hfl, erase_mid _ _ _ hnot] at this
        exact this
      · rw [setFl_other _ _ _ _ hb]
        exact not_in_other_bin g st hinv Bin.large b r hrm hb
    · have := hbf.2.1
      rw [hszr] at this
      exact_mod_cast this
  rcases List.eq_nil_or_concat l1 with hnil | ⟨l1', p, hcat⟩
  · subst hnil
    rw [List.nil_append] at hfl
    rw [hfl] at hl hfuel hr
    refine ⟨unlink_head_state st r, find_best_fit_head fuel st size r l2 hl hfuel hr, ?_, ?_,
      hserved, ?_, fun _ => rfl⟩
    · exact Inv_unlink_head g st r l2 hinv hfl
    · exact HdrFrame_store_next g st.mem r kr 0 hkr
    · simp only [SameEnv, unlink_head_state, and_self]
  · subst hcat
    have hfl' : g.fl Bin.large = l1' ++ p :: r :: l2 := by
      rw [hfl]; simp
    have hnot' : r ∉ l1' := fun h => hnot (by simp [h])
    have hpr : p ≠ r := fun h => hnot (by simp [h])
    rw [hfl'] at hl hfuel hr
    obtain ⟨kp, hkp, _⟩ := b3 p (by rw [hfl']; simp)
    refine ⟨unlink_mid_state st p r,
      find_best_fit_mid fuel st size l1' p r l2 hl hfuel hnot' hpr hr, ?_, ?_, hserved, ?_, ?_⟩
    · have := Inv_unlink_mid g st l1' p r l2 hinv hfl'
      have e : l1'.concat p ++ l2 = l1' ++ p :: l2 := by simp
      rw [e]
      exact this
    · exact HdrFrame_trans g _ _ _ (HdrFrame_store_next g st.mem p kp _ hkp)
        (HdrFrame_store_next g _ r kr 0 hkr)
    · simp only [SameEnv, unlink_mid_state, and_self]
    · intro h
      simp at h

theorem HdrFrame_mono (g g' : Ghost) (m m' : Mem) (hsub : ∀ b ∈ g.blocks, b ∈ g'.blocks)
    (h : HdrFrame g m m') : HdrFrame g' m m' :=
  fun x hx => h x (fun b hb => hx b (hsub b hb))

theorem alloc_large_spec (g : Ghost) (st : State) (size fuel : Nat) (hinv : Inv g st)
    (hsize : size < 2 ^ 64) (h512 : 512 < size) (hfuel : (g.fl Bin.large).length < fuel) :
    alloc_large fuel st size = Res.fault ∨
    ∃ p st' g', alloc_large fuel st size = Res.ok (p, st') ∧ Inv g' st' ∧
      HdrFrame g' st.mem st'.mem ∧ Served g g' size p ∧ p ≠ 0 := by
  have hl := Inv_large_ok g st hinv
  by_cases h0 : st.bin_large = 0
  · rw [alloc_large_empty fuel st size h0]
    exact mmap_served g st size hinv hsize h512
  · rcases best_fit_scan_cases st.mem size (g.fl Bin.large)
        (fun a ha => (hl.2 a ha).2.2.2) (IsList_ne_zero _ _ _ hl.1) with
      ⟨_, hr⟩ | ⟨l1, l2, hbf, hr⟩
    · rw [alloc_large_notfound fuel st size st h0 (find_best_fit_none fuel st size _ hl hfuel hr)]
      exact mmap_served g st size hinv hsize h512
    · obtain ⟨st', e1, e2, e3, e4, _, _⟩ :=
        reuse_served g st size fuel l1 _ l2 hinv h512 hfuel hbf rfl
      right
      refine ⟨_, st', _, alloc_large_found fuel st size _ st' h0 e1 (by unfold HDR; omega),
        e2, e3, e4, by unfold HDR; omega⟩

/-! ## The function `malloc` -/

theorem malloc_eq (fuel : Nat) (st : State) (size : Nat) :
    malloc fuel st size =
      if 512 < size then alloc_large fuel (req_state st) size
      else heap_allocate (req_state st) (size_class size) := rfl

theorem size_class_cases (size : Nat) :
    size_class size = 8 ∨ size_class size = 64 ∨ size_class size = 512 := by
  unfold size_class
  split_ifs <;> simp

theorem req_state_env (st : State) : SameEnv st (req_state st) := by
  simp only [SameEnv, req_state, and_self]

theorem req_state_bin (st : State) (b : Bin) : (req_state st).bin b = st.bin b := by
  cases b <;> simp only [req_state, State.bin]

/-- A step that changes neither memory, bins, cursors nor the operating system
keeps the invariant. -/
theorem Inv_same (g : Ghost) (st st' : State) (hinv : Inv g st) (henv : SameEnv st st')
    (hmem : st'.mem = st.mem) (hbin : ∀ b, st'.bin b = st.bin b) : Inv g st' := by
  refine Inv_frame g st st' hinv (SameEnv_OSok _ _ henv hinv.1)
    (SameEnv_ArenaOk _ _ henv hinv.2.1) ?_ ?_ hbin henv.2.1
    (le_of_eq henv.2.2.2.2.2.2.2.1.symm) henv.2.2.2.2.1 (le_of_eq henv.2.2.2.2.2.1.symm)
  · intro b _; rw [hmem]
  · intro bin a _; rw [hmem]

theorem Inv_req_state (g : Ghost) (st : State) (hinv : Inv g st) : Inv g (req_state st) :=
  Inv_same g st _ hinv (req_state_env st) rfl (req_state_bin st)

/-- The fixed-class path, in the terms of `Served`. -/
theorem fixed_served (g : Ghost) (st : State) (size : Nat) (hinv : Inv g st)
    (h512 : size ≤ 512) :
    ∃ p st' g', heap_allocate st (size_class size) = Res.ok (p, st') ∧ Inv g' st' ∧
      HdrFrame g' st.mem st'.mem ∧ Served g g' size p := by
  have hk := size_class_cases size
  have hcls : (size ≤ 8 → size_class size = 8) ∧ (8 < size → size ≤ 64 → size_class size = 64) ∧
      (64 < size → size ≤ 512 → size_class size = 512) := by
    unfold size_class
    refine ⟨fun h => by rw [if_pos h], fun h1 h2 => by rw [if_neg (by omega), if_pos h2],
      fun h1 h2 => by rw [if_neg (by omega), if_neg (by omega)]⟩
  generalize size_class size = k at hk hcls
  obtain ⟨b1, b2, b3⟩ := hinv.2.2.2.2 (get_bin k)
  cases hfl : g.fl (get_bin k) with
  | nil =>
    rw [hfl] at b1
    have h0 : st.bin (get_bin k) = 0 := b1
    rw [heap_allocate_empty_eq st k h0]
    obtain ⟨p, st', e, hcase⟩ := bfuh_spec g st k hinv hk
    rcases hcase with ⟨hp, hi, hm, _⟩ | ⟨h, hp, hi, hm, _, hfresh, _⟩
    · refine ⟨p, st', g, e, hi, ?_, Or.inl ⟨hp, rfl⟩⟩
      rw [hm]
      exact HdrFrame_refl g _
    · refine ⟨p, st', g.carve (h, k), e, hi, ?_, ?_⟩
      · intro x hx
        rw [hm]
        apply store_block_info_outside
        have := hx (h, k) (List.mem_cons_self _ _)
        simp only at this
        omega
      · right
        have hle : size ≤ k := by
          rcases Nat.lt_or_ge 8 size with h8 | h8
          · rcases Nat.lt_or_ge 64 size with h64 | h64
            · have := hcls.2.2 h64 h512; omega
            · have := hcls.2.1 h8 h64; omega
          · have := hcls.1 h8; omega
        refine ⟨h, k, hp, List.mem_cons_self _ _, ?_, ?_,
          Or.inr ⟨rfl, hfresh, Or.inl hle, fun _ => hle⟩,
          hcls.1, hcls.2.1, hcls.2.2, fun h => by omega⟩
        · intro b
          exact (erase_not_mem _ _ (fresh_not_in_bins g st hinv _ k hfresh b)).symm
        · intro b
          exact fresh_not_in_bins g st hinv _ k hfresh b
  | cons a t =>
    obtain ⟨e, hi, k', hk', hg⟩ := heap_allocate_pop g st k a t hinv hfl
    have hkk : k' = k := get_bin_fixed k' k hk hg
    subst hkk
    have ham : a ∈ g.fl (get_bin k') := by rw [hfl]; exact List.mem_cons_self _ _
    refine ⟨_, _, _, e, hi, ?_, ?_⟩
    · rw [pop_state_mem]
      exact HdrFrame_store_next _ st.mem a k' 0 hk'
    · right
      have hle : size ≤ k' := by
        rcases Nat.lt_or_ge 8 size with h8 | h8
        · rcases Nat.lt_or_ge 64 size with h64 | h64
          · have := hcls.2.2 h64 h512; omega
          · have := hcls.2.1 h8 h64; omega
        · have := hcls.1 h8; omega
      refine ⟨a, k', rfl, hk', ?_, ?_, Or.inl ⟨rfl, ham, hle⟩, hcls.1, hcls.2.1, hcls.2.2,
        fun h => by omega⟩
      · intro b
        by_cases hb : b = get_bin k'
        · subst hb
          rw [setFl_same, hfl, List.erase_cons_head]
        · rw [setFl_other _ _ _ _ hb]
          exact (erase_not_mem _ _ (not_in_other_bin g st hinv _ b a ham hb)).symm
      · intro b
        by_cases hb : b = get_bin k'
        · subst hb
          rw [setFl_same]
          rw [hfl] at b2
          exact (List.nodup_cons.mp b2).1
        · rw [setFl_other _ _ _ _ hb]
          exact not_in_other_bin g st hinv _ b a ham hb

theorem malloc_spec (g : Ghost) (st : State) (size fuel : Nat) (hinv : Inv g st)
    (hsize : size < 2 ^ 64) (hfuel : (g.fl Bin.large).length < fuel) :
    (malloc fuel st size = Res.fault ∧ 512 < size) ∨
    ∃ p st' g', malloc fuel st size = Res.ok (p, st') ∧ Inv g' st' ∧
      HdrFrame g' st.mem st'.mem ∧ Served g g' size p := by
  rw [malloc_eq]
  have hinv1 := Inv_req_state g st hinv
  by_cases h : 512 < size
  · rw [if_pos h]
    rcases alloc_large_spec g (req_state st) size fuel hinv1 hsize h hfuel with
      hf | ⟨p, st', g', e1, e2, e3, e4, _⟩
    · exact Or.inl ⟨hf, h⟩
    · exact Or.inr ⟨p, st', g', e1, e2, e3, e4⟩
  · rw [if_neg h]
    exact Or.inr (fixed_served g (req_state st) size hinv1 (by omega))

/-! ## The function `calloc` -/

theorem calloc_null (fuel : Nat) (st st1 : State) (nmemb size : Nat) (hos : OSok st1)
    (hm : malloc fuel st (nmemb * size % WORD) = Res.ok (0, st1)) :
    calloc fuel st nmemb size = Res.fault := by
  unfold calloc
  rw [hm]
  simp only
  have e : psub 0 HDR = 2 ^ 64 - 16 := by unfold psub WORD HDR; norm_num
  rw [e]
  rw [if_pos (not_accessible_high st1 hos _ _ (by omega) (by omega))]

theorem calloc_block (g : Ghost) (fuel : Nat) (st st1 : State) (nmemb size h k : Nat)
    (hinv : Inv g st1) (hb : (h, k) ∈ g.blocks)
    (hm : malloc fuel st (nmemb * size % WORD) = Res.ok (h + HDR, st1)) :
    calloc fuel st nmemb size
      = Res.ok (h + HDR, { st1 with mem := memset st1.mem (h + HDR) 0 k }) ∧
    Inv g { st1 with mem := memset st1.mem (h + HDR) 0 k } := by
  obtain ⟨d1, d2, d3, d4, d5⟩ := Inv_block_bounds g st1 hinv (h, k) hb
  simp only at d1 d2 d3 d4 d5
  have hsz : load_size st1.mem h = (k : Int) := (hinv.2.2.1 _ hb).1
  have ek : size_t_of (k : Int) = k := size_t_of_small k (by omega)
  have ep : psub (h + HDR) HDR = h := by
    rw [psub_small _ _ (by omega) (by omega)]; omega
  have a1 : accessible st1 h 4 := accessible_sub st1 _ _ _ _ d5 (le_refl _) (by unfold HDR; omega)
  have a2 : accessible st1 (h + HDR) k := accessible_sub st1 _ _ _ _ d5 (by omega) (by omega)
  constructor
  · unfold calloc
    rw [hm]
    simp only [ep, hsz, ek]
    rw [if_neg (not_not.mpr a1), if_neg (not_not.mpr a2)]
  · refine Inv_memset g st1 _ h k hinv hb ?_ ?_ rfl
    · simp only [SameEnv, and_self]
    · intro b; cases b <;> simp only [State.bin]

/-! ## The function `realloc` -/

theorem free_mem_cases (fuel : Nat) (st : State) (p : Nat) (st' : State) (hp : p ≠ 0)
    (h : free fuel st p = Res.ok ((), st')) :
    st'.mem = memset st.mem p 0 (size_t_of (load_size st.mem (psub p HDR))) ∨
    ∃ v, st'.mem = store_next (memset st.mem p 0 (size_t_of (load_size st.mem (psub p HDR))))
      (psub p HDR) v := by
  unfold free at h
  simp only [ne_eq, hp, not_false_eq_true, if_true] at h
  split at h
  · cases h
  · split at h
    · cases h
    · split at h
      · cases h
      · cases h
      · injection h with h
        injection h with _ h
        subst h
        left
        rfl
      · split at h
        · cases h
        · injection h with h
          injection h with _ h
          subst h
          right
          exact ⟨_, setBin_mem _ _ _⟩

theorem realloc_eq (fuel : Nat) (st st1 : State) (ptr size newptr : Nat) (hptr : ptr ≠ 0)
    (hq : newptr ≠ 0) (hm : malloc fuel st size = Res.ok (newptr, st1)) :
    realloc fuel st ptr size =
      if ¬ accessible st1 (psub ptr HDR) 4 then Res.fault
      else if ¬ (accessible st1 ptr (size_t_of (load_size st1.mem (psub ptr HDR))) ∧
          accessible st1 newptr (size_t_of (load_size st1.mem (psub ptr HDR)))) then Res.fault
      else
        match free fuel ({ st1 with
            mem := memcpy st1.mem newptr ptr
              (size_t_of (load_size st1.mem (psub ptr HDR))) } : State) ptr with
        | Res.fault => Res.fault
        | Res.timeout => Res.timeout
        | Res.ok (_, st3) => Res.ok (newptr, st3) := by
  unfold realloc
  rw [if_neg hptr, hm]
  simp only
  rw [if_neg hq]

theorem realloc_fault_of_malloc (fuel : Nat) (st : State) (ptr size : Nat)
    (hm : malloc fuel st size = Res.fault) : realloc fuel st ptr size = Res.fault := by
  unfold realloc
  rw [hm]
  split <;> rfl

theorem realloc_null_of_malloc (fuel : Nat) (st st1 : State) (ptr size : Nat)
    (hm : malloc fuel st size = Res.ok (0, st1)) : realloc fuel st ptr size = Res.ok (0, st1) := by
  unfold realloc
  rw [hm]
  split
  · rfl
  · simp

/-- The payload bytes of a block lie outside every block header. -/
theorem payload_outside_headers (g : Ghost) (st : State) (hinv : Inv g st) (b0 : Nat × Nat)
    (hb0 : b0 ∈ g.blocks) (x : Nat) (h1 : b0.1 + HDR ≤ x) (h2 : x < b0.1 + HDR + b0.2) :
    ∀ b ∈ g.blocks, x < b.1 ∨ b.1 + HDR ≤ x := by
  intro b hb
  by_cases he : b.1 = b0.1
  · omega
  · have := Inv_apart_of_ne g st hinv b b0 hb hb0 he
    unfold Apart at this
    omega

/-- A copy into the payload of a block keeps the invariant. -/
theorem Inv_memcpy (g : Ghost) (st : State) (h kq src n : Nat) (hinv : Inv g st)
    (hb : (h, kq) ∈ g.blocks) (hn : n ≤ kq) :
    Inv g { st with mem := memcpy st.mem (h + HDR) src n } := by
  have hfr : ∀ b ∈ g.blocks, ∀ x, b.1 ≤ x → x < b.1 + HDR →
      memcpy st.mem (h + HDR) src n x = st.mem x := by
    intro b hb' x hx1 hx2
    apply memcpy_outside
    by_cases he : b.1 = h
    · omega
    · have := Inv_apart_of_ne g st hinv b (h, kq) hb' hb he
      unfold Apart at this
      simp only at this
      omega
  obtain ⟨hsz, hnx⟩ := hdr_frame g st.mem _ hfr
  have henv : SameEnv st { st with mem := memcpy st.mem (h + HDR) src n } := by
    simp only [SameEnv, and_self]
  refine Inv_frame g st _ hinv (SameEnv_OSok _ _ henv hinv.1)
    (SameEnv_ArenaOk _ _ henv hinv.2.1) hsz ?_ ?_ henv.2.1
    (le_of_eq henv.2.2.2.2.2.2.2.1.symm) henv.2.2.2.2.1 (le_of_eq henv.2.2.2.2.2.1.symm)
  · intro bin a ha
    obtain ⟨k', hk', _⟩ := Inv_bin_block g st hinv bin a ha
    exact hnx (a, k') hk'
  · intro b; cases b <;> simp only [State.bin]

theorem Served_blocks_mono (g g' : Ghost) (size p : Nat) (h : Served g g' size p) :
    ∀ b ∈ g.blocks, b ∈ g'.blocks := by
  intro b hb
  rcases h with ⟨_, rfl⟩ | ⟨h, k, _, _, _, _, hcase, _⟩
  · exact hb
  · rcases hcase with ⟨e, _⟩ | ⟨e, _⟩
    · rw [e]; exact hb
    · rw [e]; exact List.mem_cons_of_mem _ hb

theorem Served_fl_length (g g' : Ghost) (size p : Nat) (h : Served g g' size p) (b : Bin) :
    (g'.fl b).length ≤ (g.fl b).length := by
  rcases h with ⟨_, rfl⟩ | ⟨h, k, _, _, he, _⟩
  · exact le_refl _
  · rw [he b]
    exact List.length_erase_le _ _

/-- Content preservation of `realloc` for a live block `(hp, k)`. -/
theorem realloc_content (g : Ghost) (st : State) (fuel hp k n : Nat) (hinv : Inv g st)
    (hb : (hp, k) ∈ g.blocks) (hlive : ∀ b, hp ∉ g.fl b) (hn : n < 2 ^ 64)
    (hfuel : (g.fl Bin.large).length < fuel)
    (q : Nat) (st' : State) (hre : realloc fuel st (hp + HDR) n = Res.ok (q, st'))
    (hq0 : q ≠ 0) (i : Nat) (hin : i < n) (hik : i < k) :
    st'.mem (q + i) = st.mem (hp + HDR + i) := by
  have hH : HDR = 16 := rfl
  have hptr : hp + HDR ≠ 0 := by omega
  rcases malloc_spec g st n fuel hinv hn hfuel with ⟨hf, _⟩ | ⟨q1, st1, g1, hm, hinv1, hfr, hsv⟩
  · rw [realloc_fault_of_malloc fuel st _ n hf] at hre
    cases hre
  · by_cases hq1 : q1 = 0
    · subst hq1
      rw [realloc_null_of_malloc fuel st st1 _ n hm] at hre
      injection hre with hre
      injection hre with e _
      exact absurd e.symm hq0
    · have hmono := Served_blocks_mono g g1 n q1 hsv
      have hb1 : (hp, k) ∈ g1.blocks := hmono _ hb
      rcases hsv with ⟨e, _⟩ | ⟨h, kq, hq1e, hbq, _, _, hcase, _⟩
      · exact absurd e hq1
      · have hne : h ≠ hp := by
          intro he
          subst he
          rcases hcase with ⟨_, hm', _⟩ | ⟨_, hap, _⟩
          · exact hlive _ hm'
          · have := hap (h, k) hb
            unfold Apart HDR at this
            simp only at this
            omega
        have hap : Apart (h, kq) (hp, k) :=
          Inv_apart_of_ne g1 st1 hinv1 _ _ hbq hb1 hne
        unfold Apart at hap
        simp only at hap
        have hle : h + HDR + kq ≤ hp → i < kq := by
          intro hcaseB
          rcases hcase with ⟨_, _, hfit⟩ | ⟨_, _, hor, _⟩
          · omega
          · rcases hor with hfit | habove
            · omega
            · have := habove (hp, k) hb
              simp only at this
              omega
        obtain ⟨d1, d2, d3, d4, d5⟩ := Inv_block_bounds g1 st1 hinv1 (hp, k) hb1
        simp only at d1 d2 d3 d4 d5
        have hsz : load_size st1.mem hp = (k : Int) := (hinv1.2.2.1 _ hb1).1
        have ek : size_t_of (k : Int) = k := size_t_of_small k (by omega)
        have ep : psub (hp + HDR) HDR = hp := by
          rw [psub_small _ _ (by omega) (by omega)]; omega
        -- the old payload is untouched by the allocation
        have hold : st1.mem (hp + HDR + i) = st.mem (hp + HDR + i) :=
          hfr _ (payload_outside_headers g1 st1 hinv1 (hp, k) hb1 _ (by simp only; omega)
            (by simp only; omega))
        rw [realloc_eq fuel st st1 _ n q1 hptr hq1 hm, ep, hsz, ek] at hre
        split at hre
        · cases hre
        · split at hre
          · cases hre
          · split at hre
            · cases hre
            · cases hre
            · rename_i u st3 hfree
              obtain ⟨e1, e2⟩ := Prod.mk.inj (Res.ok.inj hre)
              subst e1
              subst e2
              have hcopy : memcpy st1.mem q1 (hp + HDR) k (q1 + i) = st1.mem (hp + HDR + i) :=
                memcpy_inside _ _ _ _ _ hik
              have hcases := free_mem_cases fuel _ (hp + HDR) st3 hptr hfree
              rw [ep] at hcases
              simp only at hcases
              have hG : h + HDR + kq ≤ hp ∨
                  size_t_of (load_size (memcpy st1.mem q1 (hp + HDR) k) hp) = k := by
                rcases hap with hB | hA
                · exact Or.inl hB
                · right
                  have : load_size (memcpy st1.mem q1 (hp + HDR) k) hp = load_size st1.mem hp := by
                    apply load_size_congr
                    intro x hx1 hx2
                    apply memcpy_outside
                    omega
                  rw [this, hsz, ek]
              rw [← hold, ← hcopy]
              rcases hcases with e | ⟨v, e⟩
              · rw [e]
                apply memset_outside
                rcases hG with hB | hG
                · have := hle hB; omega
                · rw [hG]; rcases hap with hB | hA
                  · have := hle hB; omega
                  · omega
              · rw [e, store_next_outside _ _ _ _ (by
                  rcases hap with hB | hA
                  · have := hle hB; omega
                  · omega)]
                apply memset_outside
                rcases hG with hB | hG
                · have := hle hB; omega
                · rw [hG]; rcases hap with hB | hA
                  · have := hle hB; omega
                  · omega

/-- When the old block is no larger than the new one, `realloc` returns. -/
theorem realloc_returns (g : Ghost) (st : State) (fuel hp k n : Nat) (hinv : Inv g st)
    (hb : (hp, k) ∈ g.blocks) (hn : n < 2 ^ 64)
    (hfuel : ∀ b, (g.fl b).length < fuel)
    (q : Nat) (st1 : State) (hm : malloc fuel st n = Res.ok (q, st1)) (hq0 : q ≠ 0)
    (hk : (k : Int) ≤ load_size st1.mem (psub q HDR)) :
    ∃ st', realloc fuel st (hp + HDR) n = Res.ok (q, st') := by
  have hH : HDR = 16 := rfl
  have hptr : hp + HDR ≠ 0 := by omega
  rcases malloc_spec g st n fuel hinv hn (hfuel _) with
    ⟨hf, _⟩ | ⟨q1, st1', g1, hm', hinv1, hfr, hsv⟩
  · rw [hf] at hm; cases hm
  · rw [hm] at hm'
    obtain ⟨e1, e2⟩ := Prod.mk.inj (Res.ok.inj hm')
    subst e1
    subst e2
    have hlen := Served_fl_length g g1 n q hsv
    have hb1 : (hp, k) ∈ g1.blocks := Served_blocks_mono g g1 n q hsv _ hb
    rcases hsv with ⟨e, _⟩ | ⟨h, kq, hqe, hbq, _, _, _, _⟩
    · exact absurd e hq0
    · obtain ⟨d1, d2, d3, d4, d5⟩ := Inv_block_bounds g1 st1 hinv1 (hp, k) hb1
      obtain ⟨c1, c2, c3, c4, c5⟩ := Inv_block_bounds g1 st1 hinv1 (h, kq) hbq
      simp only at d1 d2 d3 d4 d5 c1 c2 c3 c4 c5
      have hsz : load_size st1.mem hp = (k : Int) := (hinv1.2.2.1 _ hb1).1
      have hszq : load_size st1.mem h = (kq : Int) := (hinv1.2.2.1 _ hbq).1
      have ek : size_t_of (k : Int) = k := size_t_of_small k (by omega)
      have ep : psub (hp + HDR) HDR = hp := by
        rw [psub_small _ _ (by omega) (by omega)]; omega
      have eq' : psub q HDR = h := by
        rw [hqe, psub_small _ _ (by omega) (by omega)]; omega
      rw [eq', hszq] at hk
      have hkq : k ≤ kq := by exact_mod_cast hk
      have a1 : accessible st1 hp 4 := accessible_sub st1 _ _ _ _ d5 (le_refl _) (by omega)
      have a2 : accessible st1 (hp + HDR) k := accessible_sub st1 _ _ _ _ d5 (by omega) (by omega)
      have a3 : accessible st1 q k := accessible_sub st1 _ _ _ _ c5 (by omega) (by omega)
      rw [realloc_eq fuel st st1 _ n q hptr hq0 hm, ep, hsz, ek,
        if_neg (not_not.mpr a1), if_neg (not_not.mpr ⟨a2, a3⟩)]
      have hinv2 := Inv_memcpy g1 st1 h kq (hp + HDR) k hinv1 hbq hkq
      rw [← hqe] at hinv2
      rw [free_block_eq g1 _ hp k fuel hinv2 hb1 (lt_of_le_of_lt (hlen _) (hfuel _))]
      exact ⟨_, rfl⟩

/-! ## Runs -/

theorem Inv_init (pagesize brk0 brk_limit mmap_base mmap_limit : Nat) (mem : Mem)
    (hos : OSok (init pagesize brk0 brk_limit mmap_base mmap_limit mem)) :
    Inv Ghost.empty (init pagesize brk0 brk_limit mmap_base mmap_limit mem) := by
  refine ⟨hos, ?_, ?_, List.Pairwise.nil, ?_⟩
  · unfold OSok at hos
    unfold ArenaOk
    simp only [init] at hos ⊢
    omega
  · intro b hb
    cases hb
  · intro bin
    refine ⟨?_, List.nodup_nil, ?_⟩
    · cases bin <;> exact rfl
    · intro h hh
      cases hh

theorem TraceOk_ret (g g' : Ghost) (tr : Trace) (size p : Nat) (ht : TraceOk g tr)
    (hsv : Served g g' size p) : TraceOk g' (tr.ret p) := by
  have hH : HDR = 16 := rfl
  have hmono := Served_blocks_mono g g' size p hsv
  have hsub : ∀ b x, x ∈ g'.fl b → x ∈ g.fl b := by
    intro b x hx
    rcases hsv with ⟨_, rfl⟩ | ⟨h, k, _, _, he, _⟩
    · exact hx
    · rw [he b] at hx
      exact List.mem_of_mem_erase hx
  refine ⟨?_, ?_, ?_⟩
  · intro r hr hr0
    simp only [Trace.ret, List.mem_append, List.mem_singleton] at hr
    rcases hr with hr | hr
    · obtain ⟨h, k, e1, e2⟩ := ht.1 r hr hr0
      exact ⟨h, k, e1, hmono _ e2⟩
    · subst hr
      rcases hsv with ⟨e, _⟩ | ⟨h, k, e1, e2, _⟩
      · exact absurd e hr0
      · exact ⟨h, k, e1, e2⟩
  · intro q hq
    simp only [Trace.ret] at hq ⊢
    have hold : q ∈ tr.live → q ∈ tr.rets ++ [p] ∧ q ≠ 0 ∧
        ∀ h, q = h + HDR → ∀ b, h ∉ g'.fl b := by
      intro hq
      obtain ⟨a1, a2, a3⟩ := ht.2.1 q hq
      exact ⟨List.mem_append_left _ a1, a2, fun h e b hm => a3 h e b (hsub b h hm)⟩
    by_cases hp : p = 0
    · rw [if_pos hp] at hq
      exact hold hq
    · rw [if_neg hp] at hq
      rcases List.mem_cons.mp hq with rfl | hq
      · refine ⟨by simp, hp, ?_⟩
        intro h' e b
        rcases hsv with ⟨e0, _⟩ | ⟨h, k, e1, _, _, hnot, _⟩
        · exact absurd e0 hp
        · have : h' = h := by omega
          rw [this]
          exact hnot b
      · exact hold hq
  · intro b
    exact le_trans (Served_fl_length g g' size p hsv b) (ht.2.2 b)

theorem Served_ne_live (g g' : Ghost) (size q h k : Nat) (hb : (h, k) ∈ g.blocks)
    (hnot : ∀ b, h ∉ g.fl b) (hsv : Served g g' size q) : q ≠ h + HDR := by
  have hH : HDR = 16 := rfl
  rcases hsv with ⟨h0, _⟩ | ⟨h', k', hp, _, _, _, hcase, _⟩
  · omega
  · rcases hcase with ⟨_, hm, _⟩ | ⟨_, hfresh, _⟩
    · intro e
      have : h' = h := by omega
      rw [this] at hm
      exact hnot _ hm
    · have := hfresh (h, k) hb
      unfold Apart at this
      simp only at this
      omega

/-- A pointer that `malloc` returns is not live, so the live pointers stay
distinct. -/
theorem live_nodup_ret (g g' : Ghost) (tr : Trace) (size p : Nat) (ht : TraceOk g tr)
    (hsv : Served g g' size p) (hn : tr.live.Nodup) : (tr.ret p).live.Nodup := by
  simp only [Trace.ret]
  by_cases hp : p = 0
  · rw [if_pos hp]
    exact hn
  · rw [if_neg hp]
    refine List.nodup_cons.mpr ⟨fun hm => ?_, hn⟩
    obtain ⟨hrets, hp0, hlive⟩ := ht.2.1 p hm
    obtain ⟨h, k, hpe, hb⟩ := ht.1 p hrets hp0
    exact Served_ne_live g g' size p h k hb (hlive h hpe) hsv hpe

theorem live_nodup_release (tr : Trace) (p : Nat) (hn : tr.live.Nodup) :
    (tr.release p).live.Nodup := by
  simp only [Trace.release]
  exact List.Nodup.filter _ hn

theorem TraceOk_release_null (g : Ghost) (tr : Trace) (ht : TraceOk g tr) :
    TraceOk g (tr.release 0) := by
  refine ⟨ht.1, ?_, fun b => le_trans (ht.2.2 b) (Nat.le_succ _)⟩
  intro q hq
  simp only [Trace.release, List.mem_filter] at hq
  exact ht.2.1 q hq.1

theorem Ghost_free_blocks (g : Ghost) (h k : Nat) : (g.free h k).blocks = g.blocks := by
  unfold Ghost.free
  split <;> rfl

theorem Ghost_free_length (g : Ghost) (h k : Nat) (b : Bin) :
    ((g.free h k).fl b).length ≤ (g.fl b).length + 1 := by
  unfold Ghost.free
  split
  · omega
  · by_cases hb : b = get_bin k
    · subst hb
      rw [setFl_same]
      simp
    · rw [setFl_other _ _ _ _ hb]
      omega

theorem Ghost_free_mem (g : Ghost) (h k : Nat) (b : Bin) (x : Nat)
    (hx : x ∈ (g.free h k).fl b) : x = h ∨ x ∈ g.fl b := by
  unfold Ghost.free at hx
  split at hx
  · exact Or.inr hx
  · by_cases hb : b = get_bin k
    · subst hb
      rw [setFl_same] at hx
      rcases List.mem_cons.mp hx with e | e
      · exact Or.inl e
      · exact Or.inr e
    · rw [setFl_other _ _ _ _ hb] at hx
      exact Or.inr hx

theorem TraceOk_release (g : Ghost) (tr : Trace) (h k : Nat) (ht : TraceOk g tr) :
    TraceOk (g.free h k) (tr.release (h + HDR)) := by
  have hH : HDR = 16 := rfl
  refine ⟨?_, ?_, ?_⟩
  · intro r hr hr0
    rw [Ghost_free_blocks]
    exact ht.1 r hr hr0
  · intro q hq
    simp only [Trace.release, List.mem_filter, decide_eq_true_eq] at hq
    obtain ⟨a1, a2, a3⟩ := ht.2.1 q hq.1
    refine ⟨a1, a2, ?_⟩
    intro h' e b hm
    rcases Ghost_free_mem g h k b h' hm with e' | e'
    · subst e'
      exact hq.2 e
    · exact a3 h' e b e'
  · intro b
    exact le_trans (Ghost_free_length g h k b) (Nat.succ_le_succ (ht.2.2 b))

theorem getD_mem (l : List Nat) (i : Nat) (h : l.getD i 0 ≠ 0) : l.getD i 0 ∈ l := by
  rw [List.getD_eq_getElem?_getD] at h ⊢
  cases hi : l[i]? with
  | none => rw [hi] at h; exact absurd rfl h
  | some x => exact List.getElem?_mem hi

theorem exec_nil (fuel : Nat) (st : State) (tr : Trace) :
    exec fuel [] st tr = Res.ok (tr, st) := rfl

theorem exec_malloc (fuel : Nat) (size : Nat) (cs : List Call) (st : State) (tr : Trace) :
    exec fuel (Call.malloc size :: cs) st tr =
      match malloc fuel st size with
      | Res.ok (p, st1) => exec fuel cs st1 (tr.ret p)
      | Res.fault => Res.fault
      | Res.timeout => Res.timeout := rfl

theorem exec_calloc (fuel : Nat) (nmemb size : Nat) (cs : List Call) (st : State)
    (tr : Trace) :
    exec fuel (Call.calloc nmemb size :: cs) st tr =
      match calloc fuel st nmemb size with
      | Res.ok (p, st1) => exec fuel cs st1 (tr.ret p)
      | Res.fault => Res.fault
      | Res.timeout => Res.timeout := rfl

theorem exec_free (fuel : Nat) (i : Nat) (cs : List Call) (st : State) (tr : Trace) :
    exec fuel (Call.free i :: cs) st tr =
      match free fuel st (tr.rets.getD i 0) with
      | Res.ok (_, st1) => exec fuel cs st1 (tr.release (tr.rets.getD i 0))
      | Res.fault => Res.fault
      | Res.timeout => Res.timeout := rfl

/-- The invariant along a run: no timeout with enough fuel, and every state
the run reaches satisfies the heap invariant for some bookkeeping. -/
theorem exec_inv (fuel : Nat) (cs : List Call) :
    ∀ (st : State) (tr : Trace) (g : Ghost), Inv g st → TraceOk g tr → tr.live.Nodup →
      (∀ c ∈ cs, c.fits) → tr.nfree + cs.length < fuel →
      exec fuel cs st tr ≠ Res.timeout ∧
      ∀ tr' st', exec fuel cs st tr = Res.ok (tr', st') →
        ∃ g', Inv g' st' ∧ TraceOk g' tr' ∧ tr'.live.Nodup := by
  induction cs with
  | nil =>
    intro st tr g hinv ht hn _ _
    rw [exec_nil]
    refine ⟨fun h => Res.noConfusion h, ?_⟩
    intro tr' st' h
    obtain ⟨e1, e2⟩ := Prod.mk.inj (Res.ok.inj h)
    subst e1
    subst e2
    exact ⟨g, hinv, ht, hn⟩
  | cons c cs ih =>
    intro st tr g hinv ht hn hfits hfuel
    have hfits' : ∀ c ∈ cs, c.fits := fun x hx => hfits x (List.mem_cons_of_mem _ hx)
    have hc := hfits c (List.mem_cons_self _ _)
    have hlen := ht.2.2
    simp only [List.length_cons] at hfuel
    cases c with
    | malloc size =>
      rw [exec_malloc]
      rcases malloc_spec g st size fuel hinv hc (by have := hlen Bin.large; omega) with
        ⟨hf, _⟩ | ⟨p, st1, g1, hm, hinv1, _, hsv⟩
      · rw [hf]
        exact ⟨fun h => Res.noConfusion h, fun _ _ h => Res.noConfusion h⟩
      · rw [hm]
        exact ih st1 _ g1 hinv1 (TraceOk_ret g g1 tr size p ht hsv)
          (live_nodup_ret g g1 tr size p ht hsv hn) hfits'
          (by simp only [Trace.ret]; omega)
    | calloc nmemb size =>
      rw [exec_calloc]
      have hsz : nmemb * size % WORD < 2 ^ 64 := Nat.mod_lt _ (by unfold WORD; norm_num)
      rcases malloc_spec g st _ fuel hinv hsz (by have := hlen Bin.large; omega) with
        ⟨hf, _⟩ | ⟨p, st1, g1, hm, hinv1, _, hsv⟩
      · have : calloc fuel st nmemb size = Res.fault := by
          unfold calloc
          rw [hf]
        rw [this]
        exact ⟨fun h => Res.noConfusion h, fun _ _ h => Res.noConfusion h⟩
      · have hsv0 := hsv
        rcases hsv with ⟨e, _⟩ | ⟨h, k, e1, e2, _⟩
        · subst e
          rw [calloc_null fuel st st1 nmemb size hinv1.1 hm]
          exact ⟨fun h => Res.noConfusion h, fun _ _ h => Res.noConfusion h⟩
        · subst e1
          obtain ⟨c1, c2⟩ := calloc_block g1 fuel st st1 nmemb size h k hinv1 e2 hm
          rw [c1]
          exact ih _ _ g1 c2 (TraceOk_ret g g1 tr _ _ ht hsv0)
            (live_nodup_ret g g1 tr _ _ ht hsv0 hn) hfits'
            (by simp only [Trace.ret]; omega)
    | free i =>
      rw [exec_free]
      by_cases hp : tr.rets.getD i 0 = 0
      · rw [hp, free_null]
        refine ih _ _ g ?_ (TraceOk_release_null g tr ht) (live_nodup_release tr 0 hn) hfits'
          (by simp only [Trace.release]; omega)
        refine Inv_same g st _ hinv ?_ rfl ?_
        · simp only [SameEnv, and_self]
        · intro b; cases b <;> simp only [State.bin]
      · obtain ⟨h, k, e1, e2⟩ := ht.1 _ (getD_mem _ _ hp) hp
        rw [e1, free_block_eq g st h k fuel hinv e2 (by have := hlen (get_bin k); omega)]
        exact ih _ _ (g.free h k) (Inv_free g st h k hinv e2)
          (TraceOk_release g tr h k ht) (live_nodup_release tr _ hn) hfits'
          (by simp only [Trace.release]; omega)

theorem TraceOk_start : TraceOk Ghost.empty Trace.start := by
  refine ⟨?_, ?_, ?_⟩
  · intro r hr; cases hr
  · intro p hp; cases hp
  · intro b; exact Nat.le_refl _

/-- Every reachable state satisfies the heap invariant, and the live pointers of
its trace are distinct. -/
theorem Reachable_inv_nodup (st : State) (tr : Trace) (h : Reachable st tr) :
    ∃ g, Inv g st ∧ TraceOk g tr ∧ tr.live.Nodup := by
  obtain ⟨fuel, cs, P, b0, bl, mb, ml, mem, hos, hfits, hf, hrun⟩ := h
  exact (exec_inv fuel cs _ _ _ (Inv_init P b0 bl mb ml mem hos) TraceOk_start
    List.nodup_nil hfits (by simp only [Trace.start]; omega)).2 tr st hrun

/-- Every reachable state satisfies the heap invariant. -/
theorem Reachable_inv (st : State) (tr : Trace) (h : Reachable st tr) :
    ∃ g, Inv g st ∧ TraceOk g tr := by
  obtain ⟨g, h1, h2, _⟩ := Reachable_inv_nodup st tr h
  exact ⟨g, h1, h2⟩

/-! ## Allocate, free, allocate again -/

theorem Res_ok_inj {α : Type} (a b : α) (s t : State)
    (h : (Res.ok (a, s) : Outcome α) = Res.ok (b, t)) : a = b ∧ s = t :=
  Prod.mk.inj (Res.ok.inj h)

theorem size_class_le (size : Nat) (h : size ≤ 512) : size ≤ size_class size := by
  unfold size_class
  split_ifs <;> omega

theorem IsList_unique (m : Mem) (l : List Nat) :
    ∀ head l', IsList m head l → IsList m head l' → l = l' := by
  induction l with
  | nil =>
    intro head l' h h'
    have h0 : head = 0 := h
    subst h0
    exact (IsList_head_zero m l' h').symm
  | cons a l ih =>
    intro head l' h h'
    obtain ⟨h1, h2, h3⟩ := h
    subst h1
    obtain ⟨t, e, ht⟩ := IsList_head_ne_zero m head l' h' h2
    subst e
    rw [ih _ t h3 ht]

theorem mmap_fst_env (st st' : State) (h : SameEnv st st') (len : Nat) :
    (mmap st' len).1 = (mmap st len).1 := by
  obtain ⟨e1, _, _, _, _, e6, e7, _⟩ := h
  unfold mmap
  rw [e1, e6, e7]
  split_ifs <;> rfl

/-- The two outcomes of `mmap_new_memory`: the mapping is refused and the write
of the header faults, or a whole number of pages is mapped and the block
records the mapped bytes less the header. -/
theorem mmap_new_memory_core (st : State) (size : Nat) (hos : OSok st)
    (hsize : size < 2 ^ 64) :
    ((mmap st (mmap_length st.pagesize size)).1 = MAP_FAILED ∧
      mmap_new_memory st size = Res.fault) ∨
    ∃ c st', 0 < c ∧ st.pagesize * c < 2 ^ 31 ∧
      mmap_length st.pagesize size = st.pagesize * c ∧
      (mmap st (mmap_length st.pagesize size)).1 = st.mmap_next ∧
      st.mmap_next + st.pagesize * c ≤ st.mmap_limit ∧
      (size + HDR ≤ 2 ^ 31 - 1 →
        size + HDR ≤ st.pagesize * c ∧ c = (size + 15) / st.pagesize + 1) ∧
      mmap_new_memory st size = Res.ok (st.mmap_next + HDR, st') ∧
      st'.mmap_next = st.mmap_next + st.pagesize * c ∧
      st'.mem = store_block_info st.mem st.mmap_next ((st.pagesize * c - 16 : Nat) : Int) 0 ∧
      st'.total_mmap_size_allocated = padd st.total_mmap_size_allocated size ∧
      st'.total_number_of_blocks = st.total_number_of_blocks ∧
      (∀ bin, st'.bin bin = st.bin bin) := by
  have hos' := hos
  unfold OSok at hos
  obtain ⟨rps, hrps⟩ : ∃ rps, rps = int_of ((st.pagesize : Int) *
    int_of ((padd (psub (padd size HDR) 1 / st.pagesize) 1 : Nat) : Int)) := ⟨_, rfl⟩
  have hlen0 : mmap_length st.pagesize size = size_t_of rps := by
    unfold mmap_length
    rw [← hrps]
  rw [hlen0]
  have harith := mmap_arith st.pagesize size rps hos.1 hos.2.1 hsize hrps
  have hna : ¬ accessible st MAP_FAILED HDR :=
    not_accessible_high st hos' MAP_FAILED HDR (by unfold MAP_FAILED HDR; omega)
      (by unfold HDR; omega)
  rcases harith with hneg | ⟨c, hc, hc0, hclt, hcov⟩
  · left
    have hlen : size_t_of rps = 0 ∨ 2 ^ 63 ≤ size_t_of rps := by
      have hr := int_of_range ((st.pagesize : Int) *
        int_of ((padd (psub (padd size HDR) 1 / st.pagesize) 1 : Nat) : Int))
      rw [← hrps] at hr
      clear hrps hlen0
      unfold size_t_of
      omega
    have hfail : mmap st (size_t_of rps) = (MAP_FAILED, st) := by
      apply mmap_fail
      rcases hlen with h | h
      · exact Or.inl h
      · right
        have := page_round_ge st.pagesize (size_t_of rps) (by omega)
        omega
    rw [mmap_new_memory_eq st size rps _ _ hrps hfail, hfail]
    exact ⟨rfl, if_pos hna⟩
  · have hlen : size_t_of rps = st.pagesize * c := by
      rw [hc]
      exact size_t_of_small _ (by omega)
    by_cases hfit : st.mmap_limit < st.mmap_next + st.pagesize * c
    · left
      have hfail : mmap st (size_t_of rps) = (MAP_FAILED, st) := by
        apply mmap_fail
        right
        rw [hlen, page_round_mul _ _ (by omega)]
        exact hfit
      rw [mmap_new_memory_eq st size rps _ _ hrps hfail, hfail]
      exact ⟨rfl, if_pos hna⟩
    · right
      have hge : 528 < st.pagesize * c := by nlinarith
      have hok := mmap_ok st (size_t_of rps) (by
        rw [hlen, page_round_mul _ _ (by omega)]
        omega)
      rw [hlen, page_round_mul _ _ (by omega), ← hlen] at hok
      rw [mmap_new_memory_eq st size rps _ _ hrps hok, hok, hlen]
      have ek : int_of ((psub (st.pagesize * c) HDR : Nat) : Int)
          = ((st.pagesize * c - 16 : Nat) : Int) := by
        rw [psub_small _ _ (by unfold HDR; omega) (by omega)]
        exact int_of_small _ (by unfold HDR; omega)
      have hacc : accessible ({ st with mmap_next := st.mmap_next + st.pagesize * c } : State)
          st.mmap_next HDR := by
        unfold accessible HDR
        simp only
        omega
      rw [if_neg (not_not.mpr hacc), ek, padd_small _ _ (by unfold HDR; omega)]
      refine ⟨c, _, hc0, hclt, rfl, rfl, by omega, hcov, rfl, rfl, rfl, rfl, rfl, ?_⟩
      intro bin; cases bin <;> simp only [State.bin]

theorem Res_eta {α : Type} (r : Outcome α) (d : State) (a : α) (h : Res.val r = some a) :
    r = Res.ok (a, Res.state d r) := by
  cases r with
  | ok x =>
    obtain ⟨b, s⟩ := x
    have e : b = a := Option.some.inj h
    subst e
    rfl
  | fault => exact Option.noConfusion h
  | timeout => exact Option.noConfusion h

theorem OSok_start : OSok start_state := by
  unfold OSok
  decide

theorem exec_eta (fuel : Nat) (cs : List Call)
    (h : Res.isOk (exec fuel cs start_state Trace.start) = true) :
    exec fuel cs start_state Trace.start
      = Res.ok (trace_after fuel cs, state_after fuel cs) := by
  unfold trace_after state_after
  cases hx : exec fuel cs start_state Trace.start with
  | ok x => rfl
  | fault => rw [hx] at h; exact Bool.noConfusion h
  | timeout => rw [hx] at h; exact Bool.noConfusion h

/-- A run from `start_state` that returns ends in a reachable state. -/
theorem Reachable_after (fuel : Nat) (cs : List Call) (hfits : ∀ c ∈ cs, c.fits)
    (hlen : cs.length < fuel)
    (h : Res.isOk (exec fuel cs start_state Trace.start) = true) :
    Reachable (state_after fuel cs) (trace_after fuel cs) :=
  ⟨fuel, cs, 4096, 16777216, 33554432, 139637976727552, 140733193388032, fun a => a % 251,
    OSok_start, hfits, hlen, exec_eta fuel cs h⟩

theorem Reachable_start : Reachable start_state Trace.start :=
  ⟨1, [], 4096, 16777216, 33554432, 139637976727552, 140733193388032, fun a => a % 251,
    OSok_start, fun _ h => absurd h (List.not_mem_nil _), Nat.zero_lt_one, rfl⟩

example : Reachable (state_after 10 [Call.malloc 8, Call.malloc 600, Call.free 0])
    (trace_after 10 [Call.malloc 8, Call.malloc 600, Call.free 0]) :=
  Reachable_after _ _ (by decide) (by decide) (by decide)

theorem Inv_rec_size (g : Ghost) (st : State) (hinv : Inv g st) (h k : Nat)
    (hb : (h, k) ∈ g.blocks) :
    psub (h + HDR) HDR = h ∧ load_size st.mem h = (k : Int) ∧ rec_size st (h + HDR) = k := by
  have hH : HDR = 16 := rfl
  have hbd := Inv_block_bounds g st hinv (h, k) hb
  simp only at hbd
  have e1 : psub (h + HDR) HDR = h := by
    rw [psub_small _ _ (by omega) (by omega)]
    omega
  have e2 : load_size st.mem h = (k : Int) := (hinv.2.2.1 (h, k) hb).1
  refine ⟨e1, e2, ?_⟩
  unfold rec_size
  rw [e1, e2]
  exact size_t_of_small k (by omega)

theorem size_class_eq (size : Nat) :
    size_class size = if size ≤ 8 then 8 else if size ≤ 64 then 64 else 512 := rfl

/-- `free` of NULL or of the payload of a block returns. -/
theorem free_returns (g : Ghost) (st : State) (fuel p : Nat) (hinv : Inv g st)
    (hlen : ∀ b, (g.fl b).length < fuel)
    (hp : p = 0 ∨ ∃ h k, p = h + HDR ∧ (h, k) ∈ g.blocks) :
    ∃ st2, free fuel st p = Res.ok ((), st2) := by
  rcases hp with h0 | ⟨h, k, hp, hb⟩
  · subst h0
    exact ⟨_, free_null fuel st⟩
  · subst hp
    exact ⟨_, free_block_eq g st h k fuel hinv hb (hlen _)⟩

theorem Served_ptr (g g' : Ghost) (size p : Nat) (h : Served g g' size p) :
    p = 0 ∨ ∃ h k, p = h + HDR ∧ (h, k) ∈ g'.blocks := by
  rcases h with ⟨h0, _⟩ | ⟨h, k, hp, hb, _⟩
  · exact Or.inl h0
  · exact Or.inr ⟨h, k, hp, hb⟩

theorem sbrk_fst (st : State) (inc : Nat) (hos : OSok st) :
    (sbrk st inc).1 ≠ MAP_FAILED ↔ st.brk + inc ≤ st.brk_limit := by
  unfold OSok at hos
  unfold sbrk
  split_ifs with h
  · simp only [h, iff_true]
    unfold MAP_FAILED
    omega
  · simp only [h, iff_false, not_not]

/-- A fixed-class request is not answered NULL when the break is free to move
in case the bin is empty and the slice exhausted. -/
theorem heap_allocate_nonnull (g : Ghost) (st : State) (k : Nat) (hinv : Inv g st)
    (hk : k = 8 ∨ k = 64 ∨ k = 512)
    (hsb : st.bin (get_bin k) = 0 →
      (st.thread_unused_heap_start = 0 ∨
        st.thread_heap_end - st.thread_unused_heap_start < k + 16) →
      st.brk + st.pagesize * 100 ≤ st.brk_limit)
    (p : Nat) (st' : State) (h : heap_allocate st k = Res.ok (p, st')) : p ≠ 0 := by
  have hH : HDR = 16 := rfl
  cases hfl : g.fl (get_bin k) with
  | cons a t =>
    obtain ⟨e, _, _⟩ := heap_allocate_pop g st k a t hinv hfl
    rw [e] at h
    have := (Res_ok_inj _ _ _ _ h).1
    omega
  | nil =>
    have hb := (hinv.2.2.2.2 (get_bin k)).1
    rw [hfl] at hb
    have h0 : st.bin (get_bin k) = 0 := hb
    rw [heap_allocate_empty_eq st k h0] at h
    obtain ⟨p', st'', e, hcase⟩ := bfuh_spec g st k hinv hk
    rw [h] at e
    obtain ⟨ep, _⟩ := Res_ok_inj _ _ _ _ e
    subst ep
    rcases hcase with ⟨_, _, _, _, hc, hno, _⟩ | ⟨h', hp, _⟩
    · exact absurd (hsb h0 hc) hno
    · omega

/-- An oversized request faults only in `mmap_new_memory`, called in the state
in which `alloc_large` was entered, after no block of `bin_large` was found to
fit. -/
theorem alloc_large_fault (g : Ghost) (st : State) (size fuel : Nat) (hinv : Inv g st)
    (h512 : 512 < size) (hfuel : (g.fl Bin.large).length < fuel)
    (hf : alloc_large fuel st size = Res.fault) :
    mmap_new_memory st size = Res.fault ∧
      ∀ a ∈ g.fl Bin.large, load_size st.mem a < (size : Int) := by
  have hl := Inv_large_ok g st hinv
  by_cases h0 : st.bin_large = 0
  · rw [alloc_large_empty fuel st size h0] at hf
    refine ⟨hf, fun a ha => ?_⟩
    have hnil := hl.1
    rw [h0] at hnil
    rw [IsList_head_zero _ _ hnil] at ha
    exact absurd ha (List.not_mem_nil a)
  · rcases best_fit_scan_cases st.mem size (g.fl Bin.large)
        (fun a ha => (hl.2 a ha).2.2.2) (IsList_ne_zero _ _ _ hl.1) with
      ⟨hnone, hr⟩ | ⟨l1, l2, hbf, hr⟩
    · rw [alloc_large_notfound fuel st size st h0
        (find_best_fit_none fuel st size _ hl hfuel hr)] at hf
      exact ⟨hf, hnone⟩
    · obtain ⟨st', e1, _⟩ := reuse_served g st size fuel l1 _ l2 hinv h512 hfuel hbf rfl
      rw [alloc_large_found fuel st size _ st' h0 e1 (by unfold HDR; omega)] at hf
      exact Res.noConfusion hf

/-- A request is not answered by a fault when the mapping is granted in case no
block of `bin_large` fits. -/
theorem malloc_no_fault (g : Ghost) (st : State) (size fuel : Nat) (hinv : Inv g st)
    (hsize : size < 2 ^ 64) (hfuel : (g.fl Bin.large).length < fuel)
    (hmmap : 512 < size → (∀ a ∈ g.fl Bin.large, load_size st.mem a < (size : Int)) →
      (mmap st (mmap_length st.pagesize size)).1 ≠ MAP_FAILED) :
    malloc fuel st size ≠ Res.fault := by
  intro hf
  by_cases h512 : 512 < size
  · rw [malloc_eq, if_pos h512] at hf
    obtain ⟨hm, hnofit⟩ := alloc_large_fault g (req_state st) size fuel
      (Inv_req_state g st hinv) h512 hfuel hf
    rcases mmap_new_memory_core (req_state st) size (Inv_req_state g st hinv).1 hsize with
      ⟨hfail, _⟩ | ⟨c, st', _, _, _, _, _, _, hok, _⟩
    · rw [mmap_fst_env st (req_state st) (req_state_env st)] at hfail
      exact hmmap h512 hnofit hfail
    · rw [hok] at hm
      exact Res.noConfusion hm
  · rcases malloc_spec g st size fuel hinv hsize hfuel with ⟨_, h⟩ | ⟨p, st', g', e, _⟩
    · exact h512 h
    · rw [e] at hf
      exact Res.noConfusion hf
theorem calloc_ptr (fuel : Nat) (st : State) (nmemb size p : Nat) (st' : State)
    (h : calloc fuel st nmemb size = Res.ok (p, st')) :
    ∃ st1, malloc fuel st (nmemb * size % WORD) = Res.ok (p, st1) := by
  unfold calloc at h
  cases hm : malloc fuel st (nmemb * size % WORD) with
  | fault => rw [hm] at h; exact Res.noConfusion h
  | timeout => rw [hm] at h; exact Res.noConfusion h
  | ok x =>
    obtain ⟨q, st1⟩ := x
    rw [hm] at h
    simp only at h
    split_ifs at h
    exact ⟨st1, by rw [(Res_ok_inj _ _ _ _ h).1]⟩

/-- A pointer `malloc` returns from a state with the invariant is not live. -/
theorem malloc_not_live (g : Ghost) (st : State) (tr : Trace) (fuel size p : Nat)
    (st' : State) (hinv : Inv g st) (htr : TraceOk g tr) (hsize : size < 2 ^ 64)
    (hfuel : tr.nfree < fuel) (hm : malloc fuel st size = Res.ok (p, st')) :
    p ∉ tr.live := by
  intro hp
  rcases malloc_spec g st size fuel hinv hsize (by have := htr.2.2 Bin.large; omega) with
    ⟨hf, _⟩ | ⟨p', st1, g1, e, _, _, hsv⟩
  · rw [hf] at hm
    exact Res.noConfusion hm
  · rw [hm] at e
    obtain ⟨ep, _⟩ := Res_ok_inj _ _ _ _ e
    subst ep
    obtain ⟨hrets, hp0, hlive⟩ := htr.2.1 p hp
    obtain ⟨h, k, hpe, hb⟩ := htr.1 p hrets hp0
    exact Served_ne_live g g1 size p h k hb (hlive h hpe) hsv hpe

/-- What `realloc` does keep: for a live pointer `p` of a reachable state and a
new size `n`, when `realloc(p, n)` returns a non-null `q`, the first
`min(n, recorded size of p)` bytes at `q` are the bytes that were at `p`; and
`realloc(p, n)` does return the pointer of the new block whenever that block
records at least as many bytes as the old one. -/
theorem realloc_preserves (st : State) (tr : Trace) (fuel p n : Nat)
    (hr : Reachable st tr) (hp : p ∈ tr.live) (hn : n < 2 ^ 64)
    (hfuel : tr.nfree < fuel) :
    (∀ q st', realloc fuel st p n = Res.ok (q, st') → q ≠ 0 →
      ∀ i, i < n → i < rec_size st p → st'.mem (q + i) = st.mem (p + i)) ∧
    (∀ q st1, malloc fuel st n = Res.ok (q, st1) → q ≠ 0 →
      rec_size st p ≤ rec_size st1 q → ∃ st', realloc fuel st p n = Res.ok (q, st')) := by
  have hH : HDR = 16 := rfl
  obtain ⟨g, hinv, htr⟩ := Reachable_inv st tr hr
  obtain ⟨hrets, hp0, hlive⟩ := htr.2.1 p hp
  obtain ⟨h, k, hpe, hb⟩ := htr.1 p hrets hp0
  subst hpe
  have hlen : ∀ b, (g.fl b).length < fuel := fun b => by
    have := htr.2.2 b
    omega
  obtain ⟨_, _, e3⟩ := Inv_rec_size g st hinv h k hb
  rw [e3]
  constructor
  · intro q st' hre hq i hi hik
    exact realloc_content g st fuel h k n hinv hb (hlive h rfl) hn (hlen _) q st' hre hq i hi hik
  · intro q st1 hm hq hle
    rcases malloc_spec g st n fuel hinv hn (hlen _) with
      ⟨hf, _⟩ | ⟨q', st1', g1, e, hinv1, _, hsv⟩
    · rw [hf] at hm
      exact Res.noConfusion hm
    rw [hm] at e
    obtain ⟨ep, est⟩ := Res_ok_inj _ _ _ _ e
    subst ep
    subst est
    rcases Served_ptr _ _ _ _ hsv with h0 | ⟨h', k', hqe, hb'⟩
    · exact absurd h0 hq
    subst hqe
    obtain ⟨d1, d2, d3⟩ := Inv_rec_size g1 st1 hinv1 h' k' hb'
    rw [d3] at hle
    exact realloc_returns g st fuel h k n hinv hb hn hlen _ st1 hm hq
      (by rw [d1, d2]; exact_mod_cast hle)

/-! ## The claims -/

/-- C1: in a reachable state, `malloc` passes a request above 512 bytes to
`alloc_large` with the size unchanged, and serves a request of at most 512
bytes from a block whose header records 8 (requests up to 8, zero included),
64 (requests above 8 up to 64) or 512 (requests above 64). -/
theorem malloc_size_classes (st : State) (tr : Trace) (fuel size : Nat)
    (hr : Reachable st tr) :
    (512 < size → malloc fuel st size = alloc_large fuel (req_state st) size) ∧
    (size ≤ 512 → ∃ p st', malloc fuel st size = Res.ok (p, st') ∧
      (p ≠ 0 → load_size st'.mem (psub p HDR)
        = if size ≤ 8 then 8 else if size ≤ 64 then 64 else 512)) := by
  obtain ⟨g, hinv, _⟩ := Reachable_inv st tr hr
  refine ⟨fun h => by rw [malloc_eq, if_pos h], fun hs => ?_⟩
  obtain ⟨p, st', g', e, hinv', _, hsv⟩ :=
    fixed_served g (req_state st) size (Inv_req_state g st hinv) hs
  refine ⟨p, st', by rw [malloc_eq, if_neg (by omega)]; exact e, fun hp => ?_⟩
  rcases hsv with ⟨hp0, _⟩ | ⟨h, k, hpe, hbk, _, _, _, c1, c2, c3, _⟩
  · exact absurd hp0 hp
  · obtain ⟨e1, e2, _⟩ := Inv_rec_size g' st' hinv' h k hbk
    rw [hpe, e1, e2]
    split_ifs with a1 a2
    · rw [c1 a1]; rfl
    · rw [c2 (by omega) a2]; rfl
    · rw [c3 (by omega) hs]; rfl

theorem malloc_size_classes_witness :
    (512 < 5 → malloc 10 start_state 5 = alloc_large 10 (req_state start_state) 5) ∧
    (5 ≤ 512 → ∃ p st', malloc 10 start_state 5 = Res.ok (p, st') ∧
      (p ≠ 0 → load_size st'.mem (psub p HDR)
        = if 5 ≤ 8 then 8 else if 5 ≤ 64 then 64 else 512)) :=
  malloc_size_classes start_state Trace.start 10 5 Reachable_start

/-- C4: in a reachable state, when `n * s` plus the header fits an `int` (the
arithmetic of the allocator represents the request) and `malloc(n * s)` returns
a non-null pointer, `calloc(n, s)` returns that pointer, the block records at
least `n * s` bytes, and every byte of the payload, over the whole recorded
size, is zero. -/
theorem calloc_zeroed (st : State) (tr : Trace) (fuel n s p : Nat) (st1 : State)
    (hr : Reachable st tr) (hfuel : tr.nfree < fuel) (hrep : n * s + HDR ≤ 2 ^ 31 - 1)
    (hm : malloc fuel st (n * s) = Res.ok (p, st1)) (hp : p ≠ 0) :
    ∃ st', calloc fuel st n s = Res.ok (p, st') ∧ n * s ≤ rec_size st' p ∧
      ∀ i, i < rec_size st' p → st'.mem (p + i) = 0 := by
  have hH : HDR = 16 := rfl
  obtain ⟨g, hinv, htr⟩ := Reachable_inv st tr hr
  have hlen : (g.fl Bin.large).length < fuel := by
    have := htr.2.2 Bin.large
    omega
  rcases malloc_spec g st (n * s) fuel hinv (by omega) hlen with
    ⟨hf, _⟩ | ⟨p', st1', g1, e, hinv1, _, hsv⟩
  · rw [hf] at hm
    exact Res.noConfusion hm
  rw [hm] at e
  obtain ⟨ep, est⟩ := Res_ok_inj _ _ _ _ e
  subst ep
  subst est
  rcases hsv with ⟨h0, _⟩ | ⟨h, k, hpe, hbk, _, _, hcase, _⟩
  · exact absurd h0 hp
  subst hpe
  have hle : n * s ≤ k := by
    rcases hcase with ⟨_, _, hle⟩ | ⟨_, _, _, hle⟩
    · exact hle
    · exact hle hrep
  have hmod : n * s % WORD = n * s := Nat.mod_eq_of_lt (by unfold WORD; omega)
  obtain ⟨hc, hinv2⟩ := calloc_block g1 fuel st st1 n s h k hinv1 hbk (by rw [hmod]; exact hm)
  obtain ⟨_, _, e3⟩ := Inv_rec_size g1 _ hinv2 h k hbk
  refine ⟨_, hc, by rw [e3]; exact hle, ?_⟩
  intro i hi
  rw [e3] at hi
  exact memset_inside st1.mem (h + HDR) k (h + HDR + i) (by omega) (by omega)

theorem calloc_zeroed_witness :
    ∃ st', calloc 10 start_state 3 10 = Res.ok (16777232, st') ∧
      3 * 10 ≤ rec_size st' 16777232 ∧
      ∀ i, i < rec_size st' 16777232 → st'.mem (16777232 + i) = 0 :=
  calloc_zeroed start_state Trace.start 10 3 10 16777232
    (Res.state start_state (malloc 10 start_state (3 * 10))) Reachable_start (by decide)
    (by decide) (Res_eta _ _ _ (by decide)) (by decide)

/-- C5, divergence: `realloc` copies as many bytes as the old block records
(the defect of C6), so a shrinking `realloc` of a live pointer can fail to
return at all.  After `p = malloc(5000)` the block of `p` records 8176 bytes;
`realloc(p, 600)` obtains a new block that records 4080 bytes at the end of
the mapped area, the 8176 bytes of the copy do not lie in mapped memory, and
the call ends in a fault.  After `malloc(8); malloc(8); p = malloc(512)` and
`free` of the first block, `p` is live and `realloc(p, 8)` ends in a fault as
well. -/
theorem realloc_shrink_faults :
    (trace_after 10 [Call.malloc 5000]).live = [139637976727568] ∧
    rec_size (state_after 10 [Call.malloc 5000]) 139637976727568 = 8176 ∧
    Res.val (malloc 10 (state_after 10 [Call.malloc 5000]) 600) = some 139637976735760 ∧
    rec_size (Res.state start_state (malloc 10 (state_after 10 [Call.malloc 5000]) 600))
      139637976735760 = 4080 ∧
    ¬ accessible (Res.state start_state (malloc 10 (state_after 10 [Call.malloc 5000]) 600))
      139637976735760 8176 ∧
    Res.isFault (realloc 10 (state_after 10 [Call.malloc 5000]) 139637976727568 600)
      = true ∧
    (trace_after 10 [Call.malloc 8, Call.malloc 8, Call.malloc 512, Call.free 0]).live
      = [16777280, 16777256] ∧
    Res.isFault (realloc 10
      (state_after 10 [Call.malloc 8, Call.malloc 8, Call.malloc 512, Call.free 0])
      16777280 8) = true := by
  decide

/-- C6, divergence: `realloc` copies as many bytes as the old block records,
whatever the new size.  After `p = malloc(512)`, the call `realloc(p, 8)`
returns a block that records 8 bytes, and the byte 100 places after its
payload start, beyond the payload, no longer holds what it held: it is a copy
of the byte 100 places into the old payload.  After
`malloc(8); q = malloc(8); p = malloc(512); free` of the first block, the call
`realloc(p, 8)` takes the first block, the copy of 512 bytes runs over the
headers of `q` and of `p`, and the call ends in a fault. -/
theorem realloc_copies_old_size :
    Res.val (realloc 10 (state_after 10 [Call.malloc 512]) 16777232 8) = some 16777760 ∧
    rec_size (Res.state start_state (realloc 10 (state_after 10 [Call.malloc 512]) 16777232 8))
      16777760 = 8 ∧
    (Res.state start_state (realloc 10 (state_after 10 [Call.malloc 512]) 16777232 8)).mem
      (16777760 + 100) = (state_after 10 [Call.malloc 512]).mem (16777232 + 100) ∧
    (state_after 10 [Call.malloc 512]).mem (16777232 + 100)
      ≠ (state_after 10 [Call.malloc 512]).mem (16777760 + 100) ∧
    (trace_after 10 [Call.malloc 8, Call.malloc 8, Call.malloc 512, Call.free 0]).rets
      = [16777232, 16777256, 16777280] ∧
    Res.isFault (realloc 10
      (state_after 10 [Call.malloc 8, Call.malloc 8, Call.malloc 512, Call.free 0])
      16777280 8) = true := by
  decide

/-- C7: on a large free list `l` (null-terminated, headers readable, recorded
sizes non-negative and below `INT_MAX`), `find_best_fit_from_bin_large` either
finds every recorded size below the request and returns NULL, or returns the
payload of a best fit `b`: a block of `l` that records at least the request,
strictly fewer bytes than every fitting block before it and no more than any
fitting block after it.  The returned payload is then not NULL. -/
theorem best_fit_selected (fuel : Nat) (st : State) (size : Nat) (l : List Nat)
    (hl : LargeListOk st l) (hf : l.length < fuel) :
    ((∀ a ∈ l, load_size st.mem a < (size : Int)) ∧
      find_best_fit_from_bin_large fuel st size = Res.ok (0, st)) ∨
    (∃ l1 b l2 st', IsBestFit (load_size st.mem) size l l1 b l2 ∧
      find_best_fit_from_bin_large fuel st size = Res.ok (b + HDR, st') ∧ b + HDR ≠ 0) := by
  have hH : HDR = 16 := rfl
  rcases best_fit_scan_cases st.mem size l (fun a ha => (hl.2 a ha).2.2.2)
      (IsList_ne_zero _ _ _ hl.1) with ⟨hnone, hr⟩ | ⟨l1, l2, hbf, hr⟩
  · exact Or.inl ⟨hnone, find_best_fit_none fuel st size l hl hf hr⟩
  · right
    generalize hrdef : best_fit_scan st.mem size l 0 INT_MAX = r at hbf hr
    have hnot : r ∉ l1 := IsBestFit_not_mem _ _ _ _ _ _ hbf
    have hfl := hbf.1
    rcases List.eq_nil_or_concat l1 with hnil | ⟨l1', p, hcat⟩
    · subst hnil
      rw [List.nil_append] at hfl
      subst hfl
      exact ⟨[], r, l2, _, hbf, find_best_fit_head fuel st size r l2 hl hf hrdef, by omega⟩
    · subst hcat
      have hfl' : l = l1' ++ p :: r :: l2 := by
        rw [hfl]; simp
      have hnot' : r ∉ l1' := fun h => hnot (by simp [h])
      have hpr : p ≠ r := fun h => hnot (by simp [h])
      subst hfl'
      exact ⟨_, r, l2, _, hbf,
        find_best_fit_mid fuel st size l1' p r l2 hl hf hnot' hpr hrdef, by omega⟩

theorem best_fit_selected_witness :
    (((∀ a ∈ [16777216, 16779232, 16784248],
          load_size three_block_state.mem a < ((2500 : Nat) : Int)) ∧
        find_best_fit_from_bin_large 10 three_block_state 2500
          = Res.ok (0, three_block_state)) ∨
      (∃ l1 b l2 st', IsBestFit (load_size three_block_state.mem) ((2500 : Nat) : Int)
          [16777216, 16779232, 16784248] l1 b l2 ∧
        find_best_fit_from_bin_large 10 three_block_state 2500 = Res.ok (b + HDR, st') ∧
        b + HDR ≠ 0)) ∧
    [16777216, 16779232, 16784248].map (load_size three_block_state.mem)
      = [2000, 5000, 3000] ∧
    Res.val (find_best_fit_from_bin_large 10 three_block_state 2500)
      = some (16784248 + 16) :=
  ⟨best_fit_selected 10 three_block_state 2500 [16777216, 16779232, 16784248]
    (by unfold LargeListOk; decide) (by decide), by decide, by decide⟩

/-- C8: in a state reached by `malloc`, `calloc` and `free` calls, `free` being
applied to pointers the allocator returned, no address is live twice, every
live block records a positive size, any two entries of the list of live
pointers have disjoint payloads, each taken over its recorded size, no live
payload overlaps the header in front of any pointer the allocator returned,
and a pointer that the next `malloc` or `calloc` returns is not live. -/
theorem live_blocks_disjoint (st : State) (tr : Trace) (hr : Reachable st tr) :
    tr.live.Nodup ∧
    tr.live.Pairwise (fun p q => p + rec_size st p ≤ q ∨ q + rec_size st q ≤ p) ∧
    (∀ p ∈ tr.live, 0 < rec_size st p) ∧
    (∀ p ∈ tr.live, ∀ q ∈ tr.live, p ≠ q →
      p + rec_size st p ≤ q ∨ q + rec_size st q ≤ p) ∧
    (∀ p ∈ tr.live, ∀ r ∈ tr.rets, r ≠ 0 → p + rec_size st p ≤ r - HDR ∨ r ≤ p) ∧
    (∀ fuel size p st', size < 2 ^ 64 → tr.nfree < fuel →
      malloc fuel st size = Res.ok (p, st') → p ∉ tr.live) ∧
    (∀ fuel nmemb size p st', tr.nfree < fuel →
      calloc fuel st nmemb size = Res.ok (p, st') → p ∉ tr.live) := by
  have hH : HDR = 16 := rfl
  obtain ⟨g, hinv, htr, hnd⟩ := Reachable_inv_nodup st tr hr
  have key : ∀ p ∈ tr.live, ∀ r ∈ tr.rets, r ≠ 0 →
      r = p ∨ p + rec_size st p ≤ r - HDR ∨ r + rec_size st r ≤ p - HDR := by
    intro p hp r hr' hr0
    obtain ⟨hrets, hp0, _⟩ := htr.2.1 p hp
    obtain ⟨h, k, hpe, hb⟩ := htr.1 p hrets hp0
    obtain ⟨h', k', hre, hb'⟩ := htr.1 r hr' hr0
    subst hpe
    subst hre
    rw [(Inv_rec_size g st hinv h k hb).2.2, (Inv_rec_size g st hinv h' k' hb').2.2]
    by_cases hne : h = h'
    · left; rw [hne]
    · right
      have := Inv_apart_of_ne g st hinv (h, k) (h', k') hb hb' hne
      unfold Apart at this
      simp only at this
      omega
  have hpair : ∀ p ∈ tr.live, ∀ q ∈ tr.live, p ≠ q →
      p + rec_size st p ≤ q ∨ q + rec_size st q ≤ p := by
    intro p hp q hq hne
    rcases key p hp q (htr.2.1 q hq).1 (htr.2.1 q hq).2.1 with e | h1 | h2
    · exact absurd e.symm hne
    · left; omega
    · right; omega
  refine ⟨hnd, ?_, ?_, hpair, ?_, ?_, ?_⟩
  · exact List.Pairwise.imp_of_mem (fun {p q} hp hq hne => hpair p hp q hq hne) hnd
  · intro p hp
    obtain ⟨hrets, hp0, _⟩ := htr.2.1 p hp
    obtain ⟨h, k, hpe, hb⟩ := htr.1 p hrets hp0
    subst hpe
    rw [(Inv_rec_size g st hinv h k hb).2.2]
    exact (Inv_block_bounds g st hinv (h, k) hb).2.1
  · intro p hp r hr' hr0
    rcases key p hp r hr' hr0 with e | h1 | h2
    · right; omega
    · left; exact h1
    · right; omega
  · intro fuel size p st' hsize hfuel hm
    exact malloc_not_live g st tr fuel size p st' hinv htr hsize hfuel hm
  · intro fuel nmemb size p st' hfuel hc
    obtain ⟨st1, hm⟩ := calloc_ptr fuel st nmemb size p st' hc
    exact malloc_not_live g st tr fuel _ p st1 hinv htr
      (Nat.mod_lt _ (by norm_num)) hfuel hm

theorem live_blocks_disjoint_witness :
    (trace_after 10 [Call.malloc 8, Call.malloc 600, Call.calloc 2 30, Call.free 0,
      Call.malloc 100]).live = [16777336, 16777256, 139637976727568] ∧
    (trace_after 10 [Call.malloc 8, Call.malloc 600, Call.calloc 2 30, Call.free 0,
      Call.malloc 100]).live.Nodup ∧
    16777336 + rec_size (state_after 10 [Call.malloc 8, Call.malloc 600, Call.calloc 2 30,
      Call.free 0, Call.malloc 100]) 16777336 ≤ 139637976727568 := by
  have h := live_blocks_disjoint
    (state_after 10 [Call.malloc 8, Call.malloc 600, Call.calloc 2 30, Call.free 0,
      Call.malloc 100])
    (trace_after 10 [Call.malloc 8, Call.malloc 600, Call.calloc 2 30, Call.free 0,
      Call.malloc 100])
    (Reachable_after 10 _ (by decide) (by decide) (by decide))
  refine ⟨by decide, h.1, ?_⟩
  rcases h.2.2.2.1 16777336 (by decide) 139637976727568 (by decide) (by decide) with h1 | h2
  · exact h1
  · omega

/-- C9, divergence: `mmap_new_memory` does not count the block it creates, while
`free` counts every block it is given.  After `p = malloc(1000); free(p)`,
with `p` live when freed, `total_free_blocks` is 1 and `total_number_of_blocks`
is 0.  The request counters are in order: one allocation, one free. -/
theorem counters_out_of_order :
    (trace_after 10 [Call.malloc 1000]).live = [139637976727568] ∧
    (state_after 10 [Call.malloc 1000, Call.free 0]).total_free_blocks = 1 ∧
    (state_after 10 [Call.malloc 1000, Call.free 0]).total_number_of_blocks = 0 ∧
    (state_after 10 [Call.malloc 1000, Call.free 0]).total_allocation_request = 1 ∧
    (state_after 10 [Call.malloc 1000, Call.free 0]).total_free_request = 1 := by
  decide

/-- C10, divergence: `memalign` allocates nothing.  Whatever the alignment and
the size, it returns the current value of `heap_used_memory_end` and leaves the
state as it is; at program start that value is NULL, and after a first
`malloc(8)` it is the end of the slice of the thread. -/
theorem memalign_allocates_nothing :
    (∀ (st : State) (a s : Nat), memalign st a s = Res.ok (st.heap_used_memory_end, st)) ∧
    Res.val (memalign start_state 64 100) = some 0 ∧
    Res.val (memalign (state_after 10 [Call.malloc 8]) 64 100) = some 16781312 ∧
    (state_after 10 [Call.malloc 8]).thread_heap_end = 16781312 :=
  ⟨fun _ _ _ => rfl, by decide, by decide, by decide⟩

/-- C11: in a reachable state, `malloc` returns a non-null pointer provided the
system call the request needs is granted: `sbrk` for 100 pages, for a request
of at most 512 bytes that finds its bin empty and the slice of the thread
exhausted; `mmap`, for a larger request that no block of `bin_large` fits.
`free` of that pointer then returns and leaves the block at the head of the
bin of its recorded size. -/
theorem malloc_free_round_trip (st : State) (tr : Trace) (fuel size : Nat)
    (hr : Reachable st tr) (hsize : size < 2 ^ 64) (hfuel : tr.nfree < fuel)
    (hsbrk : size ≤ 512 → st.bin (get_bin (size_class size)) = 0 →
      (st.thread_unused_heap_start = 0 ∨
        st.thread_heap_end - st.thread_unused_heap_start < size_class size + 16) →
      (sbrk st (st.pagesize * 100)).1 ≠ MAP_FAILED)
    (hmmap : 512 < size →
      (∀ l, IsList st.mem st.bin_large l → ∀ a ∈ l, load_size st.mem a < (size : Int)) →
      (mmap st (mmap_length st.pagesize size)).1 ≠ MAP_FAILED) :
    ∃ p st1 st2, malloc fuel st size = Res.ok (p, st1) ∧ p ≠ 0 ∧
      free fuel st1 p = Res.ok ((), st2) ∧
      st2.bin (get_bin (rec_size st1 p)) = psub p HDR := by
  have hH : HDR = 16 := rfl
  obtain ⟨g, hinv, htr⟩ := Reachable_inv st tr hr
  have hlen : ∀ b, (g.fl b).length < fuel := fun b => by
    have := htr.2.2 b
    omega
  have hmmap' : 512 < size → (∀ a ∈ g.fl Bin.large, load_size st.mem a < (size : Int)) →
      (mmap st (mmap_length st.pagesize size)).1 ≠ MAP_FAILED := by
    intro h512 hno
    refine hmmap h512 (fun l hl a ha => ?_)
    rw [IsList_unique _ _ _ _ hl (hinv.2.2.2.2 Bin.large).1] at ha
    exact hno a ha
  rcases malloc_spec g st size fuel hinv hsize (hlen _) with
    ⟨hf, _⟩ | ⟨p, st1, g1, e, hinv1, _, hsv⟩
  · exact absurd hf (malloc_no_fault g st size fuel hinv hsize (hlen _) hmmap')
  have hp : p ≠ 0 := by
    by_cases h512 : 512 < size
    · rcases alloc_large_spec g (req_state st) size fuel (Inv_req_state g st hinv) hsize h512
        (hlen _) with hf | ⟨q, st', g', e', _, _, _, hq⟩
      · rw [malloc_eq, if_pos h512, hf] at e
        exact Res.noConfusion e
      · rw [malloc_eq, if_pos h512, e'] at e
        rw [← (Res_ok_inj _ _ _ _ e).1]
        exact hq
    · rw [malloc_eq, if_neg h512] at e
      refine heap_allocate_nonnull g (req_state st) _ (Inv_req_state g st hinv)
        (size_class_cases size) (fun hb hc => ?_) p st1 e
      rw [req_state_bin] at hb
      exact (sbrk_fst st _ hinv.1).mp (hsbrk (by omega) hb hc)
  rcases hsv with ⟨h0, _⟩ | ⟨h, k, hpe, hbk, hfl, hnot, _⟩
  · exact absurd h0 hp
  subst hpe
  have hlen1 : (g1.fl (get_bin k)).length < fuel := by
    rw [hfl]
    exact lt_of_le_of_lt (List.length_erase_le _ _) (hlen _)
  have hfree := free_block_eq g1 st1 h k fuel hinv1 hbk hlen1
  rw [if_neg (hnot _)] at hfree
  obtain ⟨e1, _, e3⟩ := Inv_rec_size g1 st1 hinv1 h k hbk
  exact ⟨_, st1, _, e, hp, hfree, by rw [e1, e3]; exact free_push_bin st1 h k⟩

theorem malloc_free_round_trip_witness :
    ∃ p st1 st2, malloc 10 start_state 12 = Res.ok (p, st1) ∧ p ≠ 0 ∧
      free 10 st1 p = Res.ok ((), st2) ∧
      st2.bin (get_bin (rec_size st1 p)) = psub p HDR :=
  malloc_free_round_trip start_state Trace.start 10 12 Reachable_start (by decide) (by decide)
    (fun _ _ _ => by decide) (fun h => absurd h (by decide))

/-- C12, divergence: `mmap_new_memory` does not test the result of `mmap`.  When
the system grants no mapping, `malloc(600)` does not return NULL: the header is
written at `MAP_FAILED` and the call ends in a fault.  The fixed-class path does
test `sbrk`: when the break cannot move, `malloc(8)` returns NULL and leaves
the arena cursors and the break as they were. -/
theorem malloc_mmap_refused_faults :
    (mmap no_map_state (mmap_length no_map_state.pagesize 600)).1 = MAP_FAILED ∧
    Res.isFault (malloc 10 no_map_state 600) = true ∧
    (sbrk no_heap_state (no_heap_state.pagesize * 100)).1 = MAP_FAILED ∧
    Res.val (malloc 10 no_heap_state 8) = some 0 ∧
    (Res.state start_state (malloc 10 no_heap_state 8)).thread_unused_heap_start = 0 ∧
    (Res.state start_state (malloc 10 no_heap_state 8)).brk = no_heap_state.brk := by
  decide

/-- C13, divergence: `calloc` does not test the result of `malloc`.  When the
break cannot move, `malloc(1 * 8)` returns NULL, and `calloc(1, 8)` reads the
size field of a header at `NULL - 16` and ends in a fault instead of returning
NULL. -/
theorem calloc_null_faults :
    Res.val (malloc 10 no_heap_state (1 * 8 % WORD)) = some 0 ∧
    Res.isFault (calloc 10 no_heap_state 1 8) = true ∧
    psub 0 HDR = 2 ^ 64 - 16 ∧
    ¬ accessible (Res.state start_state (malloc 10 no_heap_state (1 * 8 % WORD)))
      (psub 0 HDR) 4 := by
  decide

/-- C14, divergence: `malloc` does not reject a size that the `int` arithmetic
of `mmap_new_memory` cannot hold.  For `2 ^ 32 + 600` the byte count wraps to
one page: `malloc` returns a non-null pointer to a block that records 4080
bytes, one page is mapped and the mapped-bytes counter grows by the request.
For `2 ^ 31` the byte count wraps to a negative number, the mapping is
refused, and the call ends in a fault instead of returning NULL. -/
theorem malloc_unrepresentable_size :
    (INT_MAX < ((2 ^ 32 + 600 + HDR : Nat) : Int)) ∧
    Res.val (malloc 10 start_state (2 ^ 32 + 600)) = some 139637976727568 ∧
    rec_size (Res.state start_state (malloc 10 start_state (2 ^ 32 + 600))) 139637976727568
      = 4080 ∧
    (Res.state start_state (malloc 10 start_state (2 ^ 32 + 600))).mmap_next
      = start_state.mmap_next + 4096 ∧
    (Res.state start_state (malloc 10 start_state (2 ^ 32 + 600))).total_mmap_size_allocated
      = 2 ^ 32 + 600 ∧
    (INT_MAX < ((2 ^ 31 + HDR : Nat) : Int)) ∧
    Res.isFault (malloc 10 start_state (2 ^ 31)) = true := by
  decide

/-- C15: `free(NULL)` returns, and the state after it differs from the state
before only in the counters `total_free_request` and `total_free_blocks`: the
memory, the four bins, the arena cursors, the high-water mark, the other
counters and the break are as before. -/
theorem free_null_frame (fuel : Nat) (st : State) :
    ∃ st', free fuel st 0 = Res.ok ((), st') ∧ st'.mem = st.mem ∧
      (∀ b, st'.bin b = st.bin b) ∧
      st'.thread_unused_heap_start = st.thread_unused_heap_start ∧
      st'.thread_heap_end = st.thread_heap_end ∧
      st'.heap_used_memory_end = st.heap_used_memory_end ∧
      st'.total_arena_size_allocated = st.total_arena_size_allocated ∧
      st'.total_mmap_size_allocated = st.total_mmap_size_allocated ∧
      st'.total_number_of_blocks = st.total_number_of_blocks ∧
      st'.total_allocation_request = st.total_allocation_request ∧
      st'.brk = st.brk ∧ st'.mmap_next = st.mmap_next ∧
      st'.total_free_request = padd st.total_free_request 1 ∧
      st'.total_free_blocks = padd st.total_free_blocks 1 := by
  refine ⟨_, free_null fuel st, rfl, ?_, rfl, rfl, rfl, rfl, rfl, rfl, rfl, rfl, rfl, rfl, rfl⟩
  intro b
  cases b <;> simp only [State.bin]

/-- C16: in a reachable state whose `bin_large` is the list `l`, when a best
fit `b` exists, `l = l1 ++ b :: l2`, `find_best_fit_from_bin_large` returns the
payload of `b` and leaves `bin_large` as the list `l1 ++ l2`, the other blocks
in their order, whether `b` was the head (`l1` empty) or not, with the `next`
field of `b` NULL; when no block fits it returns NULL and leaves the state as
it was. -/
theorem best_fit_unlinked (st : State) (tr : Trace) (fuel size : Nat) (l : List Nat)
    (hr : Reachable st tr) (hl : IsList st.mem st.bin_large l) (hf : l.length < fuel) :
    ((∀ a ∈ l, load_size st.mem a < (size : Int)) ∧
      find_best_fit_from_bin_large fuel st size = Res.ok (0, st)) ∨
    (∃ l1 b l2 st', IsBestFit (load_size st.mem) size l l1 b l2 ∧
      find_best_fit_from_bin_large fuel st size = Res.ok (b + HDR, st') ∧
      IsList st'.mem st'.bin_large (l1 ++ l2) ∧ load_next st'.mem b = 0) := by
  obtain ⟨g, hinv, _⟩ := Reachable_inv st tr hr
  have hgl : l = g.fl Bin.large := IsList_unique _ _ _ _ hl (hinv.2.2.2.2 Bin.large).1
  have hL := Inv_large_ok g st hinv
  rw [← hgl] at hL
  rcases best_fit_scan_cases st.mem size l (fun a ha => (hL.2 a ha).2.2.2)
      (IsList_ne_zero _ _ _ hL.1) with ⟨hnone, hr0⟩ | ⟨l1, l2, hbf, hr0⟩
  · exact Or.inl ⟨hnone, find_best_fit_none fuel st size l hL hf hr0⟩
  · right
    generalize hrdef : best_fit_scan st.mem size l 0 INT_MAX = r at hbf hr0
    have hnot : r ∉ l1 := IsBestFit_not_mem _ _ _ _ _ _ hbf
    have hfl := hbf.1
    rcases List.eq_nil_or_concat l1 with hnil | ⟨l1', p, hcat⟩
    · subst hnil
      rw [List.nil_append] at hfl
      subst hfl
      have hi := Inv_unlink_head g st r l2 hinv hgl.symm
      have hlist := (hi.2.2.2.2 Bin.large).1
      rw [setFl_same] at hlist
      refine ⟨[], r, l2, unlink_head_state st r, hbf,
        find_best_fit_head fuel st size r l2 hL hf hrdef, hlist, ?_⟩
      show load_next (store_next st.mem r 0) r = 0
      rw [load_next_store_next]
      rfl
    · subst hcat
      have hfl' : l = l1' ++ p :: r :: l2 := by
        rw [hfl]; simp
      have hnot' : r ∉ l1' := fun h => hnot (by simp [h])
      have hpr : p ≠ r := fun h => hnot (by simp [h])
      subst hfl'
      have hi := Inv_unlink_mid g st l1' p r l2 hinv hgl.symm
      have hlist := (hi.2.2.2.2 Bin.large).1
      rw [setFl_same] at hlist
      have e : l1'.concat p ++ l2 = l1' ++ p :: l2 := by simp
      refine ⟨_, r, l2, unlink_mid_state st p r, hbf,
        find_best_fit_mid fuel st size l1' p r l2 hL hf hnot' hpr hrdef,
        by rw [e]; exact hlist, ?_⟩
      show load_next (store_next (store_next st.mem p (load_next st.mem r)) r 0) r = 0
      rw [load_next_store_next]
      rfl

theorem best_fit_unlinked_witness :
    (((∀ a ∈ [139637976748032, 139637976735744, 139637976727552],
          load_size (state_after 10 [Call.malloc 5000, Call.malloc 9000, Call.malloc 600,
            Call.free 0, Call.free 1, Call.free 2]).mem a < ((5000 : Nat) : Int)) ∧
        find_best_fit_from_bin_large 10 (state_after 10 [Call.malloc 5000, Call.malloc 9000,
            Call.malloc 600, Call.free 0, Call.free 1, Call.free 2]) 5000
          = Res.ok (0, state_after 10 [Call.malloc 5000, Call.malloc 9000, Call.malloc 600,
            Call.free 0, Call.free 1, Call.free 2])) ∨
      (∃ l1 b l2 st', IsBestFit
          (load_size (state_after 10 [Call.malloc 5000, Call.malloc 9000, Call.malloc 600,
            Call.free 0, Call.free 1, Call.free 2]).mem) ((5000 : Nat) : Int)
          [139637976748032, 139637976735744, 139637976727552] l1 b l2 ∧
        find_best_fit_from_bin_large 10 (state_after 10 [Call.malloc 5000, Call.malloc 9000,
            Call.malloc 600, Call.free 0, Call.free 1, Call.free 2]) 5000
          = Res.ok (b + HDR, st') ∧
        IsList st'.mem st'.bin_large (l1 ++ l2) ∧ load_next st'.mem b = 0)) ∧
    [139637976748032, 139637976735744, 139637976727552].map
      (load_size (state_after 10 [Call.malloc 5000, Call.malloc 9000, Call.malloc 600,
        Call.free 0, Call.free 1, Call.free 2]).mem) = [4080, 12272, 8176] ∧
    Res.val (find_best_fit_from_bin_large 10 (state_after 10 [Call.malloc 5000,
      Call.malloc 9000, Call.malloc 600, Call.free 0, Call.free 1, Call.free 2]) 5000)
      = some (139637976727552 + 16) :=
  ⟨best_fit_unlinked _ (trace_after 10 [Call.malloc 5000, Call.malloc 9000, Call.malloc 600,
      Call.free 0, Call.free 1, Call.free 2]) 10 5000
      [139637976748032, 139637976735744, 139637976727552]
      (Reachable_after 10 _ (by decide) (by decide) (by decide)) (by decide) (by decide),
    by decide, by decide⟩

/-- C17: for a request `s` above 512 bytes with `s` plus the header within
`INT_MAX`, when the system grants the mapping, `mmap_new_memory` returns, the
mapped bytes are a positive multiple `c` of the page size, the header records
the mapped bytes less the size of the header, and that is at least `s`. -/
theorem mmap_block_records_mapping (st : State) (size : Nat) (hos : OSok st)
    (h512 : 512 < size) (hrep : ((size + HDR : Nat) : Int) ≤ INT_MAX)
    (hm : (mmap st (mmap_length st.pagesize size)).1 ≠ MAP_FAILED) :
    ∃ p st' c, mmap_new_memory st size = Res.ok (p, st') ∧ 0 < c ∧
      st'.mmap_next = st.mmap_next + st.pagesize * c ∧
      load_size st'.mem (psub p HDR) = ((st.pagesize * c - HDR : Nat) : Int) ∧
      size ≤ st.pagesize * c - HDR := by
  have hH : HDR = 16 := rfl
  have hrep' : size + HDR ≤ 2 ^ 31 - 1 := by
    unfold INT_MAX at hrep
    omega
  have hos' := hos
  unfold OSok at hos'
  rcases mmap_new_memory_core st size hos (by omega) with
    ⟨hfail, _⟩ | ⟨c, st', hc0, hclt, _, _, hlim, hcov, hok, hnext, hmem, _⟩
  · exact absurd hfail hm
  · have hge := (hcov hrep').1
    refine ⟨_, st', c, hok, hc0, hnext, ?_, by omega⟩
    rw [psub_small _ _ (by omega) (by omega), Nat.add_sub_cancel, hmem,
      load_size_store_block_info, hH]
    exact int_of_small _ (by omega)

theorem mmap_block_records_mapping_witness :
    ∃ p st' c, mmap_new_memory start_state 600 = Res.ok (p, st') ∧ 0 < c ∧
      st'.mmap_next = start_state.mmap_next + start_state.pagesize * c ∧
      load_size st'.mem (psub p HDR) = ((start_state.pagesize * c - HDR : Nat) : Int) ∧
      600 ≤ start_state.pagesize * c - HDR :=
  mmap_block_records_mapping start_state 600 OSok_start (by decide) (by decide) (by decide)

/-- C18, counterexample: with pages of 4096 bytes a request of 600 bytes needs
one page for header and payload, and `mmap_new_memory` maps one page, 4096
bytes, not the two pages that rounding up plus one extra page would give. -/
theorem mmap_page_count_counterexample :
    Res.isOk (mmap_new_memory start_state 600) = true ∧
    (Res.state start_state (mmap_new_memory start_state 600)).mmap_next
      - start_state.mmap_next = 4096 * 1 ∧
    (600 + HDR + 4096 - 1) / 4096 + 1 = 2 := by
  decide

/-- C18, amended: for a request `s` above 512 bytes with `s` plus the header
within `INT_MAX`, when the system grants the mapping, the number of pages
`mmap_new_memory` maps is `s` plus the header divided by the page size, rounded
up, with no extra page. -/
theorem mmap_page_count (st : State) (size : Nat) (hos : OSok st)
    (h512 : 512 < size) (hrep : ((size + HDR : Nat) : Int) ≤ INT_MAX)
    (hm : (mmap st (mmap_length st.pagesize size)).1 ≠ MAP_FAILED) :
    ∃ p st', mmap_new_memory st size = Res.ok (p, st') ∧
      st'.mmap_next
        = st.mmap_next + st.pagesize * ((size + HDR + st.pagesize - 1) / st.pagesize) := by
  have hH : HDR = 16 := rfl
  have hrep' : size + HDR ≤ 2 ^ 31 - 1 := by
    unfold INT_MAX at hrep
    omega
  have hos' := hos
  unfold OSok at hos'
  rcases mmap_new_memory_core st size hos (by omega) with
    ⟨hfail, _⟩ | ⟨c, st', _, _, _, _, _, hcov, hok, hnext, _⟩
  · exact absurd hfail hm
  · refine ⟨_, st', hok, ?_⟩
    have e : (size + HDR + st.pagesize - 1) / st.pagesize = (size + 15) / st.pagesize + 1 := by
      have : size + HDR + st.pagesize - 1 = size + 15 + st.pagesize := by omega
      rw [this, Nat.add_div_right _ (by omega)]
    rw [hnext, e, (hcov hrep').2]

theorem mmap_page_count_witness :
    ∃ p st', mmap_new_memory start_state 600 = Res.ok (p, st') ∧
      st'.mmap_next = start_state.mmap_next
        + start_state.pagesize * ((600 + HDR + start_state.pagesize - 1) / start_state.pagesize) :=
  mmap_page_count start_state 600 OSok_start (by decide) (by decide) (by decide)

/-- C19, divergence: `block_from_unused_heap` calls `sbrk` for 100 pages on every
refill of the arena, whether or not the heap has room.  After seven calls
`malloc(512)` the break is 405504 bytes beyond `heap_used_memory_end`, far
more than the 528 bytes the next block needs, and the slice of the thread has
400 bytes left; the eighth call refills the arena and moves the break by
another 100 pages. -/
theorem refill_always_extends :
    (state_after 10 (List.replicate 7 (Call.malloc 512))).brk
      - (state_after 10 (List.replicate 7 (Call.malloc 512))).heap_used_memory_end
      = 405504 ∧
    (state_after 10 (List.replicate 7 (Call.malloc 512))).thread_heap_end
      - (state_after 10 (List.replicate 7 (Call.malloc 512))).thread_unused_heap_start
      = 400 ∧
    (state_after 10 (List.replicate 8 (Call.malloc 512))).heap_used_memory_end
      = (state_after 10 (List.replicate 7 (Call.malloc 512))).heap_used_memory_end + 4096 ∧
    (state_after 10 (List.replicate 8 (Call.malloc 512))).brk
      = (state_after 10 (List.replicate 7 (Call.malloc 512))).brk + 4096 * 100 := by
  decide

/-- C20, divergence: `block_from_unused_heap` calls `align8` on the high-water
mark and drops the result.  From a program start with the break at 16777219,
the first `malloc(8)` starts the slice of the thread at 16777219, not at
`align8 16777219 = 16777224`: the header is written at 16777219, the returned
pointer is 16777235, and the high-water mark stays off the multiples of 8. -/
theorem high_water_mark_not_aligned :
    odd_break_state.brk = 16777219 ∧ align8 16777219 = 16777224 ∧
    Res.val (malloc 10 odd_break_state 8) = some (16777219 + HDR) ∧
    (Res.state start_state (malloc 10 odd_break_state 8)).heap_used_memory_end
      = 16777219 + 4096 ∧
    (Res.state start_state (malloc 10 odd_break_state 8)).heap_used_memory_end % 8 = 3 := by
  decide

/-- C21: in a state reached by `malloc`, `calloc` and `free` calls, `free` being
applied to pointers the allocator returned, every bin is a null-terminated
list, every block on `bin_8` records 8 bytes, on `bin_64` 64, on `bin_512` 512,
and every block on `bin_large` records more than 512 bytes; and a block that
`mmap_new_memory` creates in such a state records more than 512 bytes, so
`get_bin` sends it to `bin_large`. -/
theorem bins_hold_their_class (st : State) (tr : Trace) (hr : Reachable st tr) :
    (∀ b, ∃ l, IsList st.mem (st.bin b) l) ∧
    (∀ l, IsList st.mem st.bin_8 l → ∀ a ∈ l, load_size st.mem a = 8) ∧
    (∀ l, IsList st.mem st.bin_64 l → ∀ a ∈ l, load_size st.mem a = 64) ∧
    (∀ l, IsList st.mem st.bin_512 l → ∀ a ∈ l, load_size st.mem a = 512) ∧
    (∀ l, IsList st.mem st.bin_large l → ∀ a ∈ l, 512 < load_size st.mem a) ∧
    (∀ size p st', size < 2 ^ 64 → mmap_new_memory st size = Res.ok (p, st') →
      512 < load_size st'.mem (psub p HDR) ∧
      get_bin (size_t_of (load_size st'.mem (psub p HDR))) = Bin.large) := by
  have hH : HDR = 16 := rfl
  obtain ⟨g, hinv, _⟩ := Reachable_inv st tr hr
  have key : ∀ b l, IsList st.mem (st.bin b) l → ∀ a ∈ l,
      ∃ k : Nat, load_size st.mem a = (k : Int) ∧ get_bin k = b ∧
        (b = Bin.large → 512 < k) := by
    intro b l hl a ha
    rw [IsList_unique _ _ _ _ hl (hinv.2.2.2.2 b).1] at ha
    obtain ⟨k, hk, hg⟩ := Inv_bin_block g st hinv b a ha
    refine ⟨k, (hinv.2.2.1 (a, k) hk).1, hg, fun hb => ?_⟩
    rw [hb] at hg
    exact get_bin_large_inv g st hinv (a, k) hk hg
  refine ⟨fun b => ⟨_, (hinv.2.2.2.2 b).1⟩, ?_, ?_, ?_, ?_, ?_⟩
  · intro l hl a ha
    obtain ⟨k, e, hg, _⟩ := key Bin.b8 l hl a ha
    rw [e, get_bin_fixed k 8 (Or.inl rfl) hg]
    rfl
  · intro l hl a ha
    obtain ⟨k, e, hg, _⟩ := key Bin.b64 l hl a ha
    rw [e, get_bin_fixed k 64 (Or.inr (Or.inl rfl)) hg]
    rfl
  · intro l hl a ha
    obtain ⟨k, e, hg, _⟩ := key Bin.b512 l hl a ha
    rw [e, get_bin_fixed k 512 (Or.inr (Or.inr rfl)) hg]
    rfl
  · intro l hl a ha
    obtain ⟨k, e, _, hlg⟩ := key Bin.large l hl a ha
    rw [e]
    exact_mod_cast hlg rfl
  · intro size p st' hsize hm
    have hos := hinv.1
    have hos' := hos
    unfold OSok at hos'
    rcases mmap_new_memory_core st size hos hsize with
      ⟨_, hf⟩ | ⟨c, st'', hc0, hclt, _, _, _, _, hok, _, hmem, _⟩
    · rw [hf] at hm
      exact Res.noConfusion hm
    · rw [hok] at hm
      obtain ⟨ep, est⟩ := Res_ok_inj _ _ _ _ hm
      subst ep
      subst est
      have hge : 528 < st.pagesize * c := by nlinarith
      have e : load_size st''.mem (psub (st.mmap_next + HDR) HDR)
          = ((st.pagesize * c - 16 : Nat) : Int) := by
        rw [psub_small _ _ (by omega) (by omega), Nat.add_sub_cancel, hmem,
          load_size_store_block_info]
        exact int_of_small _ (by omega)
      rw [e]
      refine ⟨by omega, ?_⟩
      rw [size_t_of_small _ (by omega)]
      exact get_bin_large _ (by omega)

theorem bins_hold_their_class_witness :
    (state_after 10 [Call.malloc 8, Call.malloc 600, Call.free 0, Call.free 1]).bin_8
      = 16777216 ∧
    (state_after 10 [Call.malloc 8, Call.malloc 600, Call.free 0, Call.free 1]).bin_large
      = 139637976727552 ∧
    load_size (state_after 10 [Call.malloc 8, Call.malloc 600, Call.free 0, Call.free 1]).mem
      16777216 = 8 ∧
    512 < load_size
      (state_after 10 [Call.malloc 8, Call.malloc 600, Call.free 0, Call.free 1]).mem
      139637976727552 := by
  have h := bins_hold_their_class
    (state_after 10 [Call.malloc 8, Call.malloc 600, Call.free 0, Call.free 1])
    (trace_after 10 [Call.malloc 8, Call.malloc 600, Call.free 0, Call.free 1])
    (Reachable_after 10 _ (by decide) (by decide) (by decide))
  exact ⟨by decide, by decide,
    h.2.1 [16777216] (by decide) 16777216 (List.mem_cons_self _ _),
    h.2.2.2.2.1 [139637976727552] (by decide) 139637976727552 (List.mem_cons_self _ _)⟩

/-- C22: in a state reached by `malloc`, `calloc` and `free` calls, `free` being
applied to any pointer the allocator returned before, live or already freed,
every bin is a null-terminated list without repetition that holds the block
of no live pointer; and `free` of any pointer returned before, with fuel for
one step per `free` call made so far and one more, returns: the scan of the
bin ends. -/
theorem bins_are_lists (st : State) (tr : Trace) (hr : Reachable st tr) :
    (∀ b, ∃ l, IsList st.mem (st.bin b) l ∧ l.Nodup ∧ ∀ p ∈ tr.live, psub p HDR ∉ l) ∧
    (∀ i fuel, tr.nfree < fuel →
      ∃ st', free fuel st (tr.rets.getD i 0) = Res.ok ((), st')) := by
  obtain ⟨g, hinv, htr⟩ := Reachable_inv st tr hr
  constructor
  · intro b
    obtain ⟨b1, b2, _⟩ := hinv.2.2.2.2 b
    refine ⟨g.fl b, b1, b2, ?_⟩
    intro p hp
    obtain ⟨hrets, hp0, hlive⟩ := htr.2.1 p hp
    obtain ⟨h, k, hpe, hb⟩ := htr.1 p hrets hp0
    subst hpe
    rw [(Inv_rec_size g st hinv h k hb).1]
    exact hlive h rfl b
  · intro i fuel hfuel
    apply free_returns g st fuel _ hinv
    · intro b
      have := htr.2.2 b
      omega
    · by_cases h0 : tr.rets.getD i 0 = 0
      · exact Or.inl h0
      · exact Or.inr (htr.1 _ (getD_mem _ _ h0) h0)

theorem bins_are_lists_witness :
    (trace_after 10 [Call.malloc 8, Call.malloc 8, Call.free 0, Call.free 0, Call.malloc 600,
      Call.free 2, Call.free 0]).rets = [16777232, 16777256, 139637976727568] ∧
    (trace_after 10 [Call.malloc 8, Call.malloc 8, Call.free 0, Call.free 0, Call.malloc 600,
      Call.free 2, Call.free 0]).live = [16777256] ∧
    ∃ st', free 10 (state_after 10 [Call.malloc 8, Call.malloc 8, Call.free 0, Call.free 0,
      Call.malloc 600, Call.free 2, Call.free 0]) 16777232 = Res.ok ((), st') :=
  ⟨by decide, by decide,
    (bins_are_lists _ (trace_after 10 [Call.malloc 8, Call.malloc 8, Call.free 0, Call.free 0,
      Call.malloc 600, Call.free 2, Call.free 0])
      (Reachable_after 10 _ (by decide) (by decide) (by decide))).2 0 10 (by decide)⟩

/-- C23, divergence: `find_best_fit_from_bin_large` unlinks the block it returns
and does not decrement `total_free_blocks`.  After
`p = malloc(1000); free(p); malloc(1000)` the second request is served from
`bin_large`, the four bins are empty, and `total_free_blocks` is 1; the same
calls with 8 bytes leave it at 0. -/
theorem free_blocks_counter_off :
    (trace_after 10 [Call.malloc 1000, Call.free 0, Call.malloc 1000]).rets
      = [139637976727568, 139637976727568] ∧
    (∀ b, (state_after 10 [Call.malloc 1000, Call.free 0, Call.malloc 1000]).bin b = 0) ∧
    (state_after 10 [Call.malloc 1000, Call.free 0, Call.malloc 1000]).total_free_blocks
      = 1 ∧
    (state_after 10 [Call.malloc 8, Call.free 0, Call.malloc 8]).total_free_blocks = 0 := by
  refine ⟨by decide, ?_, by decide, by decide⟩
  intro b
  cases b <;> decide

/-- C24: for a class size `k` of 8, 64 or 512, in the call of `heap_allocate`
that `malloc` makes from a reachable state, the request counted: when the bin
of `k` is the list `h :: t`, the call returns `h + HDR`, leaves the bin as the
list `t` and the `next` field of `h` NULL, decrements `total_free_blocks` by
one in `unsigned long` arithmetic, and leaves the arena cursors, the
high-water mark and the roots and lists of the other bins as they were; when
the bin is empty, the call is `block_from_unused_heap`, it returns, leaves
every bin root and list as it was, and a block it returns records `k`. -/
theorem heap_allocate_pop_or_carve (st : State) (tr : Trace) (k : Nat)
    (hr : Reachable st tr) (hk : k = 8 ∨ k = 64 ∨ k = 512) :
    (∀ h t, IsList st.mem (st.bin (get_bin k)) (h :: t) →
      ∃ st', heap_allocate (req_state st) k = Res.ok (h + HDR, st') ∧
        IsList st'.mem (st'.bin (get_bin k)) t ∧ load_next st'.mem h = 0 ∧
        st'.total_free_blocks = psub st.total_free_blocks 1 ∧
        (0 < st.total_free_blocks → st.total_free_blocks < 2 ^ 64 →
          st'.total_free_blocks + 1 = st.total_free_blocks) ∧
        st'.thread_unused_heap_start = st.thread_unused_heap_start ∧
        st'.thread_heap_end = st.thread_heap_end ∧
        st'.heap_used_memory_end = st.heap_used_memory_end ∧
        (∀ b, b ≠ get_bin k → st'.bin b = st.bin b ∧
          ∀ l, IsList st.mem (st.bin b) l → IsList st'.mem (st'.bin b) l)) ∧
    (st.bin (get_bin k) = 0 →
      heap_allocate (req_state st) k = block_from_unused_heap (req_state st) k ∧
      ∃ p st', heap_allocate (req_state st) k = Res.ok (p, st') ∧
        (∀ b, st'.bin b = st.bin b ∧
          ∀ l, IsList st.mem (st.bin b) l → IsList st'.mem (st'.bin b) l) ∧
        (p ≠ 0 → load_size st'.mem (psub p HDR) = (k : Int))) := by
  have hH : HDR = 16 := rfl
  obtain ⟨g, hinv, _⟩ := Reachable_inv st tr hr
  have hinv0 := Inv_req_state g st hinv
  have hlists : ∀ b l, IsList st.mem (st.bin b) l → l = g.fl b := fun b l hl =>
    IsList_unique _ _ _ _ hl (hinv.2.2.2.2 b).1
  constructor
  · intro h t hl
    have hfl : g.fl (get_bin k) = h :: t := (hlists _ _ hl).symm
    obtain ⟨e, hinv1, _⟩ := heap_allocate_pop g (req_state st) k h t hinv0 hfl
    have henv := pop_state_env (req_state st) (get_bin k) h
    have hl1 := (hinv1.2.2.2.2 (get_bin k)).1
    rw [setFl_same] at hl1
    have htfb : (pop_state (req_state st) (get_bin k) h).total_free_blocks
        = psub st.total_free_blocks 1 := by
      generalize get_bin k = bin
      cases bin <;> simp only [pop_state, State.setBin, req_state]
    refine ⟨_, e, hl1, ?_, htfb, ?_, henv.2.2.2.2.2.2.2.1, henv.2.2.2.2.2.2.2.2.1,
      henv.2.2.2.2.2.2.2.2.2, ?_⟩
    · rw [pop_state_mem, load_next_store_next]
      rfl
    · intro h0 hlt
      rw [htfb, psub_small _ _ (by omega) hlt]
      omega
    · intro b hb
      refine ⟨by rw [pop_state_bin_other _ _ _ _ hb, req_state_bin], fun l hl' => ?_⟩
      have := (hinv1.2.2.2.2 b).1
      rw [setFl_other _ _ _ _ hb, ← hlists b l hl'] at this
      exact this
  · intro h0
    have h0' : (req_state st).bin (get_bin k) = 0 := by rw [req_state_bin]; exact h0
    refine ⟨heap_allocate_empty_eq _ k h0', ?_⟩
    rw [heap_allocate_empty_eq _ k h0']
    obtain ⟨p, st', e, hcase⟩ := bfuh_spec g (req_state st) k hinv0 hk
    refine ⟨p, st', e, ?_⟩
    rcases hcase with ⟨hp, hi, _, hbins, _⟩ | ⟨h, hp, hi, _, hbins, _⟩
    · refine ⟨fun b => ⟨by rw [hbins, req_state_bin], fun l hl => ?_⟩, fun hne => absurd hp hne⟩
      rw [hlists b l hl]
      exact (hi.2.2.2.2 b).1
    · refine ⟨fun b => ⟨by rw [hbins, req_state_bin], fun l hl => ?_⟩, fun _ => ?_⟩
      · rw [hlists b l hl]
        exact (hi.2.2.2.2 b).1
      · obtain ⟨e1, e2, _⟩ := Inv_rec_size _ st' hi h k (List.mem_cons_self _ _)
        rw [hp, e1, e2]

theorem heap_allocate_pop_or_carve_witness :
    ∃ st', heap_allocate (req_state (state_after 10 [Call.malloc 60, Call.free 0])) 64
        = Res.ok (16777216 + HDR, st') ∧
      IsList st'.mem (st'.bin (get_bin 64)) [] ∧ load_next st'.mem 16777216 = 0 := by
  obtain ⟨st', h1, h2, h3, _⟩ :=
    (heap_allocate_pop_or_carve (state_after 10 [Call.malloc 60, Call.free 0])
      (trace_after 10 [Call.malloc 60, Call.free 0]) 64
      (Reachable_after 10 _ (by decide) (by decide) (by decide)) (by decide)).1
      16777216 [] (by decide)
  exact ⟨st', h1, h2, h3⟩

/-- C25: in a reachable state (the page size is above 528), a request of at
most 512 bytes returns, and after it the arena cursors are in order,
`thread_unused_heap_start ≤ thread_heap_end ≤ heap_used_memory_end ≤ brk`;
when the bin of the class was empty and the result is not NULL, the block was
carved now, its header starts no lower than one page below `thread_heap_end`,
the start of the slice, and its payload ends at the new
`thread_unused_heap_start`, so not beyond `thread_heap_end` nor beyond the
break. -/
theorem carve_inside_slice (st : State) (tr : Trace) (fuel size : Nat)
    (hr : Reachable st tr) (hs : size ≤ 512) :
    ∃ p st', malloc fuel st size = Res.ok (p, st') ∧
      st'.thread_unused_heap_start ≤ st'.thread_heap_end ∧
      st'.thread_heap_end ≤ st'.heap_used_memory_end ∧
      st'.heap_used_memory_end ≤ st'.brk ∧
      (p ≠ 0 → st.bin (get_bin (size_class size)) = 0 →
        st'.thread_heap_end - st'.pagesize ≤ psub p HDR ∧ psub p HDR + HDR = p ∧
        p + size_class size = st'.thread_unused_heap_start ∧
        p + size_class size ≤ st'.thread_heap_end ∧ p + size_class size ≤ st'.brk) := by
  have hH : HDR = 16 := rfl
  obtain ⟨g, hinv, _⟩ := Reachable_inv st tr hr
  have hinv0 := Inv_req_state g st hinv
  have hk := size_class_cases size
  rw [malloc_eq, if_neg (by omega)]
  generalize size_class size = k at hk
  cases hfl : g.fl (get_bin k) with
  | cons a t =>
    obtain ⟨e, hinv1, _⟩ := heap_allocate_pop g (req_state st) k a t hinv0 hfl
    have har := hinv1.2.1
    unfold ArenaOk at har
    refine ⟨_, _, e, har.1, har.2.1, har.2.2.1, fun _ h0 => ?_⟩
    exfalso
    have hb := (hinv.2.2.2.2 (get_bin k)).1
    rw [hfl, IsList_cons] at hb
    exact hb.2.1 (hb.1.symm.trans h0)
  | nil =>
    have hb := (hinv0.2.2.2.2 (get_bin k)).1
    rw [hfl] at hb
    have h0 : (req_state st).bin (get_bin k) = 0 := hb
    rw [heap_allocate_empty_eq _ k h0]
    obtain ⟨p, st', e, hcase⟩ := bfuh_spec g (req_state st) k hinv0 hk
    refine ⟨p, st', e, ?_⟩
    rcases hcase with ⟨hp, hi, _⟩ | ⟨h, hp, hi, _, _, _, c6, c7, _⟩
    · have har := hi.2.1
      unfold ArenaOk at har
      exact ⟨har.1, har.2.1, har.2.2.1, fun hne => absurd hp hne⟩
    · have har := hi.2.1
      unfold ArenaOk at har
      refine ⟨har.1, har.2.1, har.2.2.1, fun _ _ => ?_⟩
      obtain ⟨e1, _, _⟩ := Inv_rec_size _ st' hi h k (List.mem_cons_self _ _)
      rw [hp, e1]
      obtain ⟨a1, a2, a3, _⟩ := har
      clear * - a1 a2 a3 c6 c7 hH
      omega

theorem carve_inside_slice_witness :
    ∃ p st', malloc 10 (state_after 10 [Call.malloc 512]) 500 = Res.ok (p, st') ∧
      st'.thread_unused_heap_start ≤ st'.thread_heap_end ∧
      st'.thread_heap_end ≤ st'.heap_used_memory_end ∧
      st'.heap_used_memory_end ≤ st'.brk ∧
      (p ≠ 0 → (state_after 10 [Call.malloc 512]).bin (get_bin (size_class 500)) = 0 →
        st'.thread_heap_end - st'.pagesize ≤ psub p HDR ∧ psub p HDR + HDR = p ∧
        p + size_class 500 = st'.thread_unused_heap_start ∧
        p + size_class 500 ≤ st'.thread_heap_end ∧ p + size_class 500 ≤ st'.brk) :=
  carve_inside_slice (state_after 10 [Call.malloc 512]) (trace_after 10 [Call.malloc 512])
    10 500 (Reachable_after 10 _ (by decide) (by decide) (by decide)) (by decide)

end Malloc
